import Mathlib

/-!
Verification of the stanza rewriting engine of `update-workspace-snippets`
(package `updater`, file `updater.go`).

The program text is shallowly embedded over `Str := List Char` (the file
contents; all patterns involved are ASCII, so Go's byte strings and Lean's
character lists agree on every construct used here).  Go regular expressions
are embedded as computable functions whose equivalence with the RE2 semantics
of the concrete pattern is argued in the comment next to each definition.

The structured parser and pretty printer for stanza bodies come from the
external library `github.com/bazelbuild/buildtools/build`, which is not part
of this repository; they are modelled from the spec (section 4.2) as a minimal
configuration-language grammar.  Those definitions carry a
`Modelled from the spec:` doc comment.
-/

namespace UWS

/-- File contents / strings, as lists of characters. -/
abbrev Str := List Char

/-- Conversion from Lean string literals. -/
def chars (s : String) : Str := s.toList

/-- Space or tab, the class `[ \t]` used by the Go patterns. -/
def wsCh (c : Char) : Bool := c == ' ' || c == '\t'

/-- Identifier characters of the modelled grammar (letters, digits, underscore). -/
def identCh (c : Char) : Bool := c.isAlpha || c.isDigit || c == '_'

/-- Hexadecimal digits, the POSIX class `[[:xdigit:]]`. -/
def hexCh (c : Char) : Bool :=
  (('0' ≤ c) && (c ≤ '9')) || (('a' ≤ c) && (c ≤ 'f')) || (('A' ≤ c) && (c ≤ 'F'))

/-- Splits a string into lines at newline characters.  A string with `n`
newlines yields `n + 1` lines; this matches where the multiline anchors
`^` and `$` of Go's `regexp` package match. -/
def linesOf : Str → List Str
  | [] => [[]]
  | c :: t =>
    if c == '\n' then [] :: linesOf t
    else
      match linesOf t with
      | [] => [[c]]
      | h :: r => (c :: h) :: r

/-- Joins lines with newline separators, the inverse of `linesOf`. -/
def joinLines : List Str → Str
  | [] => []
  | [l] => l
  | l :: ls => l ++ '\n' :: joinLines ls

/-- Tests whether `p` is a leading segment of `l`. -/
def strStarts : Str → Str → Bool
  | [], _ => true
  | _ :: _, [] => false
  | a :: as, b :: bs => a == b && strStarts as bs

/-- The two stanza kinds recognised by `beginPattern`:
`git_override` and `http_archive`. -/
inductive Kind where
  | git
  | http
deriving DecidableEq

/-- The marker word of each stanza kind. -/
def kindStr : Kind → Str
  | .git => chars "git_override"
  | .http => chars "http_archive"

/-- Membership of `p` in the language of the capture group
`[ \t]*(?://+|#+)?[ \t]*` of `beginPattern` (whitespace, an optional run of
at least two slashes or at least one hash, then whitespace).  Any successful
decomposition of `p` into these three parts forces the comment-marker run to
start at the first non-whitespace character, so the greedy submatch of the
regex and this decomposition agree. -/
def pfxOk (p : Str) : Bool :=
  match p.dropWhile wsCh with
  | [] => true
  | '/' :: t =>
    (match t with
     | '/' :: _ => true
     | _ => false)
      && ((('/' :: t).dropWhile (fun c => c == '/')).all wsCh)
  | '#' :: t => ((('#' :: t).dropWhile (fun c => c == '#')).all wsCh)
  | _ => false

/-- When `l` ends with `suf`, returns the remaining leading part. -/
def stripEnd (l suf : Str) : Option Str :=
  if suf.length ≤ l.length ∧ l.drop (l.length - suf.length) = suf then
    some (l.take (l.length - suf.length))
  else none

/-- Embeds the line test of
`beginPattern = (?m)^([ \t]*(?://+|#+)?[ \t]*)(git_override|http_archive)\($`:
a line matches exactly when it is `p ++ kind ++ "("` for a prefix `p` in the
capture-group language.  The decomposition is unique since the keyword plus
`(` is a fixed suffix and no line can end in both keywords.  Returns the
captured prefix (group 1) and the kind (group 2). -/
def isBeginLine (l : Str) : Option (Str × Kind) :=
  match stripEnd l (kindStr .git ++ ['(']) with
  | some p => if pfxOk p then some (p, .git) else none
  | none =>
    match stripEnd l (kindStr .http ++ ['(']) with
    | some p => if pfxOk p then some (p, .http) else none
    | none => none

/-- Embeds the line test of
`endPattern = (?m)^<QuoteMeta(p)>[ \t]*\)$`: the line is the literal prefix,
optional whitespace, and a closing parenthesis at end of line. -/
def isEndLine (p l : Str) : Bool :=
  strStarts p l
    && (match (l.drop p.length).dropWhile wsCh with
        | [c] => c == ')'
        | _ => false)

/-- Index, captured prefix and kind of the first begin-marker line, as found
by `beginPattern.FindSubmatchIndex` (leftmost match; every match of the
multiline pattern starts at a line start, so the leftmost match is on the
first line satisfying `isBeginLine`). -/
def findBegin : List Str → Option (Nat × Str × Kind)
  | [] => none
  | l :: t =>
    match isBeginLine l with
    | some (p, kd) => some (0, p, kd)
    | none => (findBegin t).map (fun x => (x.1 + 1, x.2))

/-- Index of the first line matching `endPattern` for prefix `p`, as found by
`endPattern.FindIndex` on the text starting at the begin-marker line. -/
def findEnd (p : Str) : List Str → Option Nat
  | [] => none
  | l :: t => if isEndLine p l then some 0 else (findEnd p t).map (· + 1)

/-- Character class of `datePattern = 20\d\d-\d\d-\d\d` at offset `k`
(a fixed-width pattern of ten single-character tests). -/
def dTest (k : Nat) (c : Char) : Bool :=
  if k == 0 then c == '2'
  else if k == 1 then c == '0'
  else if k == 4 || k == 7 then c == '-'
  else c.isDigit

/-- Whether the leading characters of `s` pass tests `k, k+1, …, 9` of
`datePattern` (false when `s` is too short). -/
def partMatch : Str → Nat → Bool
  | s, k =>
    if 10 ≤ k then true
    else
      match s with
      | [] => false
      | c :: t => dTest k c && partMatch t (k + 1)

/-- Whether `datePattern` matches at the start of `s`. -/
def match10 (s : Str) : Bool := partMatch s 0

/-- Worker for `replaceDates`: scans character by character, skipping `n`
more characters of a previously matched window. -/
def rdAux (d : Str) : Str → Nat → Str
  | [], _ => []
  | _ :: t, n + 1 => rdAux d t n
  | c :: t, 0 =>
    if match10 (c :: t) then d ++ rdAux d t 9 else c :: rdAux d t 0

/-- Embeds `datePattern.ReplaceAllLiteralString(s, d)`: replaces every
leftmost non-overlapping match of `20\d\d-\d\d-\d\d` in `s` with `d`.
The pattern has fixed width ten with no alternation, so RE2's leftmost
match search coincides with this left-to-right scan. -/
def replaceDates (d s : Str) : Str := rdAux d s 0

/-- Whether some window of `s` matches `datePattern` (there is a position at
which the scan of `replaceDates` fires). -/
def anyDate : Str → Bool
  | [] => false
  | c :: t => match10 (c :: t) || anyDate t

/-- Modelled from the spec (claim C7): the literal date shape `YYYY-MM-DD` —
four digits, a dash, two digits, a dash, and two digits, with no constraint
on the leading year digits. -/
def specDateYMD (s : Str) : Bool :=
  match s with
  | [y1, y2, y3, y4, d1, m1, m2, d2, e1, e2] =>
    y1.isDigit && y2.isDigit && y3.isDigit && y4.isDigit && (d1 == '-') &&
      m1.isDigit && m2.isDigit && (d2 == '-') && e1.isDigit && e2.isDigit
  | _ => false

/-- Every character of `s` passes the test at its offset, starting at `j`. -/
def pmAll : Str → Nat → Bool
  | [], _ => true
  | c :: t, j => dTest j c && pmAll t (j + 1)

/-- Embeds `hashPattern = ^[[:xdigit:]]*$`: anchored at both ends, it matches
exactly the strings consisting solely of hexadecimal digits (the empty string
included); a newline is not a hex digit, so multi-line values never match. -/
def allHex (s : Str) : Bool := s.all hexCh

/-- No newline characters (`.` in a Go regexp without the `s` flag cannot
match a newline). -/
def noNL (s : Str) : Bool := s.all (fun c => c != '\n')

/-- The string with its maximal trailing run of hex digits removed. -/
def rtrimHex (v : Str) : Str := (v.reverse.dropWhile hexCh).reverse

/-- Embeds `stripPrefixPattern.FindStringSubmatch` for
`^(.*?)[[:xdigit:]]*$`, returning capture group 1.  The pattern is anchored
at both ends and `.` does not match newlines, so the whole value must split
as `a ++ b` with `a` newline-free and `b` all hex; the non-greedy `(.*?)`
makes RE2 return the shortest such `a`.  The scan below tries the empty
split first and extends the group one character at a time, which yields
exactly that shortest `a`. -/
def spAux : Str → Option Str
  | [] => some []
  | c :: t =>
    if allHex (c :: t) then some []
    else if c == '\n' then none
    else (spAux t).map (fun a => c :: a)

/-- Whether `r` has the form `hex-digits ++ ".zip"`, the part of `urlPattern`
after capture group 1. -/
def hexZip (r : Str) : Bool :=
  allHex (r.take (r.length - 4)) && (r.drop (r.length - 4) == chars ".zip")

/-- Worker for `urlMatch`: the shortest nonempty prefix `b` of the input that
ends in `/`, contains no newline, and leaves a remainder of the form
`hex-digits ++ ".zip"`. -/
def urlBody : Str → Option Str
  | [] => none
  | c :: t =>
    if c == '/' && hexZip t then some ['/']
    else if c == '\n' then none
    else (urlBody t).map (fun b => c :: b)

/-- Embeds `urlPattern.FindStringSubmatch` for
`^(.+?/)[[:xdigit:]]*(\.zip)$`, returning capture group 1.  Group 1 is one or
more non-newline characters followed by `/`; the non-greedy `(.+?)` makes RE2
return the shortest prefix of that shape whose remainder is
`hex-digits ++ ".zip"`. -/
def urlMatch : Str → Option Str
  | [] => none
  | c :: t => if c == '\n' then none else (urlBody t).map (fun b => c :: b)

/-- Modelled from the spec: scalar expressions of the minimal
configuration-language grammar of section 4.2 (string literals and bare
atoms such as identifiers or numbers), standing in for the corresponding
`build.Expr` nodes of the external buildtools parser. -/
inductive SVal where
  | str (s : Str)
  | atom (a : Str)
deriving DecidableEq

/-- Modelled from the spec: right-hand sides of assignments — a string
literal, a bare atom, or a list literal of scalars (section 3: "a single
quoted string or a single-element list of one quoted string"; section 4.2:
"string literals, list literals of strings"). -/
inductive Val where
  | str (s : Str)
  | atom (a : Str)
  | list (es : List SVal)
deriving DecidableEq

/-- Modelled from the spec: one keyword argument of a stanza call with its
attached comments — leading comment lines (`Before`), and an optional
same-line trailing comment (`Suffix`). -/
structure Arg where
  before : List Str
  key : Str
  val : Val
  sfx : Option Str
deriving DecidableEq

/-- Modelled from the spec: a parsed stanza body — a call expression with
keyword arguments and comment lines before the closing parenthesis
(`After`-style comments). -/
structure Call where
  func : Str
  args : List Arg
  trailing : List Str
deriving DecidableEq

/-- Parses the head line `ident(` of a stanza body. -/
def parseHead (l : Str) : Option Str :=
  match l.reverse with
  | [] => none
  | c :: rev =>
    if c == '(' then
      match rev.reverse with
      | [] => none
      | fn => if fn.all identCh then some fn else none
    else none

/-- Parses a string literal after its opening quote; the modelled grammar has
no escape sequences, so a backslash is a parse error. -/
def parseStrLit : Str → Option (Str × Str)
  | [] => none
  | c :: t =>
    if c == '"' then some ([], t)
    else if c == '\\' then none
    else (parseStrLit t).map (fun r => (c :: r.1, r.2))

/-- Parses one scalar (string literal or atom). -/
def parseScalar : Str → Option (SVal × Str)
  | [] => none
  | c :: t =>
    if c == '"' then (parseStrLit t).map (fun r => (SVal.str r.1, r.2))
    else
      match (c :: t).takeWhile identCh with
      | [] => none
      | a => some (SVal.atom a, (c :: t).drop a.length)

/-- Parses the elements of a list literal after the opening bracket.  The
fuel argument bounds the number of elements; the callers pass the remaining
input length plus one, which always suffices since every element consumes at
least one character. -/
def parseElems : Nat → Str → Option (List SVal × Str)
  | 0, _ => none
  | fuel + 1, s =>
    match s.dropWhile wsCh with
    | [] => none
    | c :: r =>
      if c == ']' then some ([], r)
      else
        match parseScalar (c :: r) with
        | none => none
        | some (v, r1) =>
          match r1.dropWhile wsCh with
          | [] => none
          | c2 :: r2 =>
            if c2 == ']' then some ([v], r2)
            else if c2 == ',' then
              (parseElems fuel (r2.dropWhile wsCh)).map (fun q => (v :: q.1, q.2))
            else none

/-- Parses one right-hand-side value. -/
def parseValue (s : Str) : Option (Val × Str) :=
  match s with
  | [] => none
  | c :: t =>
    if c == '[' then (parseElems (t.length + 1) t).map (fun q => (Val.list q.1, q.2))
    else
      (parseScalar (c :: t)).map (fun q =>
        (match q.1 with
         | SVal.str x => Val.str x
         | SVal.atom x => Val.atom x, q.2))

/-- Parses an argument line `key = value,` with an optional trailing
comment. -/
def parseArgLine (l : Str) : Option Arg :=
  let l1 := l.dropWhile wsCh
  match l1.takeWhile identCh with
  | [] => none
  | k =>
    match (l1.drop k.length).dropWhile wsCh with
    | [] => none
    | c :: r2 =>
      if c == '=' then
        match parseValue (r2.dropWhile wsCh) with
        | some (v, r4) =>
          let r5 := r4.dropWhile wsCh
          let r6 :=
            match r5 with
            | [] => r5
            | c2 :: t => if c2 == ',' then t.dropWhile wsCh else r5
          match r6 with
          | [] => some ⟨[], k, v, none⟩
          | c3 :: t3 => if c3 == '#' then some ⟨[], k, v, some (c3 :: t3)⟩ else none
        | none => none
      else none

/-- A standalone comment line; returns the comment token (from `#` to the
end of the line, leading whitespace removed). -/
def commentTok (l : Str) : Option Str :=
  match l.dropWhile wsCh with
  | [] => none
  | c :: t => if c == '#' then some (c :: t) else none

/-- The closing line of a stanza body after prefix stripping: whitespace and
a single closing parenthesis. -/
def isCloseLine (l : Str) : Bool :=
  match l.dropWhile wsCh with
  | [c] => c == ')'
  | _ => false

/-- Parses the lines after the head line: arguments and comment lines until
the closing line, which must be the last line.  Standalone comments attach to
the following argument (`Before`) or, after the last argument, to the call
(`After`). -/
def parseArgs : List Str → Option (List Arg × List Str)
  | [] => none
  | l :: rest =>
    if isCloseLine l then
      match rest with
      | [] => some ([], [])
      | _ => none
    else
      match commentTok l with
      | some tok =>
        match parseArgs rest with
        | some ([], tr) => some ([], tok :: tr)
        | some (a :: as, tr) => some ({ a with before := tok :: a.before } :: as, tr)
        | none => none
      | none =>
        match parseArgLine l with
        | some a => (parseArgs rest).map (fun q => (a :: q.1, q.2))
        | none => none

/-- Parses a prefix-stripped stanza body given as lines. -/
def parseLines : List Str → Option Call
  | [] => none
  | l0 :: rest =>
    match parseHead l0 with
    | none => none
    | some fn => (parseArgs rest).map (fun q => Call.mk fn q.1 q.2)

/-- Modelled from the spec: `build.ParseDefault` of the external buildtools
library, restricted to the minimal grammar of section 4.2 — "call
expressions with keyword arguments, string literals, list literals of
strings, line comments".  Returns `none` (parse failure) for anything
else. -/
def parseBody (b : Str) : Option Call := parseLines (linesOf b)

/-- Comma-space separated concatenation, for list literals. -/
def joinComma : List Str → Str
  | [] => []
  | [x] => x
  | x :: xs => x ++ ',' :: ' ' :: joinComma xs

/-- Prints a scalar. -/
def printSVal : SVal → Str
  | .str s => '"' :: (s ++ ['"'])
  | .atom a => a

/-- Prints a value. -/
def printVal : Val → Str
  | .str s => '"' :: (s ++ ['"'])
  | .atom a => a
  | .list es => '[' :: (joinComma (es.map printSVal) ++ [']'])

/-- The canonical four-space indentation of the printer. -/
def ind4 : Str := chars "    "

/-- The printed form of an optional trailing comment: two spaces and the
token. -/
def sfxPart : Option Str → Str
  | some tok => ' ' :: ' ' :: tok
  | none => []

/-- The printed lines of one argument: its leading comments, then
`    key = value,` with the optional trailing comment. -/
def argLines (a : Arg) : List Str :=
  a.before.map (fun tok => ind4 ++ tok) ++
    [ind4 ++ a.key ++ chars " = " ++ printVal a.val ++ [','] ++ sfxPart a.sfx]

/-- The printed lines of a stanza body: head line, argument lines, trailing
comment lines, closing parenthesis. -/
def printLines (c : Call) : List Str :=
  (c.func ++ ['(']) ::
    ((c.args.map argLines).flatten ++
      c.trailing.map (fun tok => ind4 ++ tok) ++ [[')']])

/-- Modelled from the spec: `build.Format` of the external buildtools
library — "re-serialize the structure back to text using a canonical
pretty-printer for that grammar" (section 4.2).  The canonical form prints
one argument per line with four-space indentation and trailing commas, and
ends with a newline. -/
def printCall (c : Call) : Str := joinLines (printLines c) ++ ['\n']

/-- Comment tokens well formed for the printer: start with `#`, no
newline. -/
def wfComment (tok : Str) : Bool :=
  (match tok with
   | c :: _ => c == '#'
   | _ => false) && noNL tok

/-- Identifiers: nonempty, identifier characters only. -/
def wfIdent (k : Str) : Bool :=
  (match k with
   | [] => false
   | _ => true) && k.all identCh

/-- String-literal bodies: no quote, backslash or newline. -/
def wfStrBody (s : Str) : Bool :=
  s.all (fun c => !(c == '"') && !(c == '\\') && !(c == '\n'))

/-- Well-formed scalars. -/
def wfSVal : SVal → Bool
  | .str s => wfStrBody s
  | .atom a => wfIdent a

/-- Well-formed values. -/
def wfVal : Val → Bool
  | .str s => wfStrBody s
  | .atom a => wfIdent a
  | .list es => es.all wfSVal

/-- Well-formed arguments. -/
def wfArg (a : Arg) : Bool :=
  a.before.all wfComment && wfIdent a.key && wfVal a.val &&
    (match a.sfx with
     | some tok => wfComment tok
     | none => true)

/-- Well-formed calls: exactly the image of the parser. -/
def wfCall (c : Call) : Bool :=
  wfIdent c.func && c.args.all wfArg && c.trailing.all wfComment

/-- The `UpdateContext`: the three fields of the Go `Updater` struct —
`refHash.String()` (40 lowercase hex digits), `archiveHash.String()`
(64 lowercase hex digits), and the formatted date. -/
structure Ctx where
  commit : Str
  sha : Str
  date : Str

/-- The validity facts about the three context fields that hold for every
real `Updater`: the two hashes print as strings of hexadecimal digits, and
the date, formatted with Go layout `2006-01-02`, matches `datePattern` and
has length ten. -/
def ctxOk (ctx : Ctx) : Bool :=
  allHex ctx.commit && allHex ctx.sha && match10 ctx.date &&
    (ctx.date.length == 10)

/-- A concrete example context used for witnesses and counterexamples. -/
def ctxA : Ctx := ⟨chars "aaaa", chars "bbbb", chars "2021-04-24"⟩

/-- Embeds the `switch i.Name` of `visit` in `updater.go`: the per-field
substitution applied to an assignment `k = v`.  `commit` and `sha256`
require an all-hex string; `urls` requires a one-element list of a string
matching `urlPattern`; `strip_prefix` requires a string matching
`stripPrefixPattern`.  Every other field, and every non-matching value, is
left unchanged. -/
def subst (ctx : Ctx) (k : Str) (v : Val) : Val :=
  if k = chars "commit" then
    match v with
    | .str s => if allHex s then .str ctx.commit else v
    | _ => v
  else if k = chars "urls" then
    match v with
    | .list [SVal.str s] =>
      match urlMatch s with
      | some m1 => .list [SVal.str (m1 ++ ctx.commit ++ chars ".zip")]
      | none => v
    | _ => v
  else if k = chars "sha256" then
    match v with
    | .str s => if allHex s then .str ctx.sha else v
    | _ => v
  else if k = chars "strip_prefix" then
    match v with
    | .str s =>
      match spAux s with
      | some m1 => .str (m1 ++ ctx.commit)
      | none => v
    | _ => v
  else v

/-- Embeds the comment mutation of `visit`: every comment token attached to
any node has `datePattern` matches replaced by the date, and each assignment
is rewritten by `subst`. -/
def rewriteArg (ctx : Ctx) (a : Arg) : Arg :=
  { before := a.before.map (replaceDates ctx.date),
    key := a.key,
    val := subst ctx a.key a.val,
    sfx := a.sfx.map (replaceDates ctx.date) }

/-- Embeds `build.Walk(f, u.visit)` on a parsed stanza body: `visit` runs on
every node; comments live on arguments and on the call, and the assignment
cases of the switch fire on the keyword arguments. -/
def rewriteCall (ctx : Ctx) (c : Call) : Call :=
  { func := c.func,
    args := c.args.map (rewriteArg ctx),
    trailing := c.trailing.map (replaceDates ctx.date) }

/-- Removes a leading occurrence of `p` from one line, as
`regexp.MustCompile("(?m)^" + QuoteMeta(p)).ReplaceAllLiteral(b, nil)` does
at each line start. -/
def stripOne (p l : Str) : Str := if strStarts p l then l.drop p.length else l

/-- The prefix-stripping step of `update` in `updater.go`. -/
def stripLines (p b : Str) : Str := joinLines ((linesOf b).map (stripOne p))

/-- The prefix re-application step of `update`:
`regexp.MustCompile("(?m)^").ReplaceAllLiteral(b, p)` inserts `p` at every
line start. -/
def rePfxLines (p b : Str) : Str := joinLines ((linesOf b).map (fun l => p ++ l))

/-- Removes one trailing newline, as the
`if i := len(b)-1; i >= 0 && b[i] == '\n' { b = b[:i] }` step of `update`. -/
def dropNL : Str → Str
  | [] => []
  | [c] => if c == '\n' then [] else [c]
  | c :: t => c :: dropNL t

/-- Embeds `(*Updater).update` in `updater.go`: strip the prefix from every
line, parse; on failure return the stripped bytes unchanged; on success walk
the tree, format it, drop the trailing newline, and put the prefix back on
every line. -/
def stanzaUpdate (ctx : Ctx) (b p : Str) : Str :=
  let b2 := stripLines p b
  match parseBody b2 with
  | none => b2
  | some f => rePfxLines p (dropNL (printCall (rewriteCall ctx f)))

/-- The two per-file error cases of `Update` in `updater.go` (the read error
is outside the model: contents are the input). -/
inductive UpdErr where
  | noStanza
  | unterminated (kd : Kind)
deriving DecidableEq

/-- Embeds the stanza loop of `(*Updater).Update` in `updater.go`, working
on the file's lines: find the first begin-marker line; if none, fail unless
a stanza was already found; find the first end line at the captured prefix
from the begin line on (error if none); rewrite the region through
`stanzaUpdate`; continue after the end line.  The fuel bounds the number of
iterations; every iteration consumes at least one line, so any fuel of at
least the number of lines gives the loop's exact behaviour (the fuel-zero
branch is unreachable then). -/
def processLines (ctx : Ctx) : Nat → List Str → Bool → Except UpdErr (List Str)
  | fuel, ls, found =>
    match findBegin ls with
    | none => if found then .ok ls else .error .noStanza
    | some (k, p, kd) =>
      match findEnd p (ls.drop k) with
      | none => .error (.unterminated kd)
      | some j =>
        match fuel with
        | 0 => .error .noStanza
        | fuel2 + 1 =>
          (processLines ctx fuel2 ((ls.drop k).drop (j + 1)) true).map
            (fun out =>
              ls.take k ++
                linesOf (stanzaUpdate ctx (joinLines ((ls.drop k).take (j + 1))) p) ++
                out)

/-- Embeds `(*Updater).Update` on file contents, returning the rewritten
contents or the per-file error. -/
def update (ctx : Ctx) (contents : Str) : Except UpdErr Str :=
  (processLines ctx (linesOf contents).length (linesOf contents) false).map joinLines

/-- The file state after `Update`: on success the atomically renamed output,
on error the unchanged original (no output file is written). -/
def fileAfter (ctx : Ctx) (contents : Str) : Str :=
  match update ctx contents with
  | .ok o => o
  | .error _ => contents

/-- Embeds the file loop of `main` (`main.go`): update each file in order,
remember whether any file failed, keep going; the boolean is the final
success flag (`os.Exit(1)` when false). -/
def runFiles (ctx : Ctx) : List Str → Bool → List (Except UpdErr Str) × Bool
  | [], success => ([], success)
  | f :: fs, success =>
    let r := update ctx f
    let q := runFiles ctx fs
      (match r with
       | .ok _ => success
       | .error _ => false)
    (r :: q.1, q.2)

/-- Whether every stanza region located by the scan has a body that parses
(the hypothesis of the amended idempotence claim).  Follows the recursion of
`processLines`. -/
def allParseL : Nat → List Str → Bool
  | fuel, ls =>
    match findBegin ls with
    | none => true
    | some (k, p, _) =>
      match findEnd p (ls.drop k) with
      | none => true
      | some j =>
        (parseBody (stripLines p (joinLines ((ls.drop k).take (j + 1))))).isSome &&
          (match fuel with
           | 0 => false
           | fuel2 + 1 => allParseL fuel2 ((ls.drop k).drop (j + 1)))

/-- Whether every begin marker located by the scan has a matching end line
(the success condition of the loop). -/
def allEndsFound : Nat → List Str → Bool
  | fuel, ls =>
    match findBegin ls with
    | none => true
    | some (k, p, _) =>
      match findEnd p (ls.drop k) with
      | none => false
      | some j =>
        match fuel with
        | 0 => false
        | fuel2 + 1 => allEndsFound fuel2 ((ls.drop k).drop (j + 1))

/-- The kind of the first begin marker located by the resuming scan that has
no matching end line, if any: the scan locates a begin marker, and either its
end line is missing (the failing marker, at any iteration) or the scan
resumes after the end line. -/
def scanUnterminated : Nat → List Str → Option Kind
  | fuel, ls =>
    match findBegin ls with
    | none => none
    | some (k, p, kd) =>
      match findEnd p (ls.drop k) with
      | none => some kd
      | some j =>
        match fuel with
        | 0 => none
        | fuel2 + 1 => scanUnterminated fuel2 ((ls.drop k).drop (j + 1))

/-- The rest of an end-marker line after the literal prefix. -/
def endTail (x : Str) : Bool :=
  match x.dropWhile wsCh with
  | [c] => c == ')'
  | _ => false

/-- The input half of a header/stanza decomposition: the concatenation of
(unchanged text, stanza region) pairs, then the unchanged tail. -/
def glueIn (cs : List (Str × Str × Str)) (tail : Str) : Str :=
  (cs.map (fun c => c.1 ++ c.2.1)).flatten ++ tail

/-- The output half of the decomposition: the same unchanged pieces with each
stanza region replaced by its rewritten form. -/
def glueOut (cs : List (Str × Str × Str)) (tail : Str) : Str :=
  (cs.map (fun c => c.1 ++ c.2.2)).flatten ++ tail

/-- The chunk properties: the middle component is a located stanza region
(its first line a begin-marker line with prefix `p`), and the last component
is exactly that region rewritten by `(*Updater).update`. -/
def stanzaChunk (ctx : Ctx) (c : Str × Str × Str) : Prop :=
  ∃ p kd rg, c.2.1 = joinLines rg ∧ rg ≠ [] ∧
    isBeginLine (rg.headD []) = some (p, kd) ∧
    c.2.2 = stanzaUpdate ctx c.2.1 p

/-- The characters of a scalar value. -/
def svalChars : SVal → Str
  | .str s => s
  | .atom a => a

theorem linesOf_ne_nil (s : Str) : linesOf s ≠ [] := by
  cases s with
  | nil => simp [linesOf]
  | cons c t =>
    simp only [linesOf]
    split
    · simp
    · split <;> simp

theorem joinLines_cons (l : Str) (ls : List Str) (h : ls ≠ []) :
    joinLines (l :: ls) = l ++ '\n' :: joinLines ls := by
  cases ls with
  | nil => exact absurd rfl h
  | cons a as => rfl

theorem joinLines_linesOf (s : Str) : joinLines (linesOf s) = s := by
  induction s with
  | nil => rfl
  | cons c t ih =>
    simp only [linesOf]
    by_cases hc : (c == '\n') = true
    · rw [if_pos hc, joinLines_cons _ _ (linesOf_ne_nil t)]
      have : c = '\n' := by simpa using hc
      simp [this, ih]
    · rw [if_neg hc]
      cases he : linesOf t with
      | nil => exact absurd he (linesOf_ne_nil t)
      | cons h r =>
        cases r with
        | nil =>
          simp only [joinLines]
          rw [he] at ih
          simpa [joinLines] using ih
        | cons h2 r2 =>
          simp only [joinLines]
          rw [he] at ih
          simpa [joinLines] using ih

theorem linesOf_append_newline (a : Str) (ha : '\n' ∉ a) (t : Str) :
    linesOf (a ++ '\n' :: t) = a :: linesOf t := by
  induction a with
  | nil => simp [linesOf]
  | cons c cs ih =>
    have hc : ¬(c == '\n') = true := by
      simp only [List.mem_cons, not_or] at ha
      intro h
      exact ha.1 (Eq.symm (by simpa using h))
    simp only [List.cons_append, linesOf, if_neg hc]
    rw [show cs.append ('\n' :: t) = cs ++ '\n' :: t from rfl,
      ih (by simp only [List.mem_cons, not_or] at ha; exact ha.2)]

theorem linesOf_no_newline (a : Str) (ha : '\n' ∉ a) : linesOf a = [a] := by
  induction a with
  | nil => rfl
  | cons c cs ih =>
    have hc : ¬(c == '\n') = true := by
      simp only [List.mem_cons, not_or] at ha
      intro h
      exact ha.1 (Eq.symm (by simpa using h))
    simp only [linesOf, if_neg hc]
    rw [ih (by simp only [List.mem_cons, not_or] at ha; exact ha.2)]

theorem linesOf_joinLines (ls : List Str) (hne : ls ≠ [])
    (hnl : ∀ l ∈ ls, '\n' ∉ l) : linesOf (joinLines ls) = ls := by
  induction ls with
  | nil => exact absurd rfl hne
  | cons l rest ih =>
    cases rest with
    | nil =>
      simp only [joinLines]
      exact linesOf_no_newline l (hnl l (by simp))
    | cons r rs =>
      rw [joinLines_cons _ _ (by simp)]
      rw [linesOf_append_newline l (hnl l (by simp)) _]
      rw [ih (by simp) (fun x hx => hnl x (List.mem_cons_of_mem _ hx))]

theorem joinLines_append (A B : List Str) (hB : B ≠ []) :
    joinLines (A ++ B) = (A.map (fun l => l ++ ['\n'])).flatten ++ joinLines B := by
  induction A with
  | nil => simp
  | cons a as ih =>
    have hne : as ++ B ≠ [] := by
      cases as <;> simp_all
    rw [List.cons_append, joinLines_cons _ _ hne, ih]
    simp

theorem strStarts_iff (p l : Str) : strStarts p l = true ↔ ∃ r, l = p ++ r := by
  induction p generalizing l with
  | nil => simp [strStarts]
  | cons a as ih =>
    cases l with
    | nil => simp [strStarts]
    | cons b bs =>
      simp only [strStarts, Bool.and_eq_true, beq_iff_eq, ih]
      constructor
      · rintro ⟨rfl, r, rfl⟩
        exact ⟨r, rfl⟩
      · rintro ⟨r, h⟩
        simp only [List.cons_append, List.cons.injEq] at h
        exact ⟨h.1.symm, r, h.2⟩

theorem strStarts_append (p r : Str) : strStarts p (p ++ r) = true := by
  rw [strStarts_iff]
  exact ⟨r, rfl⟩

theorem findBegin_eq_none (ls : List Str) :
    findBegin ls = none ↔ ∀ x ∈ ls, isBeginLine x = none := by
  induction ls with
  | nil => simp [findBegin]
  | cons l t ih =>
    cases hb : isBeginLine l with
    | some v => simp [findBegin, hb]
    | none =>
      rw [findBegin, hb, Option.map_eq_none', ih]
      constructor
      · intro h x hx
        rcases List.mem_cons.mp hx with rfl | hx
        · exact hb
        · exact h x hx
      · intro h x hx
        exact h x (List.mem_cons_of_mem _ hx)

theorem findBegin_spec (ls : List Str) (k : Nat) (p : Str) (kd : Kind)
    (h : findBegin ls = some (k, p, kd)) :
    ∃ pre l rest, ls = pre ++ l :: rest ∧ pre.length = k ∧
      isBeginLine l = some (p, kd) ∧ ∀ x ∈ pre, isBeginLine x = none := by
  induction ls generalizing k with
  | nil => simp [findBegin] at h
  | cons l t ih =>
    cases hb : isBeginLine l with
    | some v =>
      obtain ⟨p0, kd0⟩ := v
      rw [findBegin, hb] at h
      obtain ⟨rfl, rfl, rfl⟩ : (0 : Nat) = k ∧ p0 = p ∧ kd0 = kd := by
        simpa [Prod.ext_iff] using h
      exact ⟨[], l, t, rfl, rfl, hb, by simp⟩
    | none =>
      rw [findBegin, hb] at h
      cases hf : findBegin t with
      | none => rw [hf] at h; simp at h
      | some v =>
        obtain ⟨k0, p0, kd0⟩ := v
        rw [hf] at h
        obtain ⟨hk, rfl, rfl⟩ : k0 + 1 = k ∧ p0 = p ∧ kd0 = kd := by
          simpa [Prod.ext_iff] using h
        obtain ⟨pre, l2, rest, heq, hlen, hbl, hpre⟩ := ih k0 hf
        refine ⟨l :: pre, l2, rest, by simp [heq], by simp [hlen, hk], hbl, ?_⟩
        intro x hx
        rcases List.mem_cons.mp hx with rfl | hx
        · exact hb
        · exact hpre x hx

theorem findBegin_append (pre : List Str) (l : Str) (rest : List Str)
    (hpre : ∀ x ∈ pre, isBeginLine x = none) (p : Str) (kd : Kind)
    (hl : isBeginLine l = some (p, kd)) :
    findBegin (pre ++ l :: rest) = some (pre.length, p, kd) := by
  induction pre with
  | nil => simp [findBegin, hl]
  | cons a as ih =>
    rw [List.cons_append, findBegin, hpre a (by simp),
      ih (fun x hx => hpre x (List.mem_cons_of_mem _ hx))]
    simp

theorem findEnd_eq_none (p : Str) (ls : List Str) :
    findEnd p ls = none ↔ ∀ x ∈ ls, isEndLine p x = false := by
  induction ls with
  | nil => simp [findEnd]
  | cons l t ih =>
    by_cases he : isEndLine p l
    · simp [findEnd, he]
    · rw [findEnd, if_neg he, Option.map_eq_none', ih]
      constructor
      · intro h x hx
        rcases List.mem_cons.mp hx with rfl | hx
        · simpa using he
        · exact h x hx
      · intro h x hx
        exact h x (List.mem_cons_of_mem _ hx)

theorem findEnd_spec (p : Str) (ls : List Str) (j : Nat)
    (h : findEnd p ls = some j) :
    ∃ pre l rest, ls = pre ++ l :: rest ∧ pre.length = j ∧
      isEndLine p l = true ∧ ∀ x ∈ pre, isEndLine p x = false := by
  induction ls generalizing j with
  | nil => simp [findEnd] at h
  | cons l t ih =>
    by_cases he : isEndLine p l
    · rw [findEnd, if_pos he] at h
      simp only [Option.some.injEq] at h
      exact ⟨[], l, t, rfl, by simp [h], he, by simp⟩
    · rw [findEnd, if_neg he] at h
      cases hf : findEnd p t with
      | none => rw [hf] at h; simp at h
      | some j2 =>
        rw [hf] at h
        simp only [Option.map_some', Option.some.injEq] at h
        obtain ⟨pre, l2, rest, heq, hlen, hel, hpre⟩ := ih j2 hf
        refine ⟨l :: pre, l2, rest, by simp [heq], by simp [hlen, h], hel, ?_⟩
        intro x hx
        rcases List.mem_cons.mp hx with rfl | hx
        · simpa using he
        · exact hpre x hx

theorem findEnd_append (p : Str) (pre : List Str) (l : Str) (rest : List Str)
    (hpre : ∀ x ∈ pre, isEndLine p x = false) (hl : isEndLine p l = true) :
    findEnd p (pre ++ l :: rest) = some pre.length := by
  induction pre with
  | nil => simp [findEnd, hl]
  | cons a as ih =>
    rw [List.cons_append, findEnd, if_neg (by simp [hpre a (by simp)]),
      ih (fun x hx => hpre x (List.mem_cons_of_mem _ hx))]
    simp

theorem partMatch_ge (s : Str) (k : Nat) (h : 10 ≤ k) : partMatch s k = true := by
  cases s <;> rw [partMatch] <;> simp [h]

theorem partMatch_nil (k : Nat) (h : k < 10) : partMatch [] k = false := by
  rw [partMatch]
  simp [Nat.not_le.mpr h]

theorem partMatch_cons (c : Char) (t : Str) (k : Nat) (h : k < 10) :
    partMatch (c :: t) k = (dTest k c && partMatch t (k + 1)) := by
  rw [partMatch]
  simp [Nat.not_le.mpr h]

theorem partMatch_length (s : Str) (k : Nat) (h : partMatch s k = true) :
    10 ≤ k + s.length := by
  induction s generalizing k with
  | nil =>
    by_cases hk : 10 ≤ k
    · simpa using hk
    · rw [partMatch_nil k (Nat.not_le.mp hk)] at h
      exact absurd h (by simp)
  | cons c t ih =>
    by_cases hk : 10 ≤ k
    · omega
    · rw [partMatch_cons c t k (Nat.not_le.mp hk)] at h
      have := ih (k + 1) (by simp only [Bool.and_eq_true] at h; exact h.2)
      simp only [List.length_cons]
      omega

theorem partMatch_append_of_le (w X : Str) (k : Nat) (h : 10 ≤ k + w.length) :
    partMatch (w ++ X) k = partMatch w k := by
  induction w generalizing k with
  | nil =>
    have : 10 ≤ k := by simpa using h
    simp [partMatch_ge _ _ this]
  | cons c cs ih =>
    by_cases hk : 10 ≤ k
    · rw [partMatch_ge _ _ hk, partMatch_ge _ _ hk]
    · rw [List.cons_append,
        partMatch_cons _ _ _ (Nat.not_le.mp hk),
        partMatch_cons _ _ _ (Nat.not_le.mp hk),
        ih (k + 1) (by simp only [List.length_cons] at h; omega)]

theorem pmAll_take (s : Str) (k : Nat) (h : partMatch s k = true) :
    pmAll (s.take (10 - k)) k = true := by
  induction s generalizing k with
  | nil => simp [pmAll]
  | cons c t ih =>
    by_cases hk : 10 ≤ k
    · simp [Nat.sub_eq_zero_of_le hk, pmAll]
    · rw [partMatch_cons _ _ _ (Nat.not_le.mp hk)] at h
      simp only [Bool.and_eq_true] at h
      have h10 : 10 - k = (10 - (k + 1)) + 1 := by omega
      rw [h10, List.take_succ_cons, pmAll]
      simp only [Bool.and_eq_true]
      exact ⟨h.1, ih (k + 1) h.2⟩

theorem dTest_digit_idx (k : Nat) (c : Char)
    (h0 : k ≠ 0) (h1 : k ≠ 1) (h4 : k ≠ 4) (h7 : k ≠ 7) :
    dTest k c = c.isDigit := by
  unfold dTest
  rw [if_neg (by simpa using h0), if_neg (by simpa using h1),
    if_neg (by simp [h4, h7])]

theorem dTest_dash_idx (k : Nat) (c : Char)
    (h0 : k ≠ 0) (h1 : k ≠ 1) (h47 : k = 4 ∨ k = 7) :
    dTest k c = (c == '-') := by
  unfold dTest
  rw [if_neg (by simpa using h0), if_neg (by simpa using h1),
    if_pos (by rcases h47 with rfl | rfl <;> simp)]

theorem dTest_cases (j : Nat) (c : Char) (h : dTest j c = true) :
    (j = 0 ∧ c = '2') ∨ (j = 1 ∧ c = '0') ∨ ((j = 4 ∨ j = 7) ∧ c = '-') ∨
      ((j ≠ 0 ∧ j ≠ 1 ∧ j ≠ 4 ∧ j ≠ 7) ∧ c.isDigit = true) := by
  by_cases h0 : j = 0
  · left
    refine ⟨h0, ?_⟩
    rw [h0] at h
    unfold dTest at h
    simpa using h
  · by_cases h1 : j = 1
    · right; left
      refine ⟨h1, ?_⟩
      rw [h1] at h
      unfold dTest at h
      simpa using h
    · by_cases h47 : j = 4 ∨ j = 7
      · right; right; left
        refine ⟨h47, ?_⟩
        rw [dTest_dash_idx j c h0 h1 h47] at h
        simpa using h
      · right; right; right
        push_neg at h47
        refine ⟨⟨h0, h1, h47.1, h47.2⟩, ?_⟩
        rwa [dTest_digit_idx j c h0 h1 h47.1 h47.2] at h

theorem digit_not_dash (c : Char) (h : c.isDigit = true) : (c == '-') = false := by
  cases hc : c == '-' with
  | false => rfl
  | true =>
    have : c = '-' := by simpa using hc
    rw [this] at h
    exact absurd h (by decide)

theorem dTest_congr (j k : Nat) (x y : Char) (hjk : j < k) (_hk : k < 10)
    (hx : dTest j x = true) (hy : dTest j y = true) : dTest k x = dTest k y := by
  rcases dTest_cases j x hx with ⟨hj, ex⟩ | ⟨hj, ex⟩ | ⟨hj, ex⟩ | ⟨hj, ex⟩
  · rcases dTest_cases j y hy with ⟨_, ey⟩ | ⟨hj2, _⟩ | ⟨hj2, _⟩ | ⟨hj2, _⟩
    · rw [ex, ey]
    · omega
    · omega
    · exact absurd hj hj2.1
  · rcases dTest_cases j y hy with ⟨hj2, _⟩ | ⟨_, ey⟩ | ⟨hj2, _⟩ | ⟨hj2, _⟩
    · omega
    · rw [ex, ey]
    · omega
    · exact absurd hj hj2.2.1
  · rcases dTest_cases j y hy with ⟨hj2, _⟩ | ⟨hj2, _⟩ | ⟨_, ey⟩ | ⟨hj2, _⟩
    · omega
    · omega
    · rw [ex, ey]
    · rcases hj with rfl | rfl
      · exact absurd rfl hj2.2.2.1
      · exact absurd rfl hj2.2.2.2
  · rcases dTest_cases j y hy with ⟨hj2, _⟩ | ⟨hj2, _⟩ | ⟨hj2, _⟩ | ⟨_, ey⟩
    · exact absurd hj2 hj.1
    · exact absurd hj2 hj.2.1
    · rcases hj2 with rfl | rfl
      · exact absurd rfl hj.2.2.1
      · exact absurd rfl hj.2.2.2
    · -- x, y both digits; the test at k is not index 0 or 1 (since j < k
      -- and j itself avoids 0; index 1 would force j = 0).
      have hk0 : k ≠ 0 := by omega
      by_cases hk1 : k = 1
      · exfalso
        have : j = 0 := by omega
        exact hj.1 this
      · by_cases hk47 : k = 4 ∨ k = 7
        · rw [dTest_dash_idx k x hk0 hk1 hk47, dTest_dash_idx k y hk0 hk1 hk47,
            digit_not_dash x ex, digit_not_dash y ey]
        · push_neg at hk47
          rw [dTest_digit_idx k x hk0 hk1 hk47.1 hk47.2,
            dTest_digit_idx k y hk0 hk1 hk47.1 hk47.2, ex, ey]

theorem pmPair (a b : Str) (j k : Nat) (X Y : Str)
    (ha : pmAll a j = true) (hb : pmAll b j = true)
    (hla : a.length + j = 10) (hlb : b.length + j = 10) (hjk : j < k) :
    partMatch (a ++ X) k = partMatch (b ++ Y) k := by
  induction a generalizing b j k with
  | nil =>
    have hj : j = 10 := by simpa using hla
    rw [partMatch_ge ([] ++ X) k (by omega), partMatch_ge (b ++ Y) k (by omega)]
  | cons c cs ih =>
    cases b with
    | nil =>
      exfalso
      have h1 : j = 10 := by simpa using hlb
      have h2 := hla
      simp only [List.length_cons] at h2
      omega
    | cons e bs =>
      by_cases hk : 10 ≤ k
      · rw [partMatch_ge _ _ hk, partMatch_ge _ _ hk]
      · have hklt : k < 10 := Nat.not_le.mp hk
        rw [List.cons_append, List.cons_append,
          partMatch_cons _ _ _ hklt, partMatch_cons _ _ _ hklt]
        simp only [pmAll, Bool.and_eq_true] at ha hb
        rw [dTest_congr j k c e hjk hklt ha.1 hb.1]
        by_cases hk9 : k + 1 < 10
        · rw [ih bs (j + 1) (k + 1) ha.2 hb.2
            (by simp only [List.length_cons] at hla; omega)
            (by simp only [List.length_cons] at hlb; omega) (by omega)]
        · rw [partMatch_ge (cs ++ X) (k + 1) (by omega),
            partMatch_ge (bs ++ Y) (k + 1) (by omega)]

theorem rdAux_skip (d : Str) (t : Str) (n : Nat) :
    rdAux d t n = replaceDates d (t.drop n) := by
  induction t generalizing n with
  | nil => simp [rdAux, replaceDates]
  | cons c u ih =>
    cases n with
    | zero => simp [replaceDates]
    | succ m =>
      rw [show rdAux d (c :: u) (m + 1) = rdAux d u m from rfl, ih m]
      simp

theorem replaceDates_cons (d : Str) (c : Char) (u : Str) :
    replaceDates d (c :: u) =
      if match10 (c :: u) then d ++ replaceDates d (u.drop 9)
      else c :: replaceDates d u := by
  rw [replaceDates, rdAux]
  by_cases h : match10 (c :: u)
  · rw [if_pos h, if_pos h, rdAux_skip]
  · rw [if_neg h, if_neg h]
    rfl

theorem pmOut (d : Str) (hd : match10 d = true) (hdl : d.length = 10)
    (t : Str) (k : Nat) (hk : 1 ≤ k) :
    partMatch (replaceDates d t) k = partMatch t k := by
  induction t generalizing k with
  | nil => simp [replaceDates, rdAux]
  | cons c u ih =>
    rw [replaceDates_cons]
    by_cases hm : match10 (c :: u)
    · rw [if_pos hm]
      have hlen : 10 ≤ (c :: u).length := by simpa using partMatch_length _ _ hm
      have hda : pmAll d 0 = true := by
        have h1 := pmAll_take d 0 hd
        rwa [Nat.sub_zero, ← hdl, List.take_length] at h1
      have hba : pmAll ((c :: u).take 10) 0 = true := by
        have h1 := pmAll_take (c :: u) 0 hm
        rwa [Nat.sub_zero] at h1
      conv_rhs => rw [← List.take_append_drop 10 (c :: u)]
      exact pmPair d ((c :: u).take 10) 0 k _ _ hda hba
        (by omega) (by rw [List.length_take]; omega) (by omega)
    · rw [if_neg hm]
      by_cases hk10 : 10 ≤ k
      · rw [partMatch_ge _ _ hk10, partMatch_ge _ _ hk10]
      · rw [partMatch_cons _ _ _ (Nat.not_le.mp hk10),
          partMatch_cons _ _ _ (Nat.not_le.mp hk10),
          ih (k + 1) (by omega)]

theorem replaceDates_append_self (d : Str) (hd : match10 d = true)
    (hdl : d.length = 10) (Z : Str) :
    replaceDates d (d ++ Z) = d ++ replaceDates d Z := by
  cases hdc : d with
  | nil => rw [hdc] at hdl; simp at hdl
  | cons d0 dt =>
    have hdt : dt.length = 9 := by
      rw [hdc] at hdl
      simpa using hdl
    have hmd : match10 ((d0 :: dt) ++ Z) = true := by
      rw [match10, partMatch_append_of_le _ _ 0
        (by simp only [List.length_cons, hdt]; omega)]
      rw [hdc] at hd
      exact hd
    rw [List.cons_append, replaceDates_cons,
      if_pos (by simpa [List.cons_append] using hmd)]
    suffices hsuf : (dt ++ Z).drop 9 = Z by
      rw [hsuf]
    rw [show (9 : Nat) = dt.length from hdt.symm, List.drop_left]

theorem replaceDates_idem (d : Str) (hd : match10 d = true)
    (hdl : d.length = 10) (s : Str) :
    replaceDates d (replaceDates d s) = replaceDates d s := by
  have H : ∀ (n : Nat) (t : Str), t.length ≤ n →
      replaceDates d (replaceDates d t) = replaceDates d t := by
    intro n
    induction n with
    | zero =>
      intro t ht
      have : t = [] := List.eq_nil_of_length_eq_zero (Nat.le_zero.mp ht)
      rw [this]
      simp [replaceDates, rdAux]
    | succ n ihn =>
      intro t ht
      cases t with
      | nil => simp [replaceDates, rdAux]
      | cons c u =>
        rw [replaceDates_cons]
        by_cases hm : match10 (c :: u)
        · rw [if_pos hm, replaceDates_append_self d hd hdl,
            ihn (u.drop 9) (by
              simp only [List.length_drop]
              simp only [List.length_cons] at ht
              omega)]
        · rw [if_neg hm, replaceDates_cons]
          have hnm : match10 (c :: replaceDates d u) = false := by
            rw [match10, partMatch_cons _ _ _ (by omega),
              pmOut d hd hdl u 1 (by omega)]
            rw [match10, partMatch_cons _ _ _ (by omega)] at hm
            simpa using hm
          rw [if_neg (by simp [hnm]),
            ihn u (by simp only [List.length_cons] at ht; omega)]
  exact H s.length s le_rfl

theorem allHex_noNL (s : Str) (h : allHex s = true) : noNL s = true := by
  simp only [allHex, List.all_eq_true] at h
  simp only [noNL, List.all_eq_true]
  intro c hc
  have hx := h c hc
  have hne : c ≠ '\n' := by
    intro hcon
    rw [hcon] at hx
    exact absurd hx (by decide)
  simpa using hne

theorem rtrimHex_of_allHex (v : Str) (h : allHex v = true) : rtrimHex v = [] := by
  unfold rtrimHex
  rw [List.dropWhile_eq_nil_iff.mpr]
  · rfl
  · intro c hc
    simp only [allHex, List.all_eq_true] at h
    exact h c (List.mem_reverse.mp hc)

theorem rtrimHex_cons_of_not_allHex (c : Char) (t : Str)
    (h : allHex (c :: t) = false) : rtrimHex (c :: t) = c :: rtrimHex t := by
  unfold rtrimHex
  rw [show (c :: t).reverse = t.reverse ++ [c] from by simp]
  rw [List.dropWhile_append]
  by_cases ht : allHex t
  · have hdn : t.reverse.dropWhile hexCh = [] := by
      rw [List.dropWhile_eq_nil_iff]
      intro x hx
      simp only [allHex, List.all_eq_true] at ht
      exact ht x (List.mem_reverse.mp hx)
    have hc : hexCh c = false := by
      cases hcc : hexCh c with
      | false => rfl
      | true =>
        exfalso
        have : allHex (c :: t) = true := by
          simp only [allHex, List.all_eq_true]
          intro x hx
          rcases List.mem_cons.mp hx with rfl | hx
          · exact hcc
          · simp only [allHex, List.all_eq_true] at ht
            exact ht x hx
        rw [this] at h
        exact absurd h (by simp)
    rw [hdn]
    simp [List.dropWhile, hc, rtrimHex, hdn]
  · have hdn : t.reverse.dropWhile hexCh ≠ [] := by
      intro hcon
      rw [List.dropWhile_eq_nil_iff] at hcon
      have : allHex t = true := by
        simp only [allHex, List.all_eq_true]
        intro x hx
        exact hcon x (List.mem_reverse.mpr hx)
      exact absurd this ht
    rw [if_neg (by simpa using hdn)]
    simp

theorem spAux_of_noNL (v : Str) (h : noNL v = true) :
    spAux v = some (rtrimHex v) := by
  induction v with
  | nil => simp [spAux, rtrimHex]
  | cons c t ih =>
    simp only [spAux]
    by_cases ha : allHex (c :: t) = true
    · rw [if_pos ha, rtrimHex_of_allHex _ ha]
    · rw [if_neg ha]
      have hc : ¬(c == '\n') = true := by
        simp only [noNL, List.all_eq_true] at h
        have := h c (by simp)
        simpa using this
      rw [if_neg hc]
      rw [ih (by
        simp only [noNL, List.all_eq_true] at h ⊢
        intro x hx
        exact h x (List.mem_cons_of_mem _ hx))]
      rw [rtrimHex_cons_of_not_allHex c t (by simpa using ha)]
      simp

theorem spAux_of_newline (v : Str) (h : noNL v = false) : spAux v = none := by
  induction v with
  | nil => simp [noNL] at h
  | cons c t ih =>
    simp only [spAux]
    have hnh : allHex (c :: t) = false := by
      cases hcc : allHex (c :: t) with
      | false => rfl
      | true => rw [allHex_noNL _ hcc] at h; exact absurd h (by simp)
    rw [if_neg (by simp [hnh])]
    by_cases hc : (c == '\n') = true
    · rw [if_pos hc]
    · rw [if_neg hc]
      have hair : noNL t = false := by
        have hcl : noNL (c :: t) = ((c != '\n') && noNL t) := by
          simp [noNL]
        have hcb : (c != '\n') = true := by
          cases hcc : c == '\n' with
          | true => exact absurd hcc hc
          | false => simp [bne, hcc]
        rw [hcl, hcb, Bool.true_and] at h
        exact h
      rw [ih hair]
      rfl

theorem dropWhile_idem (p : Char → Bool) (l : List Char) :
    (l.dropWhile p).dropWhile p = l.dropWhile p := by
  induction l with
  | nil => rfl
  | cons c t ih =>
    by_cases hc : p c = true
    · simp [List.dropWhile_cons, hc, ih]
    · simp [List.dropWhile_cons, hc]

theorem rtrimHex_extend (v h : Str) (hh : allHex h = true) :
    rtrimHex (rtrimHex v ++ h) = rtrimHex v := by
  unfold rtrimHex
  rw [List.reverse_append, List.reverse_reverse]
  rw [List.dropWhile_append]
  have hdn : h.reverse.dropWhile hexCh = [] := by
    rw [List.dropWhile_eq_nil_iff]
    intro x hx
    simp only [allHex, List.all_eq_true] at hh
    exact hh x (List.mem_reverse.mp hx)
  rw [hdn]
  simp only [List.isEmpty_nil, if_true]
  rw [dropWhile_idem hexCh (v.reverse)]

theorem hexZip_of_parts (h : Str) (hh : allHex h = true) :
    hexZip (h ++ chars ".zip") = true := by
  unfold hexZip
  have hl : (h ++ chars ".zip").length - 4 = h.length := by
    simp [chars]
  rw [hl, List.take_left, List.drop_left]
  simp [hh]

theorem hexZip_no_slash (r : Str) (h : hexZip r = true) : '/' ∉ r := by
  unfold hexZip at h
  simp only [Bool.and_eq_true, beq_iff_eq] at h
  intro hmem
  rw [← List.take_append_drop (r.length - 4) r] at hmem
  rcases List.mem_append.mp hmem with hm | hm
  · simp only [allHex, List.all_eq_true] at h
    have := h.1 '/' hm
    exact absurd this (by decide)
  · rw [h.2] at hm
    exact absurd hm (by decide)

theorem urlBody_shape (w h : Str) (hw : '\n' ∉ w) (hh : allHex h = true) :
    urlBody (w ++ '/' :: (h ++ chars ".zip")) = some (w ++ ['/']) := by
  induction w with
  | nil =>
    simp only [List.nil_append]
    rw [urlBody]
    rw [if_pos (by simp [hexZip_of_parts h hh])]
  | cons c w2 ih =>
    rw [List.cons_append, urlBody]
    have hslash : ('/' : Char) ∈ w2 ++ '/' :: (h ++ chars ".zip") := by
      simp
    rw [if_neg (by
      intro hcon
      simp only [Bool.and_eq_true] at hcon
      exact absurd hslash (hexZip_no_slash _ hcon.2))]
    rw [if_neg (by
      simp only [List.mem_cons, not_or] at hw
      intro hcon
      exact hw.1 (Eq.symm (by simpa using hcon)))]
    rw [ih (by simp only [List.mem_cons, not_or] at hw; exact hw.2)]
    simp

theorem urlBody_spec (t b : Str) (h : urlBody t = some b) :
    ∃ w rest, b = w ++ ['/'] ∧ t = w ++ '/' :: rest ∧
      hexZip rest = true ∧ '\n' ∉ w := by
  induction t generalizing b with
  | nil => simp [urlBody] at h
  | cons c t2 ih =>
    rw [urlBody] at h
    by_cases h1 : (c == '/' && hexZip t2) = true
    · rw [if_pos h1] at h
      simp only [Option.some.injEq] at h
      simp only [Bool.and_eq_true, beq_iff_eq] at h1
      exact ⟨[], t2, h.symm, by simp [h1.1], h1.2, by simp⟩
    · rw [if_neg h1] at h
      by_cases h2 : (c == '\n') = true
      · rw [if_pos h2] at h
        exact absurd h (by simp)
      · rw [if_neg h2] at h
        cases hb : urlBody t2 with
        | none => rw [hb] at h; exact absurd h (by simp)
        | some b2 =>
          rw [hb] at h
          simp only [Option.map_some', Option.some.injEq] at h
          obtain ⟨w, rest, hbw, ht, hhz, hnw⟩ := ih b2 hb
          refine ⟨c :: w, rest, ?_, by simp [ht], hhz, ?_⟩
          · rw [← h, hbw]
            simp
          · simp only [List.mem_cons, not_or]
            refine ⟨?_, hnw⟩
            intro hcon
            exact h2 (by simp [← hcon])

theorem urlMatch_spec (v m : Str) (h : urlMatch v = some m) :
    ∃ c w rest, v = c :: (w ++ '/' :: rest) ∧ m = c :: (w ++ ['/']) ∧
      hexZip rest = true ∧ '\n' ∉ w ∧ c ≠ '\n' := by
  cases v with
  | nil => simp [urlMatch] at h
  | cons c t =>
    rw [urlMatch] at h
    by_cases hc : (c == '\n') = true
    · rw [if_pos hc] at h
      exact absurd h (by simp)
    · rw [if_neg hc] at h
      cases hb : urlBody t with
      | none => rw [hb] at h; exact absurd h (by simp)
      | some b =>
        rw [hb] at h
        simp only [Option.map_some', Option.some.injEq] at h
        obtain ⟨w, rest, hbw, ht, hhz, hnw⟩ := urlBody_spec t b hb
        exact ⟨c, w, rest, by rw [ht], by rw [← h, hbw], hhz, hnw,
          fun hcon => hc (by simp [hcon])⟩

theorem urlMatch_idem (v m h : Str) (hm : urlMatch v = some m)
    (hh : allHex h = true) :
    urlMatch (m ++ h ++ chars ".zip") = some m := by
  obtain ⟨c, w, rest, hv, hmm, hhz, hnw, hcn⟩ := urlMatch_spec v m hm
  rw [hmm]
  have : (c :: (w ++ ['/'])) ++ h ++ chars ".zip" =
      c :: (w ++ '/' :: (h ++ chars ".zip")) := by
    simp
  rw [this, urlMatch]
  rw [if_neg (by simpa using hcn)]
  rw [urlBody_shape w h hnw hh]
  rfl

theorem linesOf_mem_no_nl (s : Str) : ∀ l ∈ linesOf s, '\n' ∉ l := by
  induction s with
  | nil =>
    intro l hl
    simp [linesOf] at hl
    simp [hl]
  | cons c t ih =>
    intro l hl
    simp only [linesOf] at hl
    by_cases hc : (c == '\n') = true
    · rw [if_pos hc] at hl
      rcases List.mem_cons.mp hl with rfl | hl2
      · simp
      · exact ih l hl2
    · rw [if_neg hc] at hl
      have hcne : c ≠ '\n' := fun hcon => hc (by simp [hcon])
      cases he : linesOf t with
      | nil => exact absurd he (linesOf_ne_nil t)
      | cons h r =>
        rw [he] at hl
        rcases List.mem_cons.mp hl with rfl | hl2
        · simp only [List.mem_cons, not_or]
          exact ⟨fun hcon => hcne hcon.symm, ih h (by rw [he]; simp)⟩
        · exact ih l (by rw [he]; exact List.mem_cons_of_mem _ hl2)

theorem dropNL_cons₂ (a b : Char) (t : Str) :
    dropNL (a :: b :: t) = a :: dropNL (b :: t) := rfl

theorem dropNL_append_newline (x : Str) : dropNL (x ++ ['\n']) = x := by
  induction x with
  | nil => simp [dropNL]
  | cons c t ih =>
    cases t with
    | nil =>
      rw [show ([c] : Str) ++ ['\n'] = c :: '\n' :: [] from rfl, dropNL_cons₂]
      simp [dropNL]
    | cons c2 t2 =>
      rw [show (c :: c2 :: t2) ++ ['\n'] = c :: ((c2 :: t2) ++ ['\n']) from rfl]
      rw [show (c2 :: t2) ++ ['\n'] = c2 :: (t2 ++ ['\n']) from rfl] at ih ⊢
      rw [dropNL_cons₂, ih]

theorem stripEnd_eq_some_iff (l suf q : Str) :
    stripEnd l suf = some q ↔ l = q ++ suf := by
  constructor
  · intro h
    unfold stripEnd at h
    split at h
    · rename_i hc
      simp only [Option.some.injEq] at h
      rw [← h]
      conv_lhs => rw [← List.take_append_drop (l.length - suf.length) l]
      rw [hc.2]
    · exact absurd h (by simp)
  · intro h
    subst h
    unfold stripEnd
    rw [if_pos]
    · simp
    · exact ⟨by simp, by simp⟩

theorem kindStr_length (kd : Kind) : (kindStr kd).length = 12 := by
  cases kd <;> decide

theorem kindStr_inj (kd kd2 : Kind)
    (h : kindStr kd ++ ['('] = kindStr kd2 ++ ['(']) : kd = kd2 := by
  cases kd <;> cases kd2 <;> first
    | rfl
    | exact absurd h (by decide)

theorem stripEnd_self (p s : Str) : stripEnd (p ++ s) s = some p :=
  (stripEnd_eq_some_iff _ _ _).mpr rfl

theorem stripEnd_other_none (p : Str) (kd kd2 : Kind) (hne : kd ≠ kd2) :
    stripEnd (p ++ kindStr kd ++ ['(']) (kindStr kd2 ++ ['(']) = none := by
  cases h : stripEnd (p ++ kindStr kd ++ ['(']) (kindStr kd2 ++ ['(']) with
  | none => rfl
  | some q =>
    exfalso
    have heq := (stripEnd_eq_some_iff _ _ _).mp h
    rw [List.append_assoc] at heq
    have hlen : p.length = q.length := by
      have := congrArg List.length heq
      simp only [List.length_append, kindStr_length] at this
      omega
    have hdrop : kindStr kd ++ ['('] = kindStr kd2 ++ ['('] := by
      have h1 : (p ++ (kindStr kd ++ ['('])).drop p.length = kindStr kd ++ ['('] :=
        List.drop_left p _
      have h2 : (q ++ (kindStr kd2 ++ ['('])).drop q.length = kindStr kd2 ++ ['('] :=
        List.drop_left q _
      rw [← h1, ← h2, ← heq, hlen]
    exact hne (kindStr_inj _ _ hdrop)

theorem isBeginLine_intro (p : Str) (kd : Kind) (hp : pfxOk p = true) :
    isBeginLine (p ++ kindStr kd ++ ['(']) = some (p, kd) := by
  have hself : stripEnd (p ++ kindStr kd ++ ['(']) (kindStr kd ++ ['(']) = some p := by
    rw [List.append_assoc]
    exact stripEnd_self p _
  unfold isBeginLine
  cases kd with
  | git =>
    rw [hself]
    show (if pfxOk p = true then some (p, Kind.git) else none) = some (p, Kind.git)
    rw [if_pos hp]
  | http =>
    rw [stripEnd_other_none p .http .git (by intro hcon; cases hcon), hself]
    show (if pfxOk p = true then some (p, Kind.http) else none) = some (p, Kind.http)
    rw [if_pos hp]

theorem isBeginLine_elim (l p : Str) (kd : Kind)
    (h : isBeginLine l = some (p, kd)) :
    l = p ++ kindStr kd ++ ['('] ∧ pfxOk p = true := by
  unfold isBeginLine at h
  split at h
  · rename_i q heq
    split at h
    · rename_i hq
      obtain ⟨rfl, rfl⟩ : q = p ∧ Kind.git = kd := by
        simpa [Prod.ext_iff] using h
      have h2 := (stripEnd_eq_some_iff _ _ _).mp heq
      rw [h2, List.append_assoc]
      exact ⟨rfl, hq⟩
    · exact absurd h (by simp)
  · rename_i heq
    split at h
    · rename_i q heq2
      split at h
      · rename_i hq
        obtain ⟨rfl, rfl⟩ : q = p ∧ Kind.http = kd := by
          simpa [Prod.ext_iff] using h
        have h2 := (stripEnd_eq_some_iff _ _ _).mp heq2
        rw [h2, List.append_assoc]
        exact ⟨rfl, hq⟩
      · exact absurd h (by simp)
    · exact absurd h (by simp)

theorem isEndLine_append (p x : Str) : isEndLine p (p ++ x) = endTail x := by
  unfold isEndLine endTail
  rw [strStarts_append, List.drop_left]
  simp

theorem endTail_close : endTail [')'] = true := by decide

theorem endTail_kind (kd : Kind) : endTail (kindStr kd ++ ['(']) = false := by
  cases kd <;> decide

theorem dropWhile_ws_append (a b : Str) (ha : a.all wsCh = true) :
    (a ++ b).dropWhile wsCh = b.dropWhile wsCh := by
  induction a with
  | nil => simp
  | cons c t ih =>
    simp only [List.all_cons, Bool.and_eq_true] at ha
    simp only [List.cons_append, List.dropWhile_cons, ha.1, if_true]
    exact ih ha.2

theorem identCh_not_ws (c : Char) (hc : identCh c = true) : wsCh c = false := by
  cases hw : wsCh c with
  | false => rfl
  | true =>
    exfalso
    have : c = ' ' ∨ c = '\t' := by
      unfold wsCh at hw
      simp only [Bool.or_eq_true, beq_iff_eq] at hw
      exact hw
    rcases this with rfl | rfl <;> simp [identCh] at hc

theorem identCh_not_close (c : Char) (hc : identCh c = true) : c ≠ ')' := by
  intro hcon
  rw [hcon] at hc
  simp [identCh] at hc

theorem endTail_interior (c0 : Char) (rest : Str)
    (hc : identCh c0 = true ∨ c0 = '#') :
    endTail (ind4 ++ c0 :: rest) = false := by
  unfold endTail
  rw [dropWhile_ws_append ind4 _ (by decide)]
  have hws : wsCh c0 = false := by
    rcases hc with hc | hc
    · exact identCh_not_ws c0 hc
    · rw [hc]; decide
  rw [List.dropWhile_cons, hws]
  simp only [Bool.false_eq_true, if_false]
  have hcp : c0 ≠ ')' := by
    rcases hc with hc | hc
    · exact identCh_not_close c0 hc
    · rw [hc]; decide
  cases rest with
  | nil => simp [hcp]
  | cons r rs => simp

theorem isEndLine_elim (p l : Str) (h : isEndLine p l = true) :
    ∃ w, l = p ++ w ++ [')'] ∧ w.all wsCh = true := by
  unfold isEndLine at h
  simp only [Bool.and_eq_true] at h
  obtain ⟨r, hr⟩ := (strStarts_iff p l).mp h.1
  have h2 := h.2
  rw [hr, List.drop_left] at h2
  split at h2
  · rename_i c heq
    have hc : c = ')' := by simpa using h2
    have hre : r = r.takeWhile wsCh ++ [')'] := by
      conv_lhs => rw [← List.takeWhile_append_dropWhile (p := wsCh) (l := r)]
      rw [heq, hc]
    refine ⟨r.takeWhile wsCh, ?_,
      List.all_eq_true.mpr (fun c hc => List.mem_takeWhile_imp hc)⟩
    rw [hr]
    conv_lhs => rw [hre]
    rw [List.append_assoc]
  · exact absurd h2 (by simp)

theorem except_map_ok {e : Except UpdErr (List Str)} {g : List Str → List Str}
    {o : List Str} (h : e.map g = .ok o) : ∃ x, e = .ok x ∧ o = g x := by
  cases e with
  | ok x =>
    refine ⟨x, rfl, ?_⟩
    simpa [Except.map] using h.symm
  | error err => simp [Except.map] at h

theorem processLines_nil (ctx : Ctx) (n : Nat) (f : Bool) :
    processLines ctx n [] f = if f then .ok [] else .error .noStanza := by
  rw [processLines]
  rfl

theorem processLines_eq_noBegin (ctx : Ctx) (n : Nat) (ls : List Str) (f : Bool)
    (hb : findBegin ls = none) :
    processLines ctx n ls f = if f then .ok ls else .error .noStanza := by
  rw [processLines, hb]

theorem processLines_eq_unterminated (ctx : Ctx) (n : Nat) (ls : List Str) (f : Bool)
    (k : Nat) (p : Str) (kd : Kind)
    (hb : findBegin ls = some (k, p, kd)) (he : findEnd p (ls.drop k) = none) :
    processLines ctx n ls f = .error (.unterminated kd) := by
  rw [processLines]
  simp only [hb, he]

theorem processLines_eq_step (ctx : Ctx) (n : Nat) (ls : List Str) (f : Bool)
    (k : Nat) (p : Str) (kd : Kind) (j : Nat)
    (hb : findBegin ls = some (k, p, kd)) (he : findEnd p (ls.drop k) = some j) :
    processLines ctx (n + 1) ls f =
      (processLines ctx n ((ls.drop k).drop (j + 1)) true).map
        (fun out => ls.take k ++
          linesOf (stanzaUpdate ctx (joinLines ((ls.drop k).take (j + 1))) p) ++ out) := by
  rw [processLines]
  simp only [hb, he]

theorem findBegin_lt (ls : List Str) (k : Nat) (p : Str) (kd : Kind)
    (h : findBegin ls = some (k, p, kd)) : k < ls.length := by
  obtain ⟨pre, l, rest0, hdec, hk, _, _⟩ := findBegin_spec ls k p kd h
  rw [hdec]
  simp only [List.length_append, List.length_cons]
  omega

theorem findEnd_lt (p : Str) (ls : List Str) (j : Nat)
    (h : findEnd p ls = some j) : j < ls.length := by
  obtain ⟨pre, l, rest0, hdec, hj, _, _⟩ := findEnd_spec p ls j h
  rw [hdec]
  simp only [List.length_append, List.length_cons]
  omega

theorem processLines_ok_ne_nil (ctx : Ctx) (n : Nat) (ls : List Str) (f : Bool)
    (out : List Str) (h : processLines ctx n ls f = .ok out) (hne : ls ≠ []) :
    out ≠ [] := by
  cases hb : findBegin ls with
  | none =>
    rw [processLines_eq_noBegin ctx n ls f hb] at h
    cases f with
    | true =>
      simp only [if_true, Except.ok.injEq] at h
      intro hcon
      rw [hcon] at h
      exact hne h
    | false => simp at h
  | some v =>
    obtain ⟨k, p, kd⟩ := v
    cases he : findEnd p (ls.drop k) with
    | none =>
      rw [processLines_eq_unterminated ctx n ls f k p kd hb he] at h
      simp at h
    | some j =>
      cases n with
      | zero =>
        rw [processLines] at h
        simp only [hb, he] at h
        simp at h
      | succ n2 =>
        rw [processLines_eq_step ctx n2 ls f k p kd j hb he] at h
        obtain ⟨x, _, ho⟩ := except_map_ok h
        rw [ho]
        intro hcon
        have h2 := linesOf_ne_nil (stanzaUpdate ctx (joinLines ((ls.drop k).take (j + 1))) p)
        cases hlo : linesOf (stanzaUpdate ctx (joinLines ((ls.drop k).take (j + 1))) p) with
        | nil => exact h2 hlo
        | cons a b =>
          rw [hlo] at hcon
          simp at hcon

theorem processLines_fuel (ctx : Ctx) :
    ∀ (N : Nat) (ls : List Str), ls.length ≤ N →
      ∀ (f : Bool) (n m : Nat), ls.length ≤ n → ls.length ≤ m →
        processLines ctx n ls f = processLines ctx m ls f := by
  intro N
  induction N with
  | zero =>
    intro ls hls f n m hn hm
    have : ls = [] := List.eq_nil_of_length_eq_zero (Nat.le_zero.mp hls)
    subst this
    rw [processLines_nil, processLines_nil]
  | succ N ihN =>
    intro ls hls f n m hn hm
    cases hb : findBegin ls with
    | none => rw [processLines_eq_noBegin ctx n ls f hb, processLines_eq_noBegin ctx m ls f hb]
    | some v =>
      obtain ⟨k, p, kd⟩ := v
      have hkl : k < ls.length := findBegin_lt ls k p kd hb
      cases he : findEnd p (ls.drop k) with
      | none =>
        rw [processLines_eq_unterminated ctx n ls f k p kd hb he,
          processLines_eq_unterminated ctx m ls f k p kd hb he]
      | some j =>
        have hjl : j < (ls.drop k).length := findEnd_lt p (ls.drop k) j he
        rw [List.length_drop] at hjl
        cases n with
        | zero => omega
        | succ n2 =>
          cases m with
          | zero => omega
          | succ m2 =>
            rw [processLines_eq_step ctx n2 ls f k p kd j hb he,
              processLines_eq_step ctx m2 ls f k p kd j hb he]
            rw [ihN ((ls.drop k).drop (j + 1))
              (by simp only [List.length_drop]; omega) true n2 m2
              (by simp only [List.length_drop]; omega)
              (by simp only [List.length_drop]; omega)]

theorem glue_shift (cs : List (Str × Str × Str)) (tail : Str) :
    ∃ cs2 tail2, glueIn cs2 tail2 = '\n' :: glueIn cs tail ∧
      glueOut cs2 tail2 = '\n' :: glueOut cs tail ∧
      cs2.map Prod.snd = cs.map Prod.snd := by
  cases cs with
  | nil =>
    exact ⟨[], '\n' :: tail, by simp [glueIn], by simp [glueOut], rfl⟩
  | cons c0 crest =>
    refine ⟨('\n' :: c0.1, c0.2) :: crest, tail, ?_, ?_, by simp⟩
    · simp [glueIn]
    · simp [glueOut]

theorem joinLines_nil_eq : joinLines [] = [] := rfl

theorem flatten_map_nl (A : List Str) (hA : A ≠ []) :
    (A.map (fun l => l ++ ['\n'])).flatten = joinLines A ++ ['\n'] := by
  induction A with
  | nil => exact absurd rfl hA
  | cons a as ih =>
    cases as with
    | nil => simp [joinLines]
    | cons b bs =>
      rw [List.map_cons, List.flatten_cons, ih (by simp)]
      conv_rhs => rw [joinLines_cons a (b :: bs) (by simp)]
      simp

theorem joinLines_append_of_ne (A B : List Str) (hA : A ≠ []) (hB : B ≠ []) :
    joinLines (A ++ B) = joinLines A ++ '\n' :: joinLines B := by
  rw [joinLines_append A B hB, flatten_map_nl A hA]
  simp

theorem glueIn_nil (t : Str) : glueIn [] t = t := by simp [glueIn]

theorem glueOut_nil (t : Str) : glueOut [] t = t := by simp [glueOut]

theorem glueIn_cons (c : Str × Str × Str) (cs : List (Str × Str × Str)) (t : Str) :
    glueIn (c :: cs) t = c.1 ++ c.2.1 ++ glueIn cs t := by
  simp [glueIn]

theorem glueOut_cons (c : Str × Str × Str) (cs : List (Str × Str × Str)) (t : Str) :
    glueOut (c :: cs) t = c.1 ++ c.2.2 ++ glueOut cs t := by
  simp [glueOut]

theorem stanzaChunk_of_snd_eq (ctx : Ctx) (c c' : Str × Str × Str)
    (h : c'.2 = c.2) (hs : stanzaChunk ctx c') : stanzaChunk ctx c := by
  unfold stanzaChunk at hs ⊢
  rw [← h]
  exact hs

theorem processLines_decomp (ctx : Ctx) :
    ∀ (N : Nat) (ls : List Str), ls.length ≤ N →
      ∀ (f : Bool) (n : Nat) (out : List Str), ls.length ≤ n →
        processLines ctx n ls f = .ok out →
        ∃ cs tail, joinLines ls = glueIn cs tail ∧
          joinLines out = glueOut cs tail ∧ ∀ c ∈ cs, stanzaChunk ctx c := by
  intro N
  induction N with
  | zero =>
    intro ls hls f n out hn h
    have : ls = [] := List.eq_nil_of_length_eq_zero (Nat.le_zero.mp hls)
    subst this
    rw [processLines_nil] at h
    cases f with
    | true =>
      simp only [if_true, Except.ok.injEq] at h
      subst h
      exact ⟨[], [], by simp [glueIn_nil, joinLines_nil_eq],
        by simp [glueOut_nil, joinLines_nil_eq], by simp⟩
    | false => simp at h
  | succ N ihN =>
    intro ls hls f n out hn h
    cases hb : findBegin ls with
    | none =>
      rw [processLines_eq_noBegin ctx n ls f hb] at h
      cases f with
      | true =>
        simp only [if_true, Except.ok.injEq] at h
        subst h
        exact ⟨[], joinLines ls, by simp [glueIn_nil], by simp [glueOut_nil], by simp⟩
      | false => simp at h
    | some v =>
      obtain ⟨k, p, kd⟩ := v
      obtain ⟨pre, l, rest0, hdec, hk, hbl, _⟩ := findBegin_spec ls k p kd hb
      have hkl : k < ls.length := findBegin_lt ls k p kd hb
      cases he : findEnd p (ls.drop k) with
      | none =>
        rw [processLines_eq_unterminated ctx n ls f k p kd hb he] at h
        simp at h
      | some j =>
        have hjl : j < (ls.drop k).length := findEnd_lt p (ls.drop k) j he
        rw [List.length_drop] at hjl
        cases n with
        | zero => omega
        | succ n2 =>
          rw [processLines_eq_step ctx n2 ls f k p kd j hb he] at h
          obtain ⟨out2, hout2, ho⟩ := except_map_ok h
          have hrl : ((ls.drop k).drop (j + 1)).length ≤ N := by
            simp only [List.length_drop]
            omega
          obtain ⟨cs2, tail2, hin2, hout2g, hfacts2⟩ :=
            ihN ((ls.drop k).drop (j + 1)) hrl true n2 out2
              (by simp only [List.length_drop]; omega) hout2
          have hls_split :
              ls = ls.take k ++ ((ls.drop k).take (j + 1) ++ (ls.drop k).drop (j + 1)) := by
            rw [List.take_append_drop, List.take_append_drop]
          have hregion_ne : (ls.drop k).take (j + 1) ≠ [] := by
            intro hcon
            have := congrArg List.length hcon
            simp only [List.length_take, List.length_drop, List.length_nil] at this
            omega
          have hupd_ne :
              linesOf (stanzaUpdate ctx (joinLines ((ls.drop k).take (j + 1))) p) ≠ [] :=
            linesOf_ne_nil _
          have hdk : ls.drop k = l :: rest0 := by
            conv_lhs => rw [hdec, ← hk]
            exact List.drop_left pre _
          have hregion_head : ((ls.drop k).take (j + 1)).headD [] = l := by
            rw [hdk]
            simp
          have hchunk0 : stanzaChunk ctx
              ((((ls.take k).map (fun x => x ++ ['\n'])).flatten : Str),
               joinLines ((ls.drop k).take (j + 1)),
               stanzaUpdate ctx (joinLines ((ls.drop k).take (j + 1))) p) := by
            refine ⟨p, kd, (ls.drop k).take (j + 1), rfl, hregion_ne, ?_, rfl⟩
            rw [hregion_head]
            exact hbl
          have hin_ls : joinLines ls =
              ((ls.take k).map (fun x => x ++ ['\n'])).flatten ++
                joinLines ((ls.drop k).take (j + 1) ++ (ls.drop k).drop (j + 1)) := by
            conv_lhs => rw [hls_split]
            rw [joinLines_append _ _ (by
              intro hcon
              rcases List.append_eq_nil.mp hcon with ⟨h1, _⟩
              exact hregion_ne h1)]
          cases hrest3 : (ls.drop k).drop (j + 1) with
          | nil =>
            have hout2nil : out2 = [] := by
              rw [hrest3, processLines_nil] at hout2
              simpa using hout2.symm
            refine ⟨[(((ls.take k).map (fun x => x ++ ['\n'])).flatten,
              joinLines ((ls.drop k).take (j + 1)),
              stanzaUpdate ctx (joinLines ((ls.drop k).take (j + 1))) p)], [],
              ?_, ?_, ?_⟩
            · rw [hin_ls, hrest3]
              rw [glueIn_cons, glueIn_nil]
              simp
            · rw [ho, hout2nil]
              rw [glueOut_cons, glueOut_nil]
              rw [List.append_nil, joinLines_append _ _ hupd_ne, joinLines_linesOf]
              simp
            · intro c hc
              rcases List.mem_singleton.mp hc with rfl
              exact hchunk0
          | cons r0 rr =>
            obtain ⟨cs3, tail3, hsin, hsout, hsnd⟩ := glue_shift cs2 tail2
            have hout2ne : out2 ≠ [] :=
              processLines_ok_ne_nil ctx n2 _ true out2 hout2
                (by rw [hrest3]; simp)
            refine ⟨(((ls.take k).map (fun x => x ++ ['\n'])).flatten,
              joinLines ((ls.drop k).take (j + 1)),
              stanzaUpdate ctx (joinLines ((ls.drop k).take (j + 1))) p) :: cs3,
              tail3, ?_, ?_, ?_⟩
            · rw [hin_ls, glueIn_cons]
              rw [joinLines_append_of_ne _ _ hregion_ne (by rw [hrest3]; simp)]
              rw [hsin, ← hin2]
              simp
            · rw [ho, glueOut_cons]
              rw [joinLines_append _ _ hout2ne]
              rw [List.map_append, List.flatten_append]
              rw [flatten_map_nl _ hupd_ne, joinLines_linesOf]
              rw [hsout, ← hout2g]
              simp
            · intro c hc
              rcases List.mem_cons.mp hc with rfl | hc2
              · exact hchunk0
              · have hmem : c.2 ∈ cs3.map Prod.snd := List.mem_map_of_mem _ hc2
                rw [hsnd] at hmem
                obtain ⟨c', hc', hceq⟩ := List.mem_map.mp hmem
                exact stanzaChunk_of_snd_eq ctx c c' hceq (hfacts2 c' hc')

theorem parseStrLit_spec (t s r : Str) (h : parseStrLit t = some (s, r)) :
    t = s ++ '"' :: r ∧ '"' ∉ s ∧ '\\' ∉ s := by
  induction t generalizing s r with
  | nil => simp [parseStrLit] at h
  | cons c t2 ih =>
    rw [parseStrLit] at h
    by_cases hq : (c == '"') = true
    · rw [if_pos hq] at h
      simp only [Option.some.injEq, Prod.mk.injEq] at h
      have hc : c = '"' := by simpa using hq
      rw [← h.1, ← h.2, hc]
      simp
    · rw [if_neg hq] at h
      by_cases hbs : (c == '\\') = true
      · rw [if_pos hbs] at h
        simp at h
      · rw [if_neg hbs] at h
        cases hp : parseStrLit t2 with
        | none => rw [hp] at h; simp at h
        | some q =>
          obtain ⟨s2, r2⟩ := q
          rw [hp] at h
          simp only [Option.map_some', Option.some.injEq, Prod.mk.injEq] at h
          obtain ⟨hs, hr⟩ := h
          obtain ⟨ht2, hq2, hb2⟩ := ih s2 r2 (by rw [hp])
          rw [← hs, ← hr] at *
          refine ⟨by rw [ht2]; simp, ?_, ?_⟩
          · simp only [List.mem_cons, not_or]
            exact ⟨fun hcon => hq (by simp [hcon.symm]), hq2⟩
          · simp only [List.mem_cons, not_or]
            exact ⟨fun hcon => hbs (by simp [hcon.symm]), hb2⟩

theorem parseStrLit_print (s r : Str) (hq : '"' ∉ s) (hb : '\\' ∉ s) :
    parseStrLit (s ++ '"' :: r) = some (s, r) := by
  induction s with
  | nil =>
    rw [List.nil_append, parseStrLit]
    simp
  | cons c s2 ih =>
    simp only [List.mem_cons, not_or] at hq hb
    rw [List.cons_append, parseStrLit]
    rw [if_neg (fun hcon => hq.1 (Eq.symm (by simpa using hcon)))]
    rw [if_neg (fun hcon => hb.1 (Eq.symm (by simpa using hcon)))]
    rw [ih hq.2 hb.2]
    rfl

theorem takeWhile_all_append (q : Char → Bool) (a r : Str) (ha : a.all q = true)
    (hr : ∀ c, r.head? = some c → q c = false) :
    (a ++ r).takeWhile q = a := by
  induction a with
  | nil =>
    cases r with
    | nil => rfl
    | cons c rr =>
      simp only [List.nil_append, List.takeWhile_cons]
      rw [hr c rfl]
      rfl
  | cons c aa ih =>
    simp only [List.all_cons, Bool.and_eq_true] at ha
    simp only [List.cons_append, List.takeWhile_cons, ha.1, if_true]
    rw [ih ha.2]

theorem drop_length_takeWhile (q : Char → Bool) (l : List Char) :
    l.drop (l.takeWhile q).length = l.dropWhile q := by
  induction l with
  | nil => rfl
  | cons c t ih =>
    by_cases hc : q c = true
    · simp [List.takeWhile_cons, List.dropWhile_cons, hc, ih]
    · simp [List.takeWhile_cons, List.dropWhile_cons, hc]

theorem parseScalar_spec (t : Str) (e : SVal) (r : Str)
    (h : parseScalar t = some (e, r)) :
    (∃ s, e = .str s ∧ t = '"' :: (s ++ '"' :: r) ∧ '"' ∉ s ∧ '\\' ∉ s) ∨
    (∃ a, e = .atom a ∧ t = a ++ r ∧ a ≠ [] ∧ a.all identCh = true) := by
  cases t with
  | nil => simp [parseScalar] at h
  | cons c t2 =>
    rw [parseScalar] at h
    by_cases hq : (c == '"') = true
    · rw [if_pos hq] at h
      left
      cases hp : parseStrLit t2 with
      | none => rw [hp] at h; simp at h
      | some q =>
        obtain ⟨s2, r2⟩ := q
        rw [hp] at h
        simp only [Option.map_some', Option.some.injEq, Prod.mk.injEq] at h
        obtain ⟨ht2, hq2, hb2⟩ := parseStrLit_spec t2 s2 r2 hp
        refine ⟨s2, h.1.symm, ?_, hq2, hb2⟩
        rw [ht2, ← h.2]
        have hc : c = '"' := by simpa using hq
        rw [hc]
    · rw [if_neg hq] at h
      right
      cases ht : (c :: t2).takeWhile identCh with
      | nil => rw [ht] at h; simp at h
      | cons a0 aa =>
        rw [ht] at h
        simp only [Option.some.injEq, Prod.mk.injEq] at h
        refine ⟨a0 :: aa, h.1.symm, ?_, by simp, ?_⟩
        · rw [← h.2, ← ht, drop_length_takeWhile]
          exact (List.takeWhile_append_dropWhile (p := identCh) (l := c :: t2)).symm
        · rw [← ht]
          exact List.all_eq_true.mpr (fun x hx => List.mem_takeWhile_imp hx)

theorem wfStrBody_elim (s : Str) (h : wfStrBody s = true) :
    '"' ∉ s ∧ '\\' ∉ s ∧ '\n' ∉ s := by
  simp only [wfStrBody, List.all_eq_true] at h
  refine ⟨?_, ?_, ?_⟩ <;> intro hmem <;> have hx := h _ hmem <;> simp at hx

theorem wfStrBody_intro (s : Str) (hq : '"' ∉ s) (hb : '\\' ∉ s)
    (hn : '\n' ∉ s) : wfStrBody s = true := by
  simp only [wfStrBody, List.all_eq_true]
  intro c hc
  simp only [Bool.and_eq_true]
  refine ⟨⟨?_, ?_⟩, ?_⟩ <;> simp only [Bool.not_eq_true'] <;>
    cases hcc : c == _ <;> first
      | rfl
      | (exfalso
         first
           | exact hq (by rw [show c = '"' from by simpa using hcc] at hc; exact hc)
           | exact hb (by rw [show c = '\\' from by simpa using hcc] at hc; exact hc)
           | exact hn (by rw [show c = '\n' from by simpa using hcc] at hc; exact hc))

theorem identCh_ne_of (c x : Char) (h : identCh c = true) (hx : identCh x = false) :
    (c == x) = false := by
  cases hcc : c == x with
  | false => rfl
  | true =>
    exfalso
    rw [show c = x from by simpa using hcc, hx] at h
    exact absurd h (by simp)

theorem printSVal_head (e : SVal) (he : wfSVal e = true) :
    ∃ c0 rest, printSVal e = c0 :: rest ∧ wsCh c0 = false ∧
      (c0 == ']') = false ∧ (c0 == '[') = false := by
  cases e with
  | str s => exact ⟨'"', s ++ ['"'], rfl, by decide, by decide, by decide⟩
  | atom a =>
    simp only [wfSVal, wfIdent, Bool.and_eq_true] at he
    cases a with
    | nil => exact absurd he.1 (by simp)
    | cons a0 aa =>
      have ha0 : identCh a0 = true := by
        have := he.2
        simp only [List.all_cons, Bool.and_eq_true] at this
        exact this.1
      exact ⟨a0, aa, rfl, identCh_not_ws a0 ha0,
        identCh_ne_of a0 ']' ha0 (by decide),
        identCh_ne_of a0 '[' ha0 (by decide)⟩

theorem parseScalar_print (e : SVal) (r : Str) (he : wfSVal e = true)
    (hr : ∀ c, r.head? = some c → identCh c = false) :
    parseScalar (printSVal e ++ r) = some (e, r) := by
  cases e with
  | str s =>
    have hshape : printSVal (.str s) ++ r = '"' :: (s ++ '"' :: r) := by
      simp [printSVal]
    rw [hshape, parseScalar, if_pos (by decide)]
    simp only [wfSVal] at he
    obtain ⟨hq, hb, _⟩ := wfStrBody_elim s he
    rw [parseStrLit_print s r hq hb]
    rfl
  | atom a =>
    simp only [wfSVal, wfIdent, Bool.and_eq_true] at he
    cases a with
    | nil => exact absurd he.1 (by simp)
    | cons a0 aa =>
      have ha0 : identCh a0 = true := by
        have := he.2
        simp only [List.all_cons, Bool.and_eq_true] at this
        exact this.1
      have hshape : printSVal (.atom (a0 :: aa)) ++ r = a0 :: (aa ++ r) := by
        simp [printSVal]
      rw [hshape, parseScalar,
        if_neg (by simp [identCh_ne_of a0 '"' ha0 (by decide)])]
      have htw : (a0 :: (aa ++ r)).takeWhile identCh = a0 :: aa := by
        rw [show a0 :: (aa ++ r) = (a0 :: aa) ++ r from rfl]
        exact takeWhile_all_append identCh (a0 :: aa) r he.2 hr
      simp only [htw]
      have hdrop : (a0 :: (aa ++ r)).drop (a0 :: aa).length = r := by
        rw [show a0 :: (aa ++ r) = (a0 :: aa) ++ r from rfl]
        exact List.drop_left _ _
      rw [hdrop]

theorem joinComma_cons_expand (x : Str) (xs : List Str) :
    ∃ t, joinComma (x :: xs) = x ++ t := by
  cases xs with
  | nil => exact ⟨[], by simp [joinComma]⟩
  | cons y ys => exact ⟨',' :: ' ' :: joinComma (y :: ys), rfl⟩

theorem joinComma_length (es : List SVal) :
    es.length ≤ (joinComma (es.map printSVal)).length + 1 := by
  induction es with
  | nil => simp
  | cons e es2 ih =>
    cases es2 with
    | nil => simp [joinComma]
    | cons e2 es3 =>
      have hjc : joinComma ((e :: e2 :: es3).map printSVal) =
          printSVal e ++ ',' :: ' ' :: joinComma ((e2 :: es3).map printSVal) := rfl
      rw [hjc]
      simp only [List.length_cons, List.length_append] at ih ⊢
      omega

theorem parseElems_print (es : List SVal) :
    ∀ (r : Str) (fuel : Nat), es.all wfSVal = true → es.length < fuel →
      parseElems fuel (joinComma (es.map printSVal) ++ ']' :: r) = some (es, r) := by
  induction es with
  | nil =>
    intro r fuel _ hf
    cases fuel with
    | zero => omega
    | succ f =>
      simp only [List.map_nil, joinComma, List.nil_append]
      rw [parseElems]
      have hdw : (']' :: r).dropWhile wsCh = ']' :: r := by
        rw [List.dropWhile_cons, show wsCh ']' = false from by decide]
        simp
      simp only [hdw]
      rw [if_pos (by decide)]
  | cons e es2 ih =>
    intro r fuel hwf hf
    simp only [List.all_cons, Bool.and_eq_true] at hwf
    cases fuel with
    | zero => omega
    | succ f =>
      obtain ⟨c0, rest0, hpr, hc0w, hc0r, _⟩ := printSVal_head e hwf.1
      cases es2 with
      | nil =>
        have hshape : joinComma ((e :: []).map printSVal) ++ ']' :: r =
            c0 :: (rest0 ++ ']' :: r) := by
          simp [joinComma, hpr]
        rw [hshape, parseElems]
        have hdw : (c0 :: (rest0 ++ ']' :: r)).dropWhile wsCh =
            c0 :: (rest0 ++ ']' :: r) := by
          rw [List.dropWhile_cons, hc0w]
          simp
        simp only [hdw]
        rw [if_neg (by simp [hc0r])]
        have hps : parseScalar (c0 :: (rest0 ++ ']' :: r)) = some (e, ']' :: r) := by
          rw [show c0 :: (rest0 ++ ']' :: r) = (c0 :: rest0) ++ ']' :: r from rfl, ← hpr]
          exact parseScalar_print e (']' :: r) hwf.1
            (by intro c hc; simp only [List.head?_cons, Option.some.injEq] at hc
                rw [← hc]; decide)
        simp only [hps]
        have hdw2 : (']' :: r).dropWhile wsCh = ']' :: r := by
          rw [List.dropWhile_cons, show wsCh ']' = false from by decide]
          simp
        simp only [hdw2]
        rw [if_pos (by decide)]
      | cons e2 es3 =>
        obtain ⟨c2, rest2, hpr2, hc2w, _, _⟩ := printSVal_head e2 (by
          simp only [List.all_cons, Bool.and_eq_true] at hwf
          exact hwf.2.1)
        have hshape : joinComma ((e :: e2 :: es3).map printSVal) ++ ']' :: r =
            c0 :: (rest0 ++ ',' :: ' ' ::
              (joinComma ((e2 :: es3).map printSVal) ++ ']' :: r)) := by
          have hjc : joinComma ((e :: e2 :: es3).map printSVal) =
              printSVal e ++ ',' :: ' ' :: joinComma ((e2 :: es3).map printSVal) := rfl
          rw [hjc, hpr]
          simp
        rw [hshape, parseElems]
        have hdw : (c0 :: (rest0 ++ ',' :: ' ' ::
            (joinComma ((e2 :: es3).map printSVal) ++ ']' :: r))).dropWhile wsCh =
            c0 :: (rest0 ++ ',' :: ' ' ::
              (joinComma ((e2 :: es3).map printSVal) ++ ']' :: r)) := by
          rw [List.dropWhile_cons, hc0w]
          simp
        simp only [hdw]
        rw [if_neg (by simp [hc0r])]
        have hps : parseScalar
            (c0 :: (rest0 ++ ',' :: ' ' ::
              (joinComma ((e2 :: es3).map printSVal) ++ ']' :: r))) =
            some (e, ',' :: ' ' ::
              (joinComma ((e2 :: es3).map printSVal) ++ ']' :: r)) := by
          rw [show c0 :: (rest0 ++ ',' :: ' ' ::
              (joinComma ((e2 :: es3).map printSVal) ++ ']' :: r)) =
            (c0 :: rest0) ++ ',' :: ' ' ::
              (joinComma ((e2 :: es3).map printSVal) ++ ']' :: r) from rfl, ← hpr]
          exact parseScalar_print e _ hwf.1
            (by intro c hc; simp only [List.head?_cons, Option.some.injEq] at hc
                rw [← hc]; decide)
        simp only [hps]
        have hdw2 : (',' :: ' ' ::
            (joinComma ((e2 :: es3).map printSVal) ++ ']' :: r)).dropWhile wsCh =
            ',' :: ' ' :: (joinComma ((e2 :: es3).map printSVal) ++ ']' :: r) := by
          rw [List.dropWhile_cons, show wsCh ',' = false from by decide]
          simp
        simp only [hdw2]
        rw [if_neg (by decide), if_pos (by decide)]
        have hinner : (' ' ::
            (joinComma ((e2 :: es3).map printSVal) ++ ']' :: r)).dropWhile wsCh =
            joinComma ((e2 :: es3).map printSVal) ++ ']' :: r := by
          rw [List.dropWhile_cons, show wsCh ' ' = true from by decide]
          simp only [if_true]
          obtain ⟨t2, ht2⟩ := joinComma_cons_expand (printSVal e2) (es3.map printSVal)
          rw [List.map_cons, ht2, hpr2]
          rw [show (c2 :: rest2 ++ t2) ++ ']' :: r =
            c2 :: (rest2 ++ t2 ++ ']' :: r) from by simp]
          rw [List.dropWhile_cons, hc2w]
          simp
        rw [hinner]
        rw [ih r f hwf.2 (by simp only [List.length_cons] at hf ⊢; omega)]
        rfl

theorem parseValue_print (v : Val) (r : Str) (hv : wfVal v = true)
    (hr : ∀ c, r.head? = some c → identCh c = false) :
    parseValue (printVal v ++ r) = some (v, r) := by
  cases v with
  | str s =>
    have hshape : printVal (.str s) ++ r = '"' :: ((s ++ ['"']) ++ r) := by
      simp [printVal]
    rw [hshape, parseValue, if_neg (by decide)]
    have hps : parseScalar ('"' :: ((s ++ ['"']) ++ r)) = some (SVal.str s, r) := by
      rw [show ('"' :: ((s ++ ['"']) ++ r) : Str) = printSVal (.str s) ++ r from by
        simp [printSVal]]
      exact parseScalar_print (.str s) r (by simpa [wfSVal] using hv) hr
    rw [hps]
    rfl
  | atom a =>
    simp only [wfVal, wfIdent, Bool.and_eq_true] at hv
    cases a with
    | nil => exact absurd hv.1 (by simp)
    | cons a0 aa =>
      have ha0 : identCh a0 = true := by
        have := hv.2
        simp only [List.all_cons, Bool.and_eq_true] at this
        exact this.1
      have hshape : printVal (.atom (a0 :: aa)) ++ r = a0 :: (aa ++ r) := by
        simp [printVal]
      rw [hshape, parseValue,
        if_neg (by simp [identCh_ne_of a0 '[' ha0 (by decide)])]
      have hps : parseScalar (a0 :: (aa ++ r)) = some (SVal.atom (a0 :: aa), r) := by
        rw [show a0 :: (aa ++ r) = printSVal (.atom (a0 :: aa)) ++ r from by
          simp [printSVal]]
        exact parseScalar_print (.atom (a0 :: aa)) r
          (by simp only [wfSVal, wfIdent, Bool.and_eq_true]
              exact ⟨by simp, hv.2⟩) hr
      rw [hps]
      rfl
  | list es =>
    have hshape : printVal (.list es) ++ r =
        '[' :: (joinComma (es.map printSVal) ++ ']' :: r) := by
      simp [printVal]
    rw [hshape, parseValue, if_pos (by decide)]
    have hlen : es.length <
        (joinComma (es.map printSVal) ++ ']' :: r).length + 1 := by
      have := joinComma_length es
      simp only [List.length_append, List.length_cons]
      omega
    rw [parseElems_print es r _ (by simpa [wfVal] using hv) hlen]
    rfl

theorem wfComment_elim (tok : Str) (h : wfComment tok = true) :
    ∃ t, tok = '#' :: t ∧ noNL tok = true := by
  simp only [wfComment, Bool.and_eq_true] at h
  cases tok with
  | nil => exact absurd h.1 (by decide)
  | cons c t =>
    have hc : c = '#' := by simpa using h.1
    exact ⟨t, by rw [hc], h.2⟩

theorem parseHead_print (fn : Str) (h : wfIdent fn = true) :
    parseHead (fn ++ ['(']) = some fn := by
  simp only [wfIdent, Bool.and_eq_true] at h
  unfold parseHead
  have hrev : (fn ++ ['(']).reverse = '(' :: fn.reverse := by simp
  simp only [hrev]
  rw [if_pos (by decide), List.reverse_reverse]
  cases fn with
  | nil => exact absurd h.1 (by decide)
  | cons f0 ft =>
    show (if (f0 :: ft).all identCh = true then some (f0 :: ft) else none) =
      some (f0 :: ft)
    rw [if_pos h.2]

theorem printVal_head (v : Val) (hv : wfVal v = true) :
    ∃ c0 rest, printVal v = c0 :: rest ∧ wsCh c0 = false := by
  cases v with
  | str s => exact ⟨'"', s ++ ['"'], rfl, by decide⟩
  | atom a =>
    simp only [wfVal, wfIdent, Bool.and_eq_true] at hv
    cases a with
    | nil => exact absurd hv.1 (by decide)
    | cons a0 aa =>
      have ha0 : identCh a0 = true := by
        have := hv.2
        simp only [List.all_cons, Bool.and_eq_true] at this
        exact this.1
      exact ⟨a0, aa, rfl, identCh_not_ws a0 ha0⟩
  | list es =>
    exact ⟨'[', joinComma (es.map printSVal) ++ [']'], rfl, by decide⟩

theorem parseArgLine_shape (k0 : Char) (kt : Str) (v : Val) (X : Str)
    (hk : (k0 :: kt).all identCh = true) (hv : wfVal v = true) :
    parseArgLine (ind4 ++ (k0 :: kt) ++ chars " = " ++ printVal v ++ [','] ++ X) =
      (match X.dropWhile wsCh with
       | [] => some ⟨[], k0 :: kt, v, none⟩
       | c3 :: t3 =>
         if c3 == '#' then some ⟨[], k0 :: kt, v, some (c3 :: t3)⟩ else none) := by
  have hk0 : identCh k0 = true := by
    simp only [List.all_cons, Bool.and_eq_true] at hk
    exact hk.1
  obtain ⟨c0, rest0, hpv, hc0w⟩ := printVal_head v hv
  have hassoc : ind4 ++ (k0 :: kt) ++ chars " = " ++ printVal v ++ [','] ++ X =
      ind4 ++ ((k0 :: kt) ++ (' ' :: '=' :: ' ' :: (printVal v ++ ',' :: X))) := by
    simp [chars]
  rw [hassoc]
  simp only [parseArgLine]
  have h1 : (ind4 ++
        ((k0 :: kt) ++ (' ' :: '=' :: ' ' :: (printVal v ++ ',' :: X)))).dropWhile wsCh =
      (k0 :: kt) ++ (' ' :: '=' :: ' ' :: (printVal v ++ ',' :: X)) := by
    rw [dropWhile_ws_append ind4 _ (by decide), List.cons_append, List.dropWhile_cons,
      identCh_not_ws k0 hk0]
    simp
  simp only [h1]
  have h2 : ((k0 :: kt) ++
        (' ' :: '=' :: ' ' :: (printVal v ++ ',' :: X))).takeWhile identCh = k0 :: kt :=
    takeWhile_all_append identCh (k0 :: kt) _ hk
      (by intro c hc
          simp only [List.head?_cons, Option.some.injEq] at hc
          rw [← hc]; decide)
  simp only [h2]
  have h3 : ((k0 :: kt) ++
        (' ' :: '=' :: ' ' :: (printVal v ++ ',' :: X))).drop (k0 :: kt).length =
      ' ' :: '=' :: ' ' :: (printVal v ++ ',' :: X) := List.drop_left _ _
  simp only [h3]
  have h4 : (' ' :: '=' :: ' ' :: (printVal v ++ ',' :: X)).dropWhile wsCh =
      '=' :: ' ' :: (printVal v ++ ',' :: X) := by
    rw [List.dropWhile_cons]
    simp only [show wsCh ' ' = true from by decide, if_true]
    rw [List.dropWhile_cons, show wsCh '=' = false from by decide]
    simp
  simp only [h4]
  rw [if_pos (by decide)]
  have h5 : (' ' :: (printVal v ++ ',' :: X)).dropWhile wsCh = printVal v ++ ',' :: X := by
    rw [List.dropWhile_cons]
    simp only [show wsCh ' ' = true from by decide, if_true]
    rw [hpv, List.cons_append, List.dropWhile_cons, hc0w]
    simp
  simp only [h5]
  have h6 : parseValue (printVal v ++ ',' :: X) = some (v, ',' :: X) :=
    parseValue_print v (',' :: X) hv
      (by intro c hc
          simp only [List.head?_cons, Option.some.injEq] at hc
          rw [← hc]; decide)
  simp only [h6]
  have h7 : (',' :: X).dropWhile wsCh = ',' :: X := by
    rw [List.dropWhile_cons, show wsCh ',' = false from by decide]
    simp
  simp only [h7]
  rw [if_pos (by decide)]

theorem parseArgLine_print (k : Str) (v : Val) (sfx : Option Str)
    (hk : wfIdent k = true) (hv : wfVal v = true)
    (hs : ∀ tok, sfx = some tok → wfComment tok = true) :
    parseArgLine (ind4 ++ k ++ chars " = " ++ printVal v ++ [','] ++ sfxPart sfx) =
      some ⟨[], k, v, sfx⟩ := by
  simp only [wfIdent, Bool.and_eq_true] at hk
  cases k with
  | nil => exact absurd hk.1 (by decide)
  | cons k0 kt =>
    cases sfx with
    | none =>
      show parseArgLine (ind4 ++ (k0 :: kt) ++ chars " = " ++ printVal v ++ [','] ++ []) = _
      rw [parseArgLine_shape k0 kt v [] hk.2 hv]
      rfl
    | some tok =>
      obtain ⟨t, rfl, _⟩ := wfComment_elim tok (hs tok rfl)
      show parseArgLine (ind4 ++ (k0 :: kt) ++ chars " = " ++ printVal v ++ [','] ++
        (' ' :: ' ' :: '#' :: t)) = _
      rw [parseArgLine_shape k0 kt v (' ' :: ' ' :: '#' :: t) hk.2 hv]
      have hdw : (' ' :: ' ' :: '#' :: t).dropWhile wsCh = '#' :: t := by
        rw [List.dropWhile_cons]
        simp only [show wsCh ' ' = true from by decide, if_true]
        rw [List.dropWhile_cons]
        simp only [show wsCh ' ' = true from by decide, if_true]
        rw [List.dropWhile_cons, show wsCh '#' = false from by decide]
        simp
      simp only [hdw]
      rw [if_pos (by decide)]

theorem isCloseLine_of_head (l : Str) (c0 : Char) (r : Str)
    (h : l.dropWhile wsCh = c0 :: r) (hc : (c0 == ')') = false) :
    isCloseLine l = false := by
  unfold isCloseLine
  rw [h]
  cases r with
  | nil => exact hc
  | cons a b => rfl

theorem commentTok_of_head (l : Str) (c0 : Char) (r : Str)
    (h : l.dropWhile wsCh = c0 :: r) (hc : (c0 == '#') = false) :
    commentTok l = none := by
  unfold commentTok
  simp only [h]
  rw [if_neg (by simp [hc])]

theorem comment_dropWhile (t : Str) :
    (ind4 ++ '#' :: t).dropWhile wsCh = '#' :: t := by
  rw [dropWhile_ws_append ind4 _ (by decide), List.dropWhile_cons,
    show wsCh '#' = false from by decide]
  simp

theorem isCloseLine_close : isCloseLine [')'] = true := by decide

theorem parseArgs_cons (l : Str) (rest : List Str) :
    parseArgs (l :: rest) =
      if isCloseLine l then
        (match rest with
         | [] => some ([], [])
         | _ => none)
      else
        match commentTok l with
        | some tok =>
          match parseArgs rest with
          | some ([], tr) => some ([], tok :: tr)
          | some (a :: as, tr) => some ({ a with before := tok :: a.before } :: as, tr)
          | none => none
        | none =>
          match parseArgLine l with
          | some a => (parseArgs rest).map (fun q => (a :: q.1, q.2))
          | none => none := by
  cases rest with
  | nil => rfl
  | cons r rs => rfl

theorem parseArgs_print_trailing (tr : List Str) (htr : tr.all wfComment = true) :
    parseArgs (tr.map (fun tok => ind4 ++ tok) ++ [[')']]) = some ([], tr) := by
  induction tr with
  | nil =>
    rw [List.map_nil, List.nil_append, parseArgs_cons]
    simp only [isCloseLine_close, if_true]
  | cons tok tr2 ih =>
    simp only [List.all_cons, Bool.and_eq_true] at htr
    obtain ⟨t, rfl, _⟩ := wfComment_elim tok htr.1
    rw [List.map_cons, List.cons_append, parseArgs_cons,
      if_neg (by simp [isCloseLine_of_head _ '#' t (comment_dropWhile t) (by decide)])]
    have hct : commentTok (ind4 ++ '#' :: t) = some ('#' :: t) := by
      unfold commentTok
      simp only [comment_dropWhile t]
      rw [if_pos (by decide)]
    simp only [hct, ih htr.2]

theorem parseArgs_before (bs : List Str) (rest : List Str) (a : Arg)
    (as2 : List Arg) (tr : List Str) (hbs : bs.all wfComment = true)
    (h : parseArgs rest = some (a :: as2, tr)) :
    parseArgs (bs.map (fun tok => ind4 ++ tok) ++ rest) =
      some ({ a with before := bs ++ a.before } :: as2, tr) := by
  induction bs with
  | nil => simpa using h
  | cons b bs2 ih =>
    simp only [List.all_cons, Bool.and_eq_true] at hbs
    obtain ⟨t, rfl, _⟩ := wfComment_elim b hbs.1
    rw [List.map_cons, List.cons_append, parseArgs_cons,
      if_neg (by simp [isCloseLine_of_head _ '#' t (comment_dropWhile t) (by decide)])]
    have hct : commentTok (ind4 ++ '#' :: t) = some ('#' :: t) := by
      unfold commentTok
      simp only [comment_dropWhile t]
      rw [if_pos (by decide)]
    simp only [hct, ih hbs.2]
    simp

theorem parseArgs_print (args : List Arg) (tr : List Str)
    (hargs : args.all wfArg = true) (htr : tr.all wfComment = true) :
    parseArgs ((args.map argLines).flatten ++
        tr.map (fun tok => ind4 ++ tok) ++ [[')']]) = some (args, tr) := by
  induction args with
  | nil =>
    simp only [List.map_nil, List.flatten_nil, List.nil_append]
    exact parseArgs_print_trailing tr htr
  | cons a as2 ih =>
    simp only [List.all_cons, Bool.and_eq_true] at hargs
    obtain ⟨bf, k, v, sfx⟩ := a
    have hwa := hargs.1
    simp only [wfArg, Bool.and_eq_true] at hwa
    obtain ⟨⟨⟨hbf, hkey⟩, hval⟩, hsfx⟩ := hwa
    have hkcons : ∃ k0 kt, k = k0 :: kt ∧ identCh k0 = true := by
      simp only [wfIdent, Bool.and_eq_true] at hkey
      cases k with
      | nil => exact absurd hkey.1 (by decide)
      | cons k0 kt =>
        refine ⟨k0, kt, rfl, ?_⟩
        have := hkey.2
        simp only [List.all_cons, Bool.and_eq_true] at this
        exact this.1
    obtain ⟨k0, kt, rfl, hk0⟩ := hkcons
    have hflat : ((⟨bf, k0 :: kt, v, sfx⟩ :: as2 : List Arg).map argLines).flatten ++
        tr.map (fun tok => ind4 ++ tok) ++ [[')']] =
        bf.map (fun tok => ind4 ++ tok) ++
          ((ind4 ++ (k0 :: kt) ++ chars " = " ++ printVal v ++ [','] ++ sfxPart sfx) ::
            ((as2.map argLines).flatten ++
              tr.map (fun tok => ind4 ++ tok) ++ [[')']])) := by
      simp [argLines]
    rw [hflat]
    have hmaindw : (ind4 ++ (k0 :: kt) ++ chars " = " ++ printVal v ++ [','] ++
        sfxPart sfx).dropWhile wsCh =
        k0 :: (kt ++ (chars " = " ++ (printVal v ++ (',' :: sfxPart sfx)))) := by
      rw [show ind4 ++ (k0 :: kt) ++ chars " = " ++ printVal v ++ [','] ++ sfxPart sfx =
        ind4 ++ ((k0 :: kt) ++ (chars " = " ++ (printVal v ++ (',' :: sfxPart sfx))))
        from by simp]
      rw [dropWhile_ws_append ind4 _ (by decide), List.cons_append,
        List.dropWhile_cons, identCh_not_ws k0 hk0]
      simp
    have hrest : parseArgs
        ((ind4 ++ (k0 :: kt) ++ chars " = " ++ printVal v ++ [','] ++ sfxPart sfx) ::
          ((as2.map argLines).flatten ++
            tr.map (fun tok => ind4 ++ tok) ++ [[')']])) =
        some ((⟨[], k0 :: kt, v, sfx⟩ : Arg) :: as2, tr) := by
      rw [parseArgs_cons,
        if_neg (by rw [isCloseLine_of_head _ k0 _ hmaindw
          (identCh_ne_of k0 ')' hk0 (by decide))]; simp),
        commentTok_of_head _ k0 _ hmaindw (identCh_ne_of k0 '#' hk0 (by decide))]
      simp only [parseArgLine_print (k0 :: kt) v sfx hkey hval
        (fun tok htok => by rw [htok] at hsfx; exact hsfx),
        ih hargs.2]
      rfl
    rw [parseArgs_before bf _ _ as2 tr hbf hrest]
    simp

theorem parseLines_print (c : Call) (hc : wfCall c = true) :
    parseLines (printLines c) = some c := by
  obtain ⟨fn, args, tr⟩ := c
  simp only [wfCall, Bool.and_eq_true] at hc
  obtain ⟨⟨hfn, hargs⟩, htr⟩ := hc
  show parseLines ((fn ++ ['(']) ::
    ((args.map argLines).flatten ++ tr.map (fun tok => ind4 ++ tok) ++ [[')']])) = _
  rw [parseLines]
  simp only [parseHead_print fn hfn, parseArgs_print args tr hargs htr]
  rfl

theorem no_nl_append (a b : Str) (ha : '\n' ∉ a) (hb : '\n' ∉ b) : '\n' ∉ a ++ b := by
  intro hm
  rcases List.mem_append.mp hm with h | h
  · exact ha h
  · exact hb h

theorem all_identCh_no_nl (a : Str) (h : a.all identCh = true) : '\n' ∉ a := by
  intro hm
  have := List.all_eq_true.mp h _ hm
  exact absurd this (by decide)

theorem noNL_not_mem (s : Str) (h : noNL s = true) : '\n' ∉ s := by
  intro hm
  have := List.all_eq_true.mp h _ hm
  exact absurd this (by decide)

theorem not_mem_noNL (s : Str) (h : '\n' ∉ s) : noNL s = true := by
  simp only [noNL, List.all_eq_true]
  intro c hc
  simp only [bne_iff_ne, ne_eq]
  intro hcon
  rw [hcon] at hc
  exact h hc

theorem printSVal_no_nl (e : SVal) (he : wfSVal e = true) : '\n' ∉ printSVal e := by
  cases e with
  | str s =>
    obtain ⟨_, _, hn⟩ := wfStrBody_elim s he
    intro hm
    rcases List.mem_cons.mp hm with h1 | hm2
    · exact absurd h1 (by decide)
    · rcases List.mem_append.mp hm2 with h3 | h4
      · exact hn h3
      · exact absurd (List.mem_singleton.mp h4) (by decide)
  | atom a =>
    simp only [wfSVal, wfIdent, Bool.and_eq_true] at he
    exact all_identCh_no_nl a he.2

theorem joinComma_no_nl (xs : List Str) (h : ∀ x ∈ xs, '\n' ∉ x) :
    '\n' ∉ joinComma xs := by
  induction xs with
  | nil => simp [joinComma]
  | cons x xs2 ih =>
    cases xs2 with
    | nil => simpa [joinComma] using h x (by simp)
    | cons y ys =>
      have hjc : joinComma (x :: y :: ys) = x ++ ',' :: ' ' :: joinComma (y :: ys) := rfl
      rw [hjc]
      intro hm
      rcases List.mem_append.mp hm with h1 | h2
      · exact h x (by simp) h1
      · rcases List.mem_cons.mp h2 with h3 | h4
        · exact absurd h3 (by decide)
        · rcases List.mem_cons.mp h4 with h5 | h6
          · exact absurd h5 (by decide)
          · exact ih (fun z hz => h z (List.mem_cons_of_mem _ hz)) h6

theorem printVal_no_nl (v : Val) (hv : wfVal v = true) : '\n' ∉ printVal v := by
  cases v with
  | str s => exact printSVal_no_nl (.str s) (by simpa [wfSVal, wfVal] using hv)
  | atom a => exact printSVal_no_nl (.atom a) (by simpa [wfSVal, wfVal] using hv)
  | list es =>
    simp only [printVal]
    intro hm
    rcases List.mem_cons.mp hm with h1 | h2
    · exact absurd h1 (by decide)
    · rcases List.mem_append.mp h2 with h3 | h4
      · refine joinComma_no_nl _ ?_ h3
        intro x hx
        obtain ⟨e, he, rfl⟩ := List.mem_map.mp hx
        exact printSVal_no_nl e
          (List.all_eq_true.mp (by simpa [wfVal] using hv) e he)
      · exact absurd (List.mem_singleton.mp h4) (by decide)

theorem sfxPart_no_nl (sfx : Option Str)
    (hs : ∀ tok, sfx = some tok → wfComment tok = true) : '\n' ∉ sfxPart sfx := by
  cases sfx with
  | none => simp [sfxPart]
  | some tok =>
    obtain ⟨t, rfl, hnl⟩ := wfComment_elim tok (hs tok rfl)
    simp only [sfxPart]
    intro hm
    rcases List.mem_cons.mp hm with h | h
    · exact absurd h (by decide)
    · rcases List.mem_cons.mp h with h2 | h2
      · exact absurd h2 (by decide)
      · exact noNL_not_mem _ hnl h2

theorem argLines_no_nl (a : Arg) (ha : wfArg a = true) :
    ∀ l ∈ argLines a, '\n' ∉ l := by
  obtain ⟨bf, k, v, sfx⟩ := a
  simp only [wfArg, Bool.and_eq_true] at ha
  obtain ⟨⟨⟨hbf, hkey⟩, hval⟩, hsfx⟩ := ha
  intro l hl
  simp only [argLines] at hl
  rcases List.mem_append.mp hl with h1 | h2
  · obtain ⟨tok, htok, rfl⟩ := List.mem_map.mp h1
    obtain ⟨t, htc, hnl⟩ := wfComment_elim tok (List.all_eq_true.mp hbf tok htok)
    exact no_nl_append _ _ (by decide) (noNL_not_mem tok hnl)
  · rw [List.mem_singleton.mp h2]
    refine no_nl_append _ _ (no_nl_append _ _ (no_nl_append _ _ (no_nl_append _ _
      (no_nl_append _ _ (by decide)
        (all_identCh_no_nl k
          (by simp only [wfIdent, Bool.and_eq_true] at hkey; exact hkey.2)))
      (by decide)) (printVal_no_nl v hval)) (by decide)) ?_
    exact sfxPart_no_nl sfx (fun tok htok => by rw [htok] at hsfx; exact hsfx)

theorem printLines_no_nl (c : Call) (hc : wfCall c = true) :
    ∀ l ∈ printLines c, '\n' ∉ l := by
  obtain ⟨fn, args, tr⟩ := c
  simp only [wfCall, Bool.and_eq_true] at hc
  obtain ⟨⟨hfn, hargs⟩, htr⟩ := hc
  intro l hl
  simp only [printLines] at hl
  rcases List.mem_cons.mp hl with rfl | h2
  · exact no_nl_append _ _ (all_identCh_no_nl fn
      (by simp only [wfIdent, Bool.and_eq_true] at hfn; exact hfn.2)) (by decide)
  · rcases List.mem_append.mp h2 with h3 | h4
    · rcases List.mem_append.mp h3 with h5 | h6
      · obtain ⟨L, hL, hlL⟩ := List.mem_flatten.mp h5
        obtain ⟨a, haa, rfl⟩ := List.mem_map.mp hL
        exact argLines_no_nl a (List.all_eq_true.mp hargs a haa) l hlL
      · obtain ⟨tok, htok, rfl⟩ := List.mem_map.mp h6
        obtain ⟨t, htc, hnl⟩ := wfComment_elim tok (List.all_eq_true.mp htr tok htok)
        exact no_nl_append _ _ (by decide) (noNL_not_mem tok hnl)
    · rw [List.mem_singleton.mp h4]
      decide

theorem printLines_ne_nil (c : Call) : printLines c ≠ [] := by
  simp [printLines]

theorem parseBody_print (c : Call) (hc : wfCall c = true) :
    parseBody (joinLines (printLines c)) = some c := by
  unfold parseBody
  rw [linesOf_joinLines (printLines c) (printLines_ne_nil c) (printLines_no_nl c hc)]
  exact parseLines_print c hc

theorem mem_dropWhile_mem (p : Char → Bool) (l : Str) (x : Char)
    (h : x ∈ l.dropWhile p) : x ∈ l := by
  induction l with
  | nil => simp at h
  | cons c t ih =>
    rw [List.dropWhile_cons] at h
    by_cases hc : p c = true
    · rw [if_pos hc] at h
      exact List.mem_cons_of_mem _ (ih h)
    · rw [if_neg hc] at h
      exact h

theorem parseScalar_wf (t : Str) (e : SVal) (r : Str) (hn : '\n' ∉ t)
    (h : parseScalar t = some (e, r)) : wfSVal e = true ∧ '\n' ∉ r := by
  rcases parseScalar_spec t e r h with ⟨s, rfl, rfl, hq, hb⟩ | ⟨a, rfl, rfl, hne, hall⟩
  · constructor
    · apply wfStrBody_intro s hq hb
      intro hm
      exact hn (List.mem_cons_of_mem _ (List.mem_append_left _ hm))
    · intro hm
      exact hn (List.mem_cons_of_mem _ (List.mem_append_right _ (List.mem_cons_of_mem _ hm)))
  · constructor
    · simp only [wfSVal, wfIdent, Bool.and_eq_true]
      refine ⟨?_, hall⟩
      cases a with
      | nil => exact absurd rfl hne
      | cons x xs => trivial
    · intro hm
      exact hn (List.mem_append_right _ hm)

theorem parseElems_wf : ∀ (fuel : Nat) (s : Str) (es : List SVal) (r : Str),
    '\n' ∉ s → parseElems fuel s = some (es, r) →
    es.all wfSVal = true ∧ '\n' ∉ r := by
  intro fuel
  induction fuel with
  | zero =>
    intro s es r hn h
    simp [parseElems] at h
  | succ f ih =>
    intro s es r hn h
    rw [parseElems] at h
    cases hdw : s.dropWhile wsCh with
    | nil =>
      rw [hdw] at h
      simp at h
    | cons c rcs =>
      simp only [hdw] at h
      have hsub : '\n' ∉ c :: rcs := by
        intro hm
        exact hn (mem_dropWhile_mem wsCh s '\n' (hdw ▸ hm))
      by_cases hc : (c == ']') = true
      · rw [if_pos hc] at h
        obtain ⟨rfl, rfl⟩ : [] = es ∧ rcs = r := by simpa [Prod.ext_iff] using h
        exact ⟨by simp, fun hm => hsub (List.mem_cons_of_mem _ hm)⟩
      · rw [if_neg hc] at h
        cases hps : parseScalar (c :: rcs) with
        | none => rw [hps] at h; simp at h
        | some q =>
          obtain ⟨v, r1⟩ := q
          simp only [hps] at h
          obtain ⟨hv, hr1⟩ := parseScalar_wf (c :: rcs) v r1 hsub hps
          cases hdw2 : r1.dropWhile wsCh with
          | nil => rw [hdw2] at h; simp at h
          | cons c2 r2 =>
            simp only [hdw2] at h
            have hsub2 : '\n' ∉ c2 :: r2 := by
              intro hm
              exact hr1 (mem_dropWhile_mem wsCh r1 '\n' (hdw2 ▸ hm))
            by_cases hc2 : (c2 == ']') = true
            · rw [if_pos hc2] at h
              obtain ⟨rfl, rfl⟩ : [v] = es ∧ r2 = r := by simpa [Prod.ext_iff] using h
              exact ⟨by simp [hv], fun hm => hsub2 (List.mem_cons_of_mem _ hm)⟩
            · rw [if_neg hc2] at h
              by_cases hcm : (c2 == ',') = true
              · rw [if_pos hcm] at h
                cases hpe : parseElems f (r2.dropWhile wsCh) with
                | none => rw [hpe] at h; simp at h
                | some q2 =>
                  obtain ⟨es2, r3⟩ := q2
                  simp only [hpe] at h
                  obtain ⟨rfl, rfl⟩ : v :: es2 = es ∧ r3 = r := by
                    simpa [Prod.ext_iff] using h
                  have hr2 : '\n' ∉ r2.dropWhile wsCh := by
                    intro hm
                    exact hsub2 (List.mem_cons_of_mem _ (mem_dropWhile_mem wsCh r2 '\n' hm))
                  obtain ⟨hes2, hr3⟩ := ih (r2.dropWhile wsCh) es2 r3 hr2 hpe
                  exact ⟨by simp [hv, hes2], hr3⟩
              · rw [if_neg hcm] at h
                simp at h

theorem parseValue_wf (s : Str) (v : Val) (r : Str) (hn : '\n' ∉ s)
    (h : parseValue s = some (v, r)) : wfVal v = true ∧ '\n' ∉ r := by
  cases s with
  | nil => simp [parseValue] at h
  | cons c t =>
    simp only [parseValue] at h
    have hnt : '\n' ∉ t := fun hm => hn (List.mem_cons_of_mem _ hm)
    by_cases hc : (c == '[') = true
    · rw [if_pos hc] at h
      cases hpe : parseElems (t.length + 1) t with
      | none => rw [hpe] at h; simp at h
      | some q =>
        obtain ⟨es, r2⟩ := q
        simp only [hpe] at h
        obtain ⟨rfl, rfl⟩ : Val.list es = v ∧ r2 = r := by simpa [Prod.ext_iff] using h
        obtain ⟨hes, hr2⟩ := parseElems_wf (t.length + 1) t es r2 hnt hpe
        exact ⟨by simpa [wfVal] using hes, hr2⟩
    · rw [if_neg hc] at h
      cases hps : parseScalar (c :: t) with
      | none => rw [hps] at h; simp at h
      | some q =>
        obtain ⟨e, r2⟩ := q
        simp only [hps] at h
        obtain ⟨he, hr2⟩ := parseScalar_wf (c :: t) e r2 hn hps
        cases e with
        | str s2 =>
          obtain ⟨rfl, rfl⟩ : Val.str s2 = v ∧ r2 = r := by simpa [Prod.ext_iff] using h
          exact ⟨by simpa [wfVal, wfSVal] using he, hr2⟩
        | atom a2 =>
          obtain ⟨rfl, rfl⟩ : Val.atom a2 = v ∧ r2 = r := by simpa [Prod.ext_iff] using h
          exact ⟨by simpa [wfVal, wfSVal] using he, hr2⟩

theorem parseArgLine_wf (l : Str) (a : Arg) (hn : '\n' ∉ l)
    (h : parseArgLine l = some a) : wfArg a = true := by
  simp only [parseArgLine] at h
  cases htw : (l.dropWhile wsCh).takeWhile identCh with
  | nil => rw [htw] at h; simp at h
  | cons k0 kt =>
    simp only [htw] at h
    have hnl1 : '\n' ∉ l.dropWhile wsCh := fun hm => hn (mem_dropWhile_mem wsCh l '\n' hm)
    have hkall : (k0 :: kt).all identCh = true := by
      rw [← htw]
      exact List.all_eq_true.mpr (fun x hx => List.mem_takeWhile_imp hx)
    cases hdw2 : ((l.dropWhile wsCh).drop (k0 :: kt).length).dropWhile wsCh with
    | nil => rw [hdw2] at h; simp at h
    | cons c r2 =>
      simp only [hdw2] at h
      have hnr2 : '\n' ∉ c :: r2 := by
        intro hm
        exact hnl1 (List.mem_of_mem_drop (mem_dropWhile_mem wsCh _ '\n' (hdw2 ▸ hm)))
      by_cases hc : (c == '=') = true
      · rw [if_pos hc] at h
        cases hpv : parseValue (r2.dropWhile wsCh) with
        | none => rw [hpv] at h; simp at h
        | some q =>
          obtain ⟨v, r4⟩ := q
          simp only [hpv] at h
          have hnr4 : '\n' ∉ r2.dropWhile wsCh := by
            intro hm
            exact hnr2 (List.mem_cons_of_mem _ (mem_dropWhile_mem wsCh r2 '\n' hm))
          obtain ⟨hv, hr4⟩ := parseValue_wf _ v r4 hnr4 hpv
          have hr5 : '\n' ∉ r4.dropWhile wsCh := by
            intro hm
            exact hr4 (mem_dropWhile_mem wsCh r4 '\n' hm)
          have hkey : wfIdent (k0 :: kt) = true := by
            simp only [wfIdent, Bool.and_eq_true]
            exact ⟨by trivial, hkall⟩
          have hfin : ∀ (r6 : Str), '\n' ∉ r6 →
              (match r6 with
               | [] => some (⟨[], k0 :: kt, v, none⟩ : Arg)
               | c3 :: t3 =>
                 if c3 == '#' then some ⟨[], k0 :: kt, v, some (c3 :: t3)⟩
                 else none) = some a → wfArg a = true := by
            intro r6 hnr6 h2
            cases r6 with
            | nil =>
              obtain rfl : (⟨[], k0 :: kt, v, none⟩ : Arg) = a := by simpa using h2
              simp [wfArg, hkey, hv]
            | cons c3 t3 =>
              have h2x : (if (c3 == '#') = true
                  then some (⟨[], k0 :: kt, v, some (c3 :: t3)⟩ : Arg)
                  else none) = some a := h2
              by_cases hc3 : (c3 == '#') = true
              · rw [if_pos hc3] at h2x
                obtain rfl : (⟨[], k0 :: kt, v, some (c3 :: t3)⟩ : Arg) = a := by
                  simpa using h2x
                simp only [wfArg, Bool.and_eq_true]
                refine ⟨⟨⟨by simp, hkey⟩, hv⟩, ?_⟩
                show wfComment (c3 :: t3) = true
                simp only [wfComment, Bool.and_eq_true]
                exact ⟨hc3, not_mem_noNL _ hnr6⟩
              · rw [if_neg hc3] at h2x
                simp at h2x
          cases hr5c : r4.dropWhile wsCh with
          | nil =>
            rw [hr5c] at h
            exact hfin [] (by simp) h
          | cons c2 t2 =>
            rw [hr5c] at h
            rw [hr5c] at hr5
            have hx : (match (if (c2 == ',') = true then t2.dropWhile wsCh
                  else c2 :: t2) with
                | [] => some (⟨[], k0 :: kt, v, none⟩ : Arg)
                | c3 :: t3 =>
                  if c3 == '#' then some ⟨[], k0 :: kt, v, some (c3 :: t3)⟩
                  else none) = some a := h
            by_cases hc2 : (c2 == ',') = true
            · rw [if_pos hc2] at hx
              refine hfin (t2.dropWhile wsCh) ?_ hx
              intro hm
              exact hr5 (List.mem_cons_of_mem _ (mem_dropWhile_mem wsCh t2 '\n' hm))
            · rw [if_neg hc2] at hx
              exact hfin (c2 :: t2) hr5 hx
      · rw [if_neg hc] at h
        simp at h

theorem commentTok_wf (l tok : Str) (hn : '\n' ∉ l) (h : commentTok l = some tok) :
    wfComment tok = true := by
  unfold commentTok at h
  cases hdw : l.dropWhile wsCh with
  | nil => rw [hdw] at h; simp at h
  | cons c t =>
    simp only [hdw] at h
    by_cases hc : (c == '#') = true
    · rw [if_pos hc] at h
      obtain rfl : c :: t = tok := by simpa using h
      simp only [wfComment, Bool.and_eq_true]
      refine ⟨hc, not_mem_noNL _ ?_⟩
      intro hm
      exact hn (mem_dropWhile_mem wsCh l '\n' (hdw ▸ hm))
    · rw [if_neg hc] at h
      simp at h

theorem parseArgs_wf (ls : List Str) : ∀ (as : List Arg) (tr : List Str),
    (∀ l ∈ ls, '\n' ∉ l) → parseArgs ls = some (as, tr) →
    as.all wfArg = true ∧ tr.all wfComment = true := by
  induction ls with
  | nil =>
    intro as tr _ h
    simp [parseArgs] at h
  | cons l rest ih =>
    intro as tr hn h
    rw [parseArgs_cons] at h
    have hnl : '\n' ∉ l := hn l (by simp)
    have hnrest : ∀ x ∈ rest, '\n' ∉ x := fun x hx => hn x (List.mem_cons_of_mem _ hx)
    by_cases hcl : isCloseLine l = true
    · rw [if_pos hcl] at h
      cases rest with
      | nil =>
        obtain ⟨rfl, rfl⟩ : ([] : List Arg) = as ∧ ([] : List Str) = tr := by
          simpa [Prod.ext_iff] using h
        exact ⟨by simp, by simp⟩
      | cons r rs => simp at h
    · rw [if_neg hcl] at h
      cases hct : commentTok l with
      | some tok =>
        simp only [hct] at h
        have htok := commentTok_wf l tok hnl hct
        cases hpa : parseArgs rest with
        | none => rw [hpa] at h; simp at h
        | some q =>
          obtain ⟨as2, tr2⟩ := q
          simp only [hpa] at h
          obtain ⟨has2, htr2⟩ := ih as2 tr2 hnrest hpa
          cases as2 with
          | nil =>
            obtain ⟨rfl, rfl⟩ : ([] : List Arg) = as ∧ tok :: tr2 = tr := by
              simpa [Prod.ext_iff] using h
            exact ⟨by simp, by simp [htok, htr2]⟩
          | cons a2 as3 =>
            obtain ⟨rfl, rfl⟩ :
                ({ a2 with before := tok :: a2.before } :: as3) = as ∧ tr2 = tr := by
              simpa [Prod.ext_iff] using h
            simp only [List.all_cons, Bool.and_eq_true] at has2 ⊢
            refine ⟨⟨?_, has2.2⟩, htr2⟩
            obtain ⟨bf2, k2, v2, sfx2⟩ := a2
            simp only [wfArg, Bool.and_eq_true] at has2 ⊢
            obtain ⟨⟨⟨hbf2, hk2⟩, hv2⟩, hs2⟩ := has2.1
            exact ⟨⟨⟨by simp [htok, hbf2], hk2⟩, hv2⟩, hs2⟩
      | none =>
        simp only [hct] at h
        cases hpl : parseArgLine l with
        | none => rw [hpl] at h; simp at h
        | some a2 =>
          simp only [hpl] at h
          cases hpa : parseArgs rest with
          | none => rw [hpa] at h; simp at h
          | some q =>
            obtain ⟨as2, tr2⟩ := q
            simp only [hpa] at h
            obtain ⟨rfl, rfl⟩ : a2 :: as2 = as ∧ tr2 = tr := by
              simpa [Prod.ext_iff] using h
            obtain ⟨has2, htr2⟩ := ih as2 tr2 hnrest hpa
            exact ⟨by simp [parseArgLine_wf l a2 hnl hpl, has2], htr2⟩

theorem parseHead_wf (l fn : Str) (h : parseHead l = some fn) : wfIdent fn = true := by
  unfold parseHead at h
  cases hrev : l.reverse with
  | nil => rw [hrev] at h; simp at h
  | cons c rev =>
    simp only [hrev] at h
    by_cases hc : (c == '(') = true
    · rw [if_pos hc] at h
      cases hrr : rev.reverse with
      | nil => rw [hrr] at h; simp at h
      | cons f0 ft =>
        simp only [hrr] at h
        by_cases hall : (f0 :: ft).all identCh = true
        · rw [if_pos hall] at h
          obtain rfl : f0 :: ft = fn := by simpa using h
          simp only [wfIdent, Bool.and_eq_true]
          exact ⟨by trivial, hall⟩
        · rw [if_neg hall] at h
          simp at h
    · rw [if_neg hc] at h
      simp at h

theorem parseLines_wf (ls : List Str) (c : Call) (hn : ∀ l ∈ ls, '\n' ∉ l)
    (h : parseLines ls = some c) : wfCall c = true := by
  cases ls with
  | nil => simp [parseLines] at h
  | cons l0 rest =>
    rw [parseLines] at h
    cases hph : parseHead l0 with
    | none => rw [hph] at h; simp at h
    | some fn =>
      simp only [hph] at h
      cases hpa : parseArgs rest with
      | none => rw [hpa] at h; simp at h
      | some q =>
        obtain ⟨as2, tr2⟩ := q
        simp only [hpa] at h
        obtain rfl : Call.mk fn as2 tr2 = c := by simpa using h
        obtain ⟨has, htr⟩ := parseArgs_wf rest as2 tr2
          (fun x hx => hn x (List.mem_cons_of_mem _ hx)) hpa
        simp only [wfCall, Bool.and_eq_true]
        exact ⟨⟨parseHead_wf l0 fn hph, has⟩, htr⟩

theorem parseBody_wf (b : Str) (c : Call) (h : parseBody b = some c) :
    wfCall c = true := by
  unfold parseBody at h
  exact parseLines_wf (linesOf b) c (linesOf_mem_no_nl b) h

theorem ctxOk_elim (ctx : Ctx) (h : ctxOk ctx = true) :
    allHex ctx.commit = true ∧ allHex ctx.sha = true ∧ match10 ctx.date = true ∧
      ctx.date.length = 10 := by
  simp only [ctxOk, Bool.and_eq_true, beq_iff_eq] at h
  exact ⟨h.1.1.1, h.1.1.2, h.1.2, h.2⟩

theorem allHex_wfStrBody (s : Str) (h : allHex s = true) : wfStrBody s = true := by
  simp only [allHex, List.all_eq_true] at h
  apply wfStrBody_intro
  · intro hm; exact absurd (h _ hm) (by decide)
  · intro hm; exact absurd (h _ hm) (by decide)
  · intro hm; exact absurd (h _ hm) (by decide)

theorem pmAll_chars (s : Str) : ∀ (j : Nat), pmAll s j = true →
    ∀ c ∈ s, ∃ k, dTest k c = true := by
  induction s with
  | nil => simp
  | cons c t ih =>
    intro j h x hx
    simp only [pmAll, Bool.and_eq_true] at h
    rcases List.mem_cons.mp hx with rfl | hx
    · exact ⟨j, h.1⟩
    · exact ih (j + 1) h.2 x hx

theorem dTest_mem_class (k : Nat) (c : Char) (h : dTest k c = true) :
    c.isDigit = true ∨ c = '-' := by
  rcases dTest_cases k c h with ⟨_, rfl⟩ | ⟨_, rfl⟩ | ⟨_, rfl⟩ | ⟨_, h2⟩
  · exact Or.inl (by decide)
  · exact Or.inl (by decide)
  · exact Or.inr rfl
  · exact Or.inl h2

theorem match10_all_class (d : Str) (hd : match10 d = true) (hdl : d.length = 10) :
    ∀ c ∈ d, c.isDigit = true ∨ c = '-' := by
  have h1 := pmAll_take d 0 hd
  rw [Nat.sub_zero, ← hdl, List.take_length] at h1
  intro c hc
  obtain ⟨k, hk⟩ := pmAll_chars d 0 h1 c hc
  exact dTest_mem_class k c hk

theorem replaceDates_mem (d s : Str) (x : Char) (h : x ∈ replaceDates d s) :
    x ∈ s ∨ x ∈ d := by
  have H : ∀ (n : Nat) (t : Str), t.length ≤ n → x ∈ replaceDates d t →
      x ∈ t ∨ x ∈ d := by
    intro n
    induction n with
    | zero =>
      intro t ht hm
      have : t = [] := List.eq_nil_of_length_eq_zero (Nat.le_zero.mp ht)
      subst this
      simp [replaceDates, rdAux] at hm
    | succ n ihn =>
      intro t ht hm
      cases t with
      | nil => simp [replaceDates, rdAux] at hm
      | cons c u =>
        rw [replaceDates_cons] at hm
        by_cases hmt : match10 (c :: u) = true
        · rw [if_pos hmt] at hm
          rcases List.mem_append.mp hm with h1 | h1
          · exact Or.inr h1
          · rcases ihn (u.drop 9) (by
              simp only [List.length_drop]
              simp only [List.length_cons] at ht
              omega) h1 with h2 | h2
            · exact Or.inl (List.mem_cons_of_mem _ (List.mem_of_mem_drop h2))
            · exact Or.inr h2
        · rw [if_neg hmt] at hm
          rcases List.mem_cons.mp hm with rfl | h1
          · exact Or.inl (by simp)
          · rcases ihn u (by simp only [List.length_cons] at ht; omega) h1 with h2 | h2
            · exact Or.inl (List.mem_cons_of_mem _ h2)
            · exact Or.inr h2
  exact H s.length s le_rfl h

theorem replaceDates_wfComment (d tok : Str) (hd : match10 d = true)
    (hdl : d.length = 10) (h : wfComment tok = true) :
    wfComment (replaceDates d tok) = true := by
  obtain ⟨t, rfl, hnl⟩ := wfComment_elim tok h
  have hhead : replaceDates d ('#' :: t) = '#' :: replaceDates d t := by
    rw [replaceDates_cons, if_neg ?_]
    rw [match10, partMatch_cons _ _ _ (by omega)]
    simp only [Bool.and_eq_true, not_and]
    intro hcon
    exact absurd hcon (by decide)
  rw [hhead]
  simp only [wfComment, Bool.and_eq_true]
  refine ⟨by trivial, not_mem_noNL _ ?_⟩
  intro hm
  rcases List.mem_cons.mp hm with h1 | h1
  · exact absurd h1 (by decide)
  · rcases replaceDates_mem d t '\n' h1 with h2 | h2
    · exact (noNL_not_mem _ hnl) (List.mem_cons_of_mem _ h2)
    · rcases match10_all_class d hd hdl '\n' h2 with h3 | h3
      · exact absurd h3 (by decide)
      · exact absurd h3 (by decide)

theorem spAux_eq (s m : Str) (h : spAux s = some m) :
    m = rtrimHex s ∧ noNL s = true := by
  cases hn : noNL s with
  | true =>
    rw [spAux_of_noNL s hn] at h
    exact ⟨by simpa using h.symm, rfl⟩
  | false =>
    rw [spAux_of_newline s hn] at h
    exact absurd h (by simp)

theorem mem_rtrimHex_mem (s : Str) (x : Char) (h : x ∈ rtrimHex s) : x ∈ s := by
  unfold rtrimHex at h
  exact List.mem_reverse.mp (mem_dropWhile_mem _ _ _ (List.mem_reverse.mp h))

theorem urlMatch_sub (s m : Str) (h : urlMatch s = some m) : ∀ x ∈ m, x ∈ s := by
  obtain ⟨c, w, rest, rfl, rfl, _, _, _⟩ := urlMatch_spec s m h
  intro x hx
  rcases List.mem_cons.mp hx with rfl | hx
  · simp
  · rcases List.mem_append.mp hx with h2 | h2
    · exact List.mem_cons_of_mem _ (List.mem_append_left _ h2)
    · rw [List.mem_singleton.mp h2]
      simp

theorem wfStrBody_append (a b : Str) (ha : wfStrBody a = true)
    (hb : wfStrBody b = true) : wfStrBody (a ++ b) = true := by
  simp only [wfStrBody, List.all_append, Bool.and_eq_true]
  exact ⟨ha, hb⟩

theorem wfStrBody_sub (s m : Str) (hsub : ∀ x ∈ m, x ∈ s)
    (hs : wfStrBody s = true) : wfStrBody m = true := by
  simp only [wfStrBody, List.all_eq_true] at hs ⊢
  exact fun c hc => hs c (hsub c hc)

theorem subst_commit_eval (ctx : Ctx) (v : Val) :
    subst ctx (chars "commit") v =
      (match v with
       | .str s => if allHex s then .str ctx.commit else v
       | _ => v) := by
  unfold subst
  rw [if_pos rfl]

theorem subst_urls_eval (ctx : Ctx) (v : Val) :
    subst ctx (chars "urls") v =
      (match v with
       | .list [SVal.str s] =>
         (match urlMatch s with
          | some m1 => .list [SVal.str (m1 ++ ctx.commit ++ chars ".zip")]
          | none => v)
       | _ => v) := by
  unfold subst
  rw [if_neg (by decide), if_pos rfl]

theorem subst_sha_eval (ctx : Ctx) (v : Val) :
    subst ctx (chars "sha256") v =
      (match v with
       | .str s => if allHex s then .str ctx.sha else v
       | _ => v) := by
  unfold subst
  rw [if_neg (by decide), if_neg (by decide), if_pos rfl]

theorem subst_sp_eval (ctx : Ctx) (v : Val) :
    subst ctx (chars "strip_prefix") v =
      (match v with
       | .str s =>
         (match spAux s with
          | some m1 => .str (m1 ++ ctx.commit)
          | none => v)
       | _ => v) := by
  unfold subst
  rw [if_neg (by decide), if_neg (by decide), if_neg (by decide), if_pos rfl]

theorem subst_other_eval (ctx : Ctx) (k : Str) (v : Val)
    (h1 : k ≠ chars "commit") (h2 : k ≠ chars "urls") (h3 : k ≠ chars "sha256")
    (h4 : k ≠ chars "strip_prefix") : subst ctx k v = v := by
  unfold subst
  rw [if_neg h1, if_neg h2, if_neg h3, if_neg h4]

theorem subst_idem (ctx : Ctx) (hc : allHex ctx.commit = true)
    (_hs : allHex ctx.sha = true) (k : Str) (v : Val) :
    subst ctx k (subst ctx k v) = subst ctx k v := by
  by_cases h1 : k = chars "commit"
  · subst h1
    cases v with
    | str s =>
      by_cases hx : allHex s = true
      · have heq : subst ctx (chars "commit") (Val.str s) = Val.str ctx.commit := by
          rw [subst_commit_eval]
          show (if allHex s = true then Val.str ctx.commit else Val.str s) = _
          rw [if_pos hx]
        rw [heq]
        rw [subst_commit_eval]
        show (if allHex ctx.commit = true then Val.str ctx.commit
          else Val.str ctx.commit) = _
        exact ite_self _
      · have heq : subst ctx (chars "commit") (Val.str s) = Val.str s := by
          rw [subst_commit_eval]
          show (if allHex s = true then Val.str ctx.commit else Val.str s) = _
          rw [if_neg hx]
        rw [heq, heq]
    | atom a => rfl
    | list es => rfl
  · by_cases h2 : k = chars "urls"
    · subst h2
      cases v with
      | str s => rfl
      | atom a => rfl
      | list es =>
        cases es with
        | nil => rfl
        | cons e es2 =>
          cases e with
          | atom a2 => rfl
          | str s2 =>
            cases es2 with
            | cons f fs => rfl
            | nil =>
              cases hum : urlMatch s2 with
              | none =>
                have heq : subst ctx (chars "urls") (Val.list [SVal.str s2]) =
                    Val.list [SVal.str s2] := by
                  rw [subst_urls_eval]
                  show (match urlMatch s2 with
                    | some m1 => Val.list [SVal.str (m1 ++ ctx.commit ++ chars ".zip")]
                    | none => Val.list [SVal.str s2]) = _
                  rw [hum]
                rw [heq, heq]
              | some m1 =>
                have heq : subst ctx (chars "urls") (Val.list [SVal.str s2]) =
                    Val.list [SVal.str (m1 ++ ctx.commit ++ chars ".zip")] := by
                  rw [subst_urls_eval]
                  show (match urlMatch s2 with
                    | some m1 => Val.list [SVal.str (m1 ++ ctx.commit ++ chars ".zip")]
                    | none => Val.list [SVal.str s2]) = _
                  rw [hum]
                rw [heq]
                rw [subst_urls_eval]
                show (match urlMatch (m1 ++ ctx.commit ++ chars ".zip") with
                  | some m2 => Val.list [SVal.str (m2 ++ ctx.commit ++ chars ".zip")]
                  | none => Val.list [SVal.str (m1 ++ ctx.commit ++ chars ".zip")]) = _
                rw [urlMatch_idem s2 m1 ctx.commit hum hc]
    · by_cases h3 : k = chars "sha256"
      · subst h3
        cases v with
        | str s =>
          by_cases hx : allHex s = true
          · have heq : subst ctx (chars "sha256") (Val.str s) = Val.str ctx.sha := by
              rw [subst_sha_eval]
              show (if allHex s = true then Val.str ctx.sha else Val.str s) = _
              rw [if_pos hx]
            rw [heq]
            rw [subst_sha_eval]
            show (if allHex ctx.sha = true then Val.str ctx.sha
              else Val.str ctx.sha) = _
            exact ite_self _
          · have heq : subst ctx (chars "sha256") (Val.str s) = Val.str s := by
              rw [subst_sha_eval]
              show (if allHex s = true then Val.str ctx.sha else Val.str s) = _
              rw [if_neg hx]
            rw [heq, heq]
        | atom a => rfl
        | list es => rfl
      · by_cases h4 : k = chars "strip_prefix"
        · subst h4
          cases v with
          | atom a => rfl
          | list es => rfl
          | str s =>
            cases hsp : spAux s with
            | none =>
              have heq : subst ctx (chars "strip_prefix") (Val.str s) = Val.str s := by
                rw [subst_sp_eval]
                show (match spAux s with
                  | some m1 => Val.str (m1 ++ ctx.commit)
                  | none => Val.str s) = _
                rw [hsp]
              rw [heq, heq]
            | some m1 =>
              obtain ⟨hm1, hnl⟩ := spAux_eq s m1 hsp
              have heq : subst ctx (chars "strip_prefix") (Val.str s) =
                  Val.str (m1 ++ ctx.commit) := by
                rw [subst_sp_eval]
                show (match spAux s with
                  | some m1 => Val.str (m1 ++ ctx.commit)
                  | none => Val.str s) = _
                rw [hsp]
              rw [heq]
              have hnl2 : noNL (m1 ++ ctx.commit) = true := by
                apply not_mem_noNL
                apply no_nl_append
                · rw [hm1]
                  intro hm
                  exact (noNL_not_mem s hnl) (mem_rtrimHex_mem s _ hm)
                · exact noNL_not_mem _ (allHex_noNL _ hc)
              have hsp2 : spAux (m1 ++ ctx.commit) = some m1 := by
                rw [spAux_of_noNL _ hnl2, hm1, rtrimHex_extend s ctx.commit hc]
              rw [subst_sp_eval]
              show (match spAux (m1 ++ ctx.commit) with
                | some m2 => Val.str (m2 ++ ctx.commit)
                | none => Val.str (m1 ++ ctx.commit)) = _
              rw [hsp2]
        · have heq := subst_other_eval ctx k v h1 h2 h3 h4
          rw [heq, heq]

theorem subst_wf (ctx : Ctx) (hc : allHex ctx.commit = true)
    (hs : allHex ctx.sha = true) (k : Str) (v : Val) (hv : wfVal v = true) :
    wfVal (subst ctx k v) = true := by
  by_cases h1 : k = chars "commit"
  · subst h1
    cases v with
    | str s =>
      by_cases hx : allHex s = true
      · have heq : subst ctx (chars "commit") (Val.str s) = Val.str ctx.commit := by
          rw [subst_commit_eval]
          show (if allHex s = true then Val.str ctx.commit else Val.str s) = _
          rw [if_pos hx]
        rw [heq]
        show wfStrBody ctx.commit = true
        exact allHex_wfStrBody _ hc
      · have heq : subst ctx (chars "commit") (Val.str s) = Val.str s := by
          rw [subst_commit_eval]
          show (if allHex s = true then Val.str ctx.commit else Val.str s) = _
          rw [if_neg hx]
        rw [heq]
        exact hv
    | atom a => exact hv
    | list es => exact hv
  · by_cases h2 : k = chars "urls"
    · subst h2
      cases v with
      | str s => exact hv
      | atom a => exact hv
      | list es =>
        cases es with
        | nil => exact hv
        | cons e es2 =>
          cases e with
          | atom a2 => exact hv
          | str s2 =>
            cases es2 with
            | cons f fs => exact hv
            | nil =>
              cases hum : urlMatch s2 with
              | none =>
                have heq : subst ctx (chars "urls") (Val.list [SVal.str s2]) =
                    Val.list [SVal.str s2] := by
                  rw [subst_urls_eval]
                  show (match urlMatch s2 with
                    | some m1 => Val.list [SVal.str (m1 ++ ctx.commit ++ chars ".zip")]
                    | none => Val.list [SVal.str s2]) = _
                  rw [hum]
                rw [heq]
                exact hv
              | some m1 =>
                have heq : subst ctx (chars "urls") (Val.list [SVal.str s2]) =
                    Val.list [SVal.str (m1 ++ ctx.commit ++ chars ".zip")] := by
                  rw [subst_urls_eval]
                  show (match urlMatch s2 with
                    | some m1 => Val.list [SVal.str (m1 ++ ctx.commit ++ chars ".zip")]
                    | none => Val.list [SVal.str s2]) = _
                  rw [hum]
                rw [heq]
                have hws2 : wfStrBody s2 = true := by
                  simpa [wfVal, wfSVal] using hv
                show (wfStrBody (m1 ++ ctx.commit ++ chars ".zip") && true) = true
                rw [Bool.and_true]
                apply wfStrBody_append
                apply wfStrBody_append
                · exact wfStrBody_sub s2 m1 (urlMatch_sub s2 m1 hum) hws2
                · exact allHex_wfStrBody _ hc
                · decide
    · by_cases h3 : k = chars "sha256"
      · subst h3
        cases v with
        | str s =>
          by_cases hx : allHex s = true
          · have heq : subst ctx (chars "sha256") (Val.str s) = Val.str ctx.sha := by
              rw [subst_sha_eval]
              show (if allHex s = true then Val.str ctx.sha else Val.str s) = _
              rw [if_pos hx]
            rw [heq]
            show wfStrBody ctx.sha = true
            exact allHex_wfStrBody _ hs
          · have heq : subst ctx (chars "sha256") (Val.str s) = Val.str s := by
              rw [subst_sha_eval]
              show (if allHex s = true then Val.str ctx.sha else Val.str s) = _
              rw [if_neg hx]
            rw [heq]
            exact hv
        | atom a => exact hv
        | list es => exact hv
      · by_cases h4 : k = chars "strip_prefix"
        · subst h4
          cases v with
          | atom a => exact hv
          | list es => exact hv
          | str s =>
            cases hsp : spAux s with
            | none =>
              have heq : subst ctx (chars "strip_prefix") (Val.str s) = Val.str s := by
                rw [subst_sp_eval]
                show (match spAux s with
                  | some m1 => Val.str (m1 ++ ctx.commit)
                  | none => Val.str s) = _
                rw [hsp]
              rw [heq]
              exact hv
            | some m1 =>
              obtain ⟨hm1, _⟩ := spAux_eq s m1 hsp
              have heq : subst ctx (chars "strip_prefix") (Val.str s) =
                  Val.str (m1 ++ ctx.commit) := by
                rw [subst_sp_eval]
                show (match spAux s with
                  | some m1 => Val.str (m1 ++ ctx.commit)
                  | none => Val.str s) = _
                rw [hsp]
              rw [heq]
              show wfStrBody (m1 ++ ctx.commit) = true
              apply wfStrBody_append
              · refine wfStrBody_sub s m1 ?_ (by simpa [wfVal] using hv)
                rw [hm1]
                exact fun x hx => mem_rtrimHex_mem s x hx
              · exact allHex_wfStrBody _ hc
        · rw [subst_other_eval ctx k v h1 h2 h3 h4]
          exact hv

theorem rewriteArg_idem (ctx : Ctx) (hok : ctxOk ctx = true) (a : Arg) :
    rewriteArg ctx (rewriteArg ctx a) = rewriteArg ctx a := by
  obtain ⟨hc, hs, hd, hdl⟩ := ctxOk_elim ctx hok
  unfold rewriteArg
  simp only [Arg.mk.injEq]
  refine ⟨?_, trivial, ?_, ?_⟩
  · rw [List.map_map]
    apply List.map_congr_left
    intro x _
    exact replaceDates_idem ctx.date hd hdl x
  · exact subst_idem ctx hc hs a.key a.val
  · rw [Option.map_map]
    apply Option.map_congr
    intro x _
    exact replaceDates_idem ctx.date hd hdl x

theorem rewriteCall_idem (ctx : Ctx) (hok : ctxOk ctx = true) (c : Call) :
    rewriteCall ctx (rewriteCall ctx c) = rewriteCall ctx c := by
  obtain ⟨hc, hs, hd, hdl⟩ := ctxOk_elim ctx hok
  unfold rewriteCall
  simp only [Call.mk.injEq]
  refine ⟨trivial, ?_, ?_⟩
  · rw [List.map_map]
    apply List.map_congr_left
    intro a _
    exact rewriteArg_idem ctx hok a
  · rw [List.map_map]
    apply List.map_congr_left
    intro x _
    exact replaceDates_idem ctx.date hd hdl x

theorem rewriteArg_wf (ctx : Ctx) (hok : ctxOk ctx = true) (a : Arg)
    (ha : wfArg a = true) : wfArg (rewriteArg ctx a) = true := by
  obtain ⟨hc, hs, hd, hdl⟩ := ctxOk_elim ctx hok
  obtain ⟨bf, k, v, sfx⟩ := a
  simp only [wfArg, Bool.and_eq_true] at ha
  obtain ⟨⟨⟨hbf, hkey⟩, hval⟩, hsfx⟩ := ha
  unfold rewriteArg
  simp only [wfArg, Bool.and_eq_true]
  refine ⟨⟨⟨?_, hkey⟩, subst_wf ctx hc hs k v hval⟩, ?_⟩
  · simp only [List.all_map, List.all_eq_true] at hbf ⊢
    intro tok htok
    exact replaceDates_wfComment ctx.date tok hd hdl (hbf tok htok)
  · cases sfx with
    | none => trivial
    | some tok =>
      show wfComment (replaceDates ctx.date tok) = true
      exact replaceDates_wfComment ctx.date tok hd hdl hsfx

theorem rewriteCall_wf (ctx : Ctx) (hok : ctxOk ctx = true) (c : Call)
    (hwf : wfCall c = true) : wfCall (rewriteCall ctx c) = true := by
  obtain ⟨hc, hs, hd, hdl⟩ := ctxOk_elim ctx hok
  obtain ⟨fn, args, tr⟩ := c
  simp only [wfCall, Bool.and_eq_true] at hwf
  obtain ⟨⟨hfn, hargs⟩, htr⟩ := hwf
  unfold rewriteCall
  simp only [wfCall, Bool.and_eq_true]
  refine ⟨⟨hfn, ?_⟩, ?_⟩
  · simp only [List.all_map, List.all_eq_true] at hargs ⊢
    intro a haa
    exact rewriteArg_wf ctx hok a (hargs a haa)
  · simp only [List.all_map, List.all_eq_true] at htr ⊢
    intro tok htok
    exact replaceDates_wfComment ctx.date tok hd hdl (htr tok htok)

theorem stripOne_pfx (p l : Str) : stripOne p (p ++ l) = l := by
  unfold stripOne
  rw [strStarts_append, if_pos rfl]
  exact List.drop_left _ _

theorem stripOne_no_nl (p l : Str) (h : '\n' ∉ l) : '\n' ∉ stripOne p l := by
  unfold stripOne
  split
  · intro hm
    exact h (List.mem_of_mem_drop hm)
  · exact h

theorem stripLines_lines (p : Str) (L : List Str) (hL : L ≠ [])
    (hnl : ∀ l ∈ L, '\n' ∉ l) :
    stripLines p (joinLines L) = joinLines (L.map (stripOne p)) := by
  unfold stripLines
  rw [linesOf_joinLines L hL hnl]

theorem parseBody_joinLines (L : List Str) (hL : L ≠ [])
    (hnl : ∀ l ∈ L, '\n' ∉ l) : parseBody (joinLines L) = parseLines L := by
  unfold parseBody
  rw [linesOf_joinLines L hL hnl]

theorem stripLines_unpfx (p : Str) (L : List Str) (hL : L ≠ [])
    (hnl : ∀ l ∈ L, '\n' ∉ l) (hpnl : '\n' ∉ p) :
    stripLines p (joinLines (L.map (fun l => p ++ l))) = joinLines L := by
  unfold stripLines
  rw [linesOf_joinLines (L.map (fun l => p ++ l))
    (by intro hcon; exact hL (by simpa using hcon))
    (by intro x hx
        obtain ⟨l, hl, rfl⟩ := List.mem_map.mp hx
        exact no_nl_append p l hpnl (hnl l hl))]
  rw [List.map_map]
  have hmap : L.map (stripOne p ∘ (fun l => p ++ l)) = L := by
    conv_rhs => rw [← List.map_id L]
    apply List.map_congr_left
    intro l _
    exact stripOne_pfx p l
  rw [hmap]

theorem stanzaUpdate_parse (ctx : Ctx) (b p : Str) (c : Call)
    (hp : parseBody (stripLines p b) = some c) :
    stanzaUpdate ctx b p = rePfxLines p (dropNL (printCall (rewriteCall ctx c))) := by
  unfold stanzaUpdate
  simp only [hp]

theorem stanzaUpdate_lines (ctx : Ctx) (b p : Str) (c : Call)
    (hp : parseBody (stripLines p b) = some c)
    (hwf : wfCall (rewriteCall ctx c) = true) (hpnl : '\n' ∉ p) :
    linesOf (stanzaUpdate ctx b p) =
      (printLines (rewriteCall ctx c)).map (fun l => p ++ l) := by
  rw [stanzaUpdate_parse ctx b p c hp]
  unfold printCall
  rw [dropNL_append_newline]
  unfold rePfxLines
  rw [linesOf_joinLines _ (printLines_ne_nil _) (printLines_no_nl _ hwf)]
  rw [linesOf_joinLines]
  · intro hcon
    exact printLines_ne_nil (rewriteCall ctx c) (by simpa using hcon)
  · intro x hx
    obtain ⟨l, hl, rfl⟩ := List.mem_map.mp hx
    exact no_nl_append p l hpnl (printLines_no_nl _ hwf l hl)

theorem parseLines_func (l0 : Str) (rest : List Str) (c : Call) (fn : Str)
    (hph : parseHead l0 = some fn) (h : parseLines (l0 :: rest) = some c) :
    c.func = fn := by
  rw [parseLines] at h
  simp only [hph] at h
  cases hpa : parseArgs rest with
  | none => rw [hpa] at h; simp at h
  | some q =>
    simp only [hpa] at h
    obtain rfl : Call.mk fn q.1 q.2 = c := by simpa using h
    rfl

theorem rewriteCall_func (ctx : Ctx) (c : Call) :
    (rewriteCall ctx c).func = c.func := rfl

theorem wfIdent_kindStr (kd : Kind) : wfIdent (kindStr kd) = true := by
  cases kd <;> decide

theorem interior_shape (c : Call) (hc : wfCall c = true) :
    ∀ x ∈ (c.args.map argLines).flatten ++ c.trailing.map (fun tok => ind4 ++ tok),
      ∃ c0 rest, x = ind4 ++ c0 :: rest ∧ (identCh c0 = true ∨ c0 = '#') := by
  obtain ⟨fn, args, tr⟩ := c
  simp only [wfCall, Bool.and_eq_true] at hc
  obtain ⟨⟨hfn, hargs⟩, htr⟩ := hc
  intro x hx
  rcases List.mem_append.mp hx with h1 | h2
  · obtain ⟨L, hL, hxL⟩ := List.mem_flatten.mp h1
    obtain ⟨a, haa, rfl⟩ := List.mem_map.mp hL
    have hwa := List.all_eq_true.mp hargs a haa
    obtain ⟨bf, k, v, sfx⟩ := a
    simp only [wfArg, Bool.and_eq_true] at hwa
    obtain ⟨⟨⟨hbf, hkey⟩, hval⟩, hsfx⟩ := hwa
    simp only [argLines] at hxL
    rcases List.mem_append.mp hxL with h3 | h4
    · obtain ⟨tok, htok, rfl⟩ := List.mem_map.mp h3
      obtain ⟨t, rfl, _⟩ := wfComment_elim tok (List.all_eq_true.mp hbf tok htok)
      exact ⟨'#', t, rfl, Or.inr rfl⟩
    · rw [List.mem_singleton.mp h4]
      simp only [wfIdent, Bool.and_eq_true] at hkey
      cases k with
      | nil => exact absurd hkey.1 (by decide)
      | cons k0 kt =>
        refine ⟨k0, kt ++ (chars " = " ++ (printVal v ++ (',' :: sfxPart sfx))),
          by simp, Or.inl ?_⟩
        have := hkey.2
        simp only [List.all_cons, Bool.and_eq_true] at this
        exact this.1
  · obtain ⟨tok, htok, rfl⟩ := List.mem_map.mp h2
    obtain ⟨t, rfl, _⟩ := wfComment_elim tok (List.all_eq_true.mp htr tok htok)
    exact ⟨'#', t, rfl, Or.inr rfl⟩

theorem allParseL_eq_step (n : Nat) (ls : List Str) (k : Nat) (p : Str)
    (kd : Kind) (j : Nat) (hb : findBegin ls = some (k, p, kd))
    (he : findEnd p (ls.drop k) = some j) :
    allParseL (n + 1) ls =
      ((parseBody (stripLines p (joinLines ((ls.drop k).take (j + 1))))).isSome &&
        allParseL n ((ls.drop k).drop (j + 1))) := by
  rw [allParseL]
  simp only [hb, he]

theorem allParseL_eq_noBegin (n : Nat) (ls : List Str)
    (hb : findBegin ls = none) : allParseL n ls = true := by
  rw [allParseL]
  simp only [hb]

theorem processLines_idem (ctx : Ctx) (hok : ctxOk ctx = true) :
    ∀ (N : Nat) (ls : List Str), ls.length ≤ N → (∀ l ∈ ls, '\n' ∉ l) →
      ∀ (f : Bool) (n : Nat) (out : List Str), ls.length ≤ n →
        processLines ctx n ls f = .ok out → allParseL n ls = true →
        ∀ (m : Nat), out.length ≤ m → processLines ctx m out f = .ok out := by
  intro N
  induction N with
  | zero =>
    intro ls hls hnl f n out hn h hap m hm
    have : ls = [] := List.eq_nil_of_length_eq_zero (Nat.le_zero.mp hls)
    subst this
    rw [processLines_nil] at h
    cases f with
    | true =>
      simp only [if_true, Except.ok.injEq] at h
      subst h
      rw [processLines_nil]
      simp
    | false => simp at h
  | succ N ihN =>
    intro ls hls hnl f n out hn h hap m hm
    cases hb : findBegin ls with
    | none =>
      rw [processLines_eq_noBegin ctx n ls f hb] at h
      cases f with
      | true =>
        simp only [if_true, Except.ok.injEq] at h
        subst h
        rw [processLines_eq_noBegin ctx m ls true hb]
        simp
      | false => simp at h
    | some v =>
      obtain ⟨k, p, kd⟩ := v
      obtain ⟨pre0, l, rest0, hdec, hk, hbl, hpre⟩ := findBegin_spec ls k p kd hb
      have hkl : k < ls.length := findBegin_lt ls k p kd hb
      cases he : findEnd p (ls.drop k) with
      | none =>
        rw [processLines_eq_unterminated ctx n ls f k p kd hb he] at h
        simp at h
      | some j =>
        have hjl : j < (ls.drop k).length := findEnd_lt p (ls.drop k) j he
        rw [List.length_drop] at hjl
        cases n with
        | zero => omega
        | succ n2 =>
          rw [processLines_eq_step ctx n2 ls f k p kd j hb he] at h
          obtain ⟨out2, hout2, ho⟩ := except_map_ok h
          rw [allParseL_eq_step n2 ls k p kd j hb he] at hap
          simp only [Bool.and_eq_true, Option.isSome_iff_exists] at hap
          obtain ⟨⟨c, hpc⟩, hap2⟩ := hap
          have hlshape := isBeginLine_elim l p kd hbl
          have hlnl : '\n' ∉ l := hnl l (by rw [hdec]; simp)
          have hpnl : '\n' ∉ p := by
            intro hmem
            apply hlnl
            rw [hlshape.1]
            exact List.mem_append_left _ (List.mem_append_left _ hmem)
          have hdk : ls.drop k = l :: rest0 := by
            conv_lhs => rw [hdec, ← hk]
            exact List.drop_left pre0 _
          have hpre0 : ls.take k = pre0 := by
            conv_lhs => rw [hdec, ← hk]
            exact List.take_left pre0 _
          have hregion : (ls.drop k).take (j + 1) = l :: rest0.take j := by
            rw [hdk, List.take_succ_cons]
          have hregion_nl : ∀ x ∈ (ls.drop k).take (j + 1), '\n' ∉ x := by
            intro x hx
            exact hnl x (List.mem_of_mem_drop (List.take_subset _ _ hx))
          have hcwf : wfCall c = true := parseBody_wf _ c hpc
          have hfunc : c.func = kindStr kd := by
            have hsl : stripLines p (joinLines ((ls.drop k).take (j + 1))) =
                joinLines (((ls.drop k).take (j + 1)).map (stripOne p)) :=
              stripLines_lines p _ (by rw [hregion]; simp) hregion_nl
            rw [hsl] at hpc
            rw [parseBody_joinLines _ (by rw [hregion]; simp)
              (by intro x hx
                  obtain ⟨y, hy, rfl⟩ := List.mem_map.mp hx
                  exact stripOne_no_nl p y (hregion_nl y hy))] at hpc
            rw [hregion, List.map_cons] at hpc
            have hsol : stripOne p l = kindStr kd ++ ['('] := by
              rw [hlshape.1, List.append_assoc]
              exact stripOne_pfx p _
            rw [hsol] at hpc
            exact parseLines_func _ _ c (kindStr kd)
              (parseHead_print (kindStr kd) (wfIdent_kindStr kd)) hpc
          have hwf2 : wfCall (rewriteCall ctx c) = true := rewriteCall_wf ctx hok c hcwf
          have hM : linesOf (stanzaUpdate ctx
                (joinLines ((ls.drop k).take (j + 1))) p) =
              (printLines (rewriteCall ctx c)).map (fun x => p ++ x) :=
            stanzaUpdate_lines ctx _ p c hpc hwf2 hpnl
          rw [hM, hpre0] at ho
          have hPLex : ∃ I, printLines (rewriteCall ctx c) =
              (kindStr kd ++ ['(']) :: (I ++ [[')']]) ∧
              ∀ x ∈ I, ∃ c0 rest, x = ind4 ++ c0 :: rest ∧
                (identCh c0 = true ∨ c0 = '#') := by
            refine ⟨((rewriteCall ctx c).args.map argLines).flatten ++
              (rewriteCall ctx c).trailing.map (fun tok => ind4 ++ tok),
              ?_, interior_shape _ hwf2⟩
            unfold printLines
            rw [rewriteCall_func, hfunc]
          obtain ⟨I, hPLeq, hIshape⟩ := hPLex
          rw [hPLeq] at ho
          have hMdef : (((kindStr kd ++ ['(']) :: (I ++ [[')']])).map
                (fun x => p ++ x)) =
              (p ++ (kindStr kd ++ ['('])) ::
                (I.map (fun x => p ++ x) ++ [p ++ [')']]) := by
            simp
          rw [hMdef] at ho
          have hbl2 : isBeginLine (p ++ (kindStr kd ++ ['('])) = some (p, kd) := by
            rw [← List.append_assoc]
            exact isBeginLine_intro p kd hlshape.2
          have hb2 : findBegin out = some (k, p, kd) := by
            rw [ho,
              show pre0 ++ ((p ++ (kindStr kd ++ ['('])) ::
                  (I.map (fun x => p ++ x) ++ [p ++ [')']])) ++ out2 =
                pre0 ++ ((p ++ (kindStr kd ++ ['('])) ::
                  ((I.map (fun x => p ++ x) ++ [p ++ [')']]) ++ out2)) from by simp]
            rw [findBegin_append pre0 _ _ hpre _ kd hbl2, hk]
          have hodrop : out.drop k =
              ((p ++ (kindStr kd ++ ['('])) ::
                (I.map (fun x => p ++ x) ++ [p ++ [')']])) ++ out2 := by
            rw [ho, List.append_assoc, ← hk]
            exact List.drop_left pre0 _
          have hIMfalse : ∀ x ∈ (p ++ (kindStr kd ++ ['('])) ::
              I.map (fun x => p ++ x), isEndLine p x = false := by
            intro x hx
            rcases List.mem_cons.mp hx with rfl | hx2
            · rw [isEndLine_append]
              exact endTail_kind kd
            · obtain ⟨y, hy, rfl⟩ := List.mem_map.mp hx2
              obtain ⟨c0, rest, rfl, hc0⟩ := hIshape y hy
              rw [isEndLine_append]
              exact endTail_interior c0 rest hc0
          have hlastT : isEndLine p (p ++ [')']) = true := by
            rw [isEndLine_append]
            exact endTail_close
          have he2 : findEnd p (out.drop k) =
              some ((I.map (fun x => p ++ x)).length + 1) := by
            rw [hodrop,
              show ((p ++ (kindStr kd ++ ['('])) ::
                  (I.map (fun x => p ++ x) ++ [p ++ [')']])) ++ out2 =
                ((p ++ (kindStr kd ++ ['('])) :: I.map (fun x => p ++ x)) ++
                  (p ++ [')']) :: out2 from by simp]
            rw [findEnd_append p _ _ out2 hIMfalse hlastT]
            simp
          have htake2 : (out.drop k).take ((I.map (fun x => p ++ x)).length + 1 + 1) =
              (p ++ (kindStr kd ++ ['('])) ::
                (I.map (fun x => p ++ x) ++ [p ++ [')']]) := by
            rw [hodrop,
              show (I.map (fun x => p ++ x)).length + 1 + 1 =
                ((p ++ (kindStr kd ++ ['('])) ::
                  (I.map (fun x => p ++ x) ++ [p ++ [')']])).length from by simp]
            exact List.take_left _ _
          have hdrop2 : (out.drop k).drop ((I.map (fun x => p ++ x)).length + 1 + 1) =
              out2 := by
            rw [hodrop,
              show (I.map (fun x => p ++ x)).length + 1 + 1 =
                ((p ++ (kindStr kd ++ ['('])) ::
                  (I.map (fun x => p ++ x) ++ [p ++ [')']])).length from by simp]
            exact List.drop_left _ _
          have hotake : out.take k = pre0 := by
            rw [ho, List.append_assoc, ← hk]
            exact List.take_left pre0 _
          have hparse2 : parseBody (stripLines p (joinLines
              ((p ++ (kindStr kd ++ ['('])) ::
                (I.map (fun x => p ++ x) ++ [p ++ [')']])))) =
              some (rewriteCall ctx c) := by
            rw [← hMdef, ← hPLeq,
              stripLines_unpfx p (printLines (rewriteCall ctx c))
                (printLines_ne_nil _) (printLines_no_nl _ hwf2) hpnl]
            exact parseBody_print _ hwf2
          have hwf3 : wfCall (rewriteCall ctx (rewriteCall ctx c)) = true := by
            rw [rewriteCall_idem ctx hok c]
            exact hwf2
          have hsu2 : linesOf (stanzaUpdate ctx (joinLines
              ((p ++ (kindStr kd ++ ['('])) ::
                (I.map (fun x => p ++ x) ++ [p ++ [')']]))) p) =
              (p ++ (kindStr kd ++ ['('])) ::
                (I.map (fun x => p ++ x) ++ [p ++ [')']]) := by
            rw [stanzaUpdate_lines ctx _ p (rewriteCall ctx c) hparse2 hwf3 hpnl,
              rewriteCall_idem ctx hok c, hPLeq]
            exact hMdef
          have hout_len : out.length =
              pre0.length + ((I.map (fun x => p ++ x)).length + 2) + out2.length := by
            rw [ho]
            simp
            omega
          cases m with
          | zero => omega
          | succ m2 =>
            rw [processLines_eq_step ctx m2 out f k p kd
              ((I.map (fun x => p ++ x)).length + 1) hb2 he2]
            rw [htake2, hdrop2, hsu2, hotake]
            have hlen2 : ((ls.drop k).drop (j + 1)).length ≤ N := by
              simp only [List.length_drop]
              omega
            have ihre := ihN ((ls.drop k).drop (j + 1)) hlen2
              (fun x hx => hnl x (List.mem_of_mem_drop (List.mem_of_mem_drop hx)))
              true n2 out2 (by simp only [List.length_drop]; omega) hout2 hap2
            have hm2 : out2.length ≤ m2 := by omega
            rw [ihre m2 hm2]
            simp only [Except.map]
            rw [ho]

theorem processLines_out_no_nl (ctx : Ctx) :
    ∀ (N : Nat) (ls : List Str), ls.length ≤ N → (∀ l ∈ ls, '\n' ∉ l) →
      ∀ (f : Bool) (n : Nat) (out : List Str),
        processLines ctx n ls f = .ok out → ∀ l ∈ out, '\n' ∉ l := by
  intro N
  induction N with
  | zero =>
    intro ls hls hnl f n out h
    have : ls = [] := List.eq_nil_of_length_eq_zero (Nat.le_zero.mp hls)
    subst this
    rw [processLines_nil] at h
    cases f with
    | true =>
      simp only [if_true, Except.ok.injEq] at h
      subst h
      simp
    | false => simp at h
  | succ N ihN =>
    intro ls hls hnl f n out h
    cases hb : findBegin ls with
    | none =>
      rw [processLines_eq_noBegin ctx n ls f hb] at h
      cases f with
      | true =>
        simp only [if_true, Except.ok.injEq] at h
        subst h
        exact hnl
      | false => simp at h
    | some v =>
      obtain ⟨k, p, kd⟩ := v
      have hkl := findBegin_lt ls k p kd hb
      cases he : findEnd p (ls.drop k) with
      | none =>
        rw [processLines_eq_unterminated ctx n ls f k p kd hb he] at h
        simp at h
      | some j =>
        cases n with
        | zero =>
          rw [processLines] at h
          simp only [hb, he] at h
          simp at h
        | succ n2 =>
          rw [processLines_eq_step ctx n2 ls f k p kd j hb he] at h
          obtain ⟨out2, hout2, ho⟩ := except_map_ok h
          intro l hl
          rw [ho] at hl
          rcases List.mem_append.mp hl with h1 | h2
          · rcases List.mem_append.mp h1 with h3 | h4
            · exact hnl l (List.take_subset _ _ h3)
            · exact linesOf_mem_no_nl _ l h4
          · exact ihN ((ls.drop k).drop (j + 1))
              (by simp only [List.length_drop]; omega)
              (fun x hx => hnl x (List.mem_of_mem_drop (List.mem_of_mem_drop hx)))
              true n2 out2 hout2 l h2

theorem update_idem (ctx : Ctx) (hok : ctxOk ctx = true) (s out : Str)
    (h : update ctx s = .ok out)
    (hap : allParseL (linesOf s).length (linesOf s) = true) :
    update ctx out = .ok out := by
  unfold update at h
  cases hpl : processLines ctx (linesOf s).length (linesOf s) false with
  | error e =>
    rw [hpl] at h
    simp [Except.map] at h
  | ok ol =>
    rw [hpl] at h
    simp only [Except.map] at h
    obtain rfl : joinLines ol = out := by simpa using h
    have hnlo : ∀ l ∈ ol, '\n' ∉ l :=
      processLines_out_no_nl ctx (linesOf s).length (linesOf s) le_rfl
        (linesOf_mem_no_nl s) false _ ol hpl
    have holne : ol ≠ [] :=
      processLines_ok_ne_nil ctx _ _ false ol hpl (linesOf_ne_nil s)
    unfold update
    rw [linesOf_joinLines ol holne hnlo]
    rw [processLines_idem ctx hok (linesOf s).length (linesOf s) le_rfl
      (linesOf_mem_no_nl s) false (linesOf s).length ol le_rfl hpl hap
      ol.length le_rfl]
    rfl

theorem processLines_true_no_noStanza (ctx : Ctx) :
    ∀ (N : Nat) (ls : List Str), ls.length ≤ N →
      ∀ (n : Nat), ls.length ≤ n →
        processLines ctx n ls true ≠ .error .noStanza := by
  intro N
  induction N with
  | zero =>
    intro ls hls n hn
    have : ls = [] := List.eq_nil_of_length_eq_zero (Nat.le_zero.mp hls)
    subst this
    rw [processLines_nil]
    simp
  | succ N ihN =>
    intro ls hls n hn
    cases hb : findBegin ls with
    | none =>
      rw [processLines_eq_noBegin ctx n ls true hb]
      simp
    | some v =>
      obtain ⟨k, p, kd⟩ := v
      have hkl := findBegin_lt ls k p kd hb
      cases he : findEnd p (ls.drop k) with
      | none =>
        rw [processLines_eq_unterminated ctx n ls true k p kd hb he]
        simp
      | some j =>
        have hjl := findEnd_lt p (ls.drop k) j he
        rw [List.length_drop] at hjl
        cases n with
        | zero => omega
        | succ n2 =>
          rw [processLines_eq_step ctx n2 ls true k p kd j hb he]
          intro hcon
          cases hrec : processLines ctx n2 ((ls.drop k).drop (j + 1)) true with
          | ok o =>
            rw [hrec] at hcon
            simp [Except.map] at hcon
          | error e =>
            rw [hrec] at hcon
            simp only [Except.map] at hcon
            obtain rfl : e = UpdErr.noStanza := by simpa using hcon
            exact ihN ((ls.drop k).drop (j + 1))
              (by simp only [List.length_drop]; omega) n2
              (by simp only [List.length_drop]; omega) hrec

theorem allEndsFound_eq_noBegin (n : Nat) (ls : List Str)
    (hb : findBegin ls = none) : allEndsFound n ls = true := by
  rw [allEndsFound]
  simp only [hb]

theorem allEndsFound_eq_noEnd (n : Nat) (ls : List Str) (k : Nat) (p : Str)
    (kd : Kind) (hb : findBegin ls = some (k, p, kd))
    (he : findEnd p (ls.drop k) = none) : allEndsFound n ls = false := by
  rw [allEndsFound]
  simp only [hb, he]

theorem allEndsFound_eq_step (n : Nat) (ls : List Str) (k : Nat) (p : Str)
    (kd : Kind) (j : Nat) (hb : findBegin ls = some (k, p, kd))
    (he : findEnd p (ls.drop k) = some j) :
    allEndsFound (n + 1) ls = allEndsFound n ((ls.drop k).drop (j + 1)) := by
  rw [allEndsFound]
  simp only [hb, he]

theorem processLines_ok_iff (ctx : Ctx) :
    ∀ (N : Nat) (ls : List Str), ls.length ≤ N →
      ∀ (f : Bool) (n : Nat), ls.length ≤ n →
        ((∃ o, processLines ctx n ls f = .ok o) ↔
          ((f = false → findBegin ls ≠ none) ∧ allEndsFound n ls = true)) := by
  intro N
  induction N with
  | zero =>
    intro ls hls f n hn
    have : ls = [] := List.eq_nil_of_length_eq_zero (Nat.le_zero.mp hls)
    subst this
    rw [processLines_nil]
    constructor
    · rintro ⟨o, ho⟩
      cases f with
      | true => exact ⟨by simp, allEndsFound_eq_noBegin n [] rfl⟩
      | false => simp at ho
    · rintro ⟨h1, h2⟩
      cases f with
      | true => exact ⟨[], by simp⟩
      | false => exact absurd rfl (h1 rfl)
  | succ N ihN =>
    intro ls hls f n hn
    cases hb : findBegin ls with
    | none =>
      rw [processLines_eq_noBegin ctx n ls f hb, allEndsFound_eq_noBegin n ls hb]
      cases f with
      | true =>
        constructor
        · intro _
          exact ⟨fun hcon => by simp at hcon, rfl⟩
        · intro _
          exact ⟨ls, by simp⟩
      | false =>
        constructor
        · rintro ⟨o, ho⟩
          simp at ho
        · rintro ⟨h1, _⟩
          exact absurd rfl (h1 rfl)
    | some v =>
      obtain ⟨k, p, kd⟩ := v
      have hkl := findBegin_lt ls k p kd hb
      cases he : findEnd p (ls.drop k) with
      | none =>
        rw [processLines_eq_unterminated ctx n ls f k p kd hb he,
          allEndsFound_eq_noEnd n ls k p kd hb he]
        constructor
        · rintro ⟨o, ho⟩
          simp at ho
        · rintro ⟨_, h2⟩
          simp at h2
      | some j =>
        have hjl := findEnd_lt p (ls.drop k) j he
        rw [List.length_drop] at hjl
        cases n with
        | zero => omega
        | succ n2 =>
          rw [processLines_eq_step ctx n2 ls f k p kd j hb he,
            allEndsFound_eq_step n2 ls k p kd j hb he]
          have ihr := ihN ((ls.drop k).drop (j + 1))
            (by simp only [List.length_drop]; omega) true n2
            (by simp only [List.length_drop]; omega)
          constructor
          · rintro ⟨o, ho⟩
            obtain ⟨o2, ho2, _⟩ := except_map_ok ho
            exact ⟨fun _ => by simp, (ihr.mp ⟨o2, ho2⟩).2⟩
          · rintro ⟨_, h2⟩
            obtain ⟨o2, ho2⟩ := ihr.mpr ⟨fun hcon => by simp at hcon, h2⟩
            exact ⟨_, by rw [ho2]; rfl⟩

theorem runFiles_fst (ctx : Ctx) : ∀ (fs : List Str) (b : Bool),
    (runFiles ctx fs b).1 = fs.map (update ctx) := by
  intro fs
  induction fs with
  | nil => intro b; rfl
  | cons f fs2 ih =>
    intro b
    simp only [runFiles, List.map_cons]
    rw [ih]

theorem runFiles_snd (ctx : Ctx) : ∀ (fs : List Str) (b : Bool),
    ((runFiles ctx fs b).2 = true ↔
      (b = true ∧ ∀ f ∈ fs, ∃ o, update ctx f = .ok o)) := by
  intro fs
  induction fs with
  | nil =>
    intro b
    show b = true ↔ _
    constructor
    · intro h
      exact ⟨h, by simp⟩
    · rintro ⟨h, _⟩
      exact h
  | cons f fs2 ih =>
    intro b
    cases hu : update ctx f with
    | ok o =>
      have hstep : (runFiles ctx (f :: fs2) b).2 = (runFiles ctx fs2 b).2 := by
        simp only [runFiles, hu]
      rw [hstep, ih b]
      constructor
      · rintro ⟨hb, hall⟩
        refine ⟨hb, ?_⟩
        intro g hg
        rcases List.mem_cons.mp hg with rfl | hg2
        · exact ⟨o, hu⟩
        · exact hall g hg2
      · rintro ⟨hb, hall⟩
        exact ⟨hb, fun g hg => hall g (List.mem_cons_of_mem _ hg)⟩
    | error e =>
      have hstep : (runFiles ctx (f :: fs2) b).2 = (runFiles ctx fs2 false).2 := by
        simp only [runFiles, hu]
      rw [hstep, ih false]
      constructor
      · rintro ⟨hfalse, _⟩
        exact absurd hfalse (by simp)
      · rintro ⟨_, hall⟩
        obtain ⟨o, ho⟩ := hall f (by simp)
        rw [hu] at ho
        simp at ho

theorem replaceDates_no_match (d s : Str) (h : anyDate s = false) :
    replaceDates d s = s := by
  induction s with
  | nil => rfl
  | cons c t ih =>
    rw [anyDate] at h
    simp only [Bool.or_eq_false_iff] at h
    rw [replaceDates_cons, if_neg (by simp [h.1]), ih h.2]

theorem update_ok_iff (ctx : Ctx) (s : Str) :
    (∃ o, update ctx s = .ok o) ↔
      (∃ ol, processLines ctx (linesOf s).length (linesOf s) false = .ok ol) := by
  unfold update
  cases hpl : processLines ctx (linesOf s).length (linesOf s) false with
  | ok ol => simp [Except.map]
  | error e => simp [Except.map]

theorem update_noStanza_iff (ctx : Ctx) (s : Str) :
    update ctx s = .error .noStanza ↔
      processLines ctx (linesOf s).length (linesOf s) false = .error .noStanza := by
  unfold update
  cases hpl : processLines ctx (linesOf s).length (linesOf s) false with
  | ok ol => simp [Except.map]
  | error e => simp [Except.map]

theorem processLines_noStanza_iff (ctx : Ctx) (ls : List Str) (n : Nat)
    (hn : ls.length ≤ n) :
    processLines ctx n ls false = .error .noStanza ↔ findBegin ls = none := by
  constructor
  · intro h
    cases hb : findBegin ls with
    | none => rfl
    | some v =>
      obtain ⟨k, p, kd⟩ := v
      exfalso
      have hkl := findBegin_lt ls k p kd hb
      cases he : findEnd p (ls.drop k) with
      | none =>
        rw [processLines_eq_unterminated ctx n ls false k p kd hb he] at h
        simp at h
      | some j =>
        have hjl := findEnd_lt p (ls.drop k) j he
        rw [List.length_drop] at hjl
        cases n with
        | zero => omega
        | succ n2 =>
          rw [processLines_eq_step ctx n2 ls false k p kd j hb he] at h
          cases hrec : processLines ctx n2 ((ls.drop k).drop (j + 1)) true with
          | ok o =>
            rw [hrec] at h
            simp [Except.map] at h
          | error e =>
            rw [hrec] at h
            simp only [Except.map] at h
            obtain rfl : e = UpdErr.noStanza := by simpa using h
            exact processLines_true_no_noStanza ctx
              ((ls.drop k).drop (j + 1)).length _ le_rfl n2
              (by simp only [List.length_drop]; omega) hrec
  · intro hb
    rw [processLines_eq_noBegin ctx n ls false hb]
    rfl

theorem scanUnterminated_eq_noBegin (n : Nat) (ls : List Str)
    (hb : findBegin ls = none) : scanUnterminated n ls = none := by
  rw [scanUnterminated]
  simp only [hb]

theorem scanUnterminated_eq_noEnd (n : Nat) (ls : List Str) (k : Nat) (p : Str)
    (kd : Kind) (hb : findBegin ls = some (k, p, kd))
    (he : findEnd p (ls.drop k) = none) : scanUnterminated n ls = some kd := by
  rw [scanUnterminated]
  simp only [hb, he]

theorem scanUnterminated_eq_step (n : Nat) (ls : List Str) (k : Nat) (p : Str)
    (kd : Kind) (j : Nat) (hb : findBegin ls = some (k, p, kd))
    (he : findEnd p (ls.drop k) = some j) :
    scanUnterminated (n + 1) ls = scanUnterminated n ((ls.drop k).drop (j + 1)) := by
  rw [scanUnterminated]
  simp only [hb, he]

theorem processLines_scanUnterminated (ctx : Ctx) :
    ∀ (N : Nat) (ls : List Str), ls.length ≤ N →
      ∀ (f : Bool) (n : Nat), ls.length ≤ n → ∀ (kd : Kind),
        scanUnterminated n ls = some kd →
        processLines ctx n ls f = .error (.unterminated kd) := by
  intro N
  induction N with
  | zero =>
    intro ls hls f n hn kd h
    have : ls = [] := List.eq_nil_of_length_eq_zero (Nat.le_zero.mp hls)
    subst this
    rw [scanUnterminated_eq_noBegin n [] rfl] at h
    simp at h
  | succ N ihN =>
    intro ls hls f n hn kd h
    cases hb : findBegin ls with
    | none =>
      rw [scanUnterminated_eq_noBegin n ls hb] at h
      simp at h
    | some v =>
      obtain ⟨k, p, kd0⟩ := v
      have hkl := findBegin_lt ls k p kd0 hb
      cases he : findEnd p (ls.drop k) with
      | none =>
        rw [scanUnterminated_eq_noEnd n ls k p kd0 hb he] at h
        obtain rfl : kd0 = kd := by simpa using h
        exact processLines_eq_unterminated ctx n ls f k p kd0 hb he
      | some j =>
        have hjl := findEnd_lt p (ls.drop k) j he
        rw [List.length_drop] at hjl
        cases n with
        | zero => omega
        | succ n2 =>
          rw [scanUnterminated_eq_step n2 ls k p kd0 j hb he] at h
          rw [processLines_eq_step ctx n2 ls f k p kd0 j hb he]
          rw [ihN ((ls.drop k).drop (j + 1))
            (by simp only [List.length_drop]; omega) true n2
            (by simp only [List.length_drop]; omega) kd h]
          rfl

/-- Claim C1: for every input file content and every update context, the
bytes produced by `Update` outside the recognized stanza spans are
byte-identical to the corresponding bytes of the input — the file splits
into unchanged pieces interleaved with located stanza regions, and the
output is the same split with each region replaced by its rewritten form. -/
theorem claim_C1 (ctx : Ctx) (s out : Str) (h : update ctx s = .ok out) :
    ∃ cs tail, s = glueIn cs tail ∧ out = glueOut cs tail ∧
      ∀ c ∈ cs, stanzaChunk ctx c := by
  unfold update at h
  cases hpl : processLines ctx (linesOf s).length (linesOf s) false with
  | error e =>
    rw [hpl] at h
    simp [Except.map] at h
  | ok ol =>
    rw [hpl] at h
    simp only [Except.map] at h
    obtain rfl : joinLines ol = out := by simpa using h
    obtain ⟨cs, tail, h1, h2, h3⟩ := processLines_decomp ctx (linesOf s).length
      (linesOf s) le_rfl false (linesOf s).length ol le_rfl hpl
    rw [joinLines_linesOf] at h1
    exact ⟨cs, tail, h1, h2, h3⟩

theorem claim_C1_witness :
    update ctxA (chars "git_override(\n    commit = \"ff\",\n)") =
      .ok (chars "git_override(\n    commit = \"aaaa\",\n)") ∧
    ∃ cs tail, chars "git_override(\n    commit = \"ff\",\n)" = glueIn cs tail ∧
      chars "git_override(\n    commit = \"aaaa\",\n)" = glueOut cs tail ∧
      ∀ c ∈ cs, stanzaChunk ctxA c :=
  ⟨rfl, claim_C1 ctxA (chars "git_override(\n    commit = \"ff\",\n)")
    (chars "git_override(\n    commit = \"aaaa\",\n)") rfl⟩

/-- Claim C2 (amended): the rewriting is idempotent on files whose located
stanza bodies all parse in the structured grammar — for every such file
content on which `Update` succeeds and every fixed update context whose
hashes are hex strings and whose date matches the date pattern, a second
application to the output yields byte-identical output.  (When a located
body fails to parse, the first pass strips the captured comment prefix, so
a second pass can produce different bytes.) -/
theorem claim_C2 (ctx : Ctx) (s out : Str) (hok : ctxOk ctx = true)
    (h : update ctx s = .ok out)
    (hap : allParseL (linesOf s).length (linesOf s) = true) :
    update ctx out = .ok out :=
  update_idem ctx hok s out h hap

theorem claim_C2_witness :
    ctxOk ctxA = true ∧
    update ctxA (chars "git_override(\n    commit = \"ff\",\n)") =
      .ok (chars "git_override(\n    commit = \"aaaa\",\n)") ∧
    allParseL (linesOf (chars "git_override(\n    commit = \"ff\",\n)")).length
      (linesOf (chars "git_override(\n    commit = \"ff\",\n)")) = true ∧
    update ctxA (chars "git_override(\n    commit = \"aaaa\",\n)") =
      .ok (chars "git_override(\n    commit = \"aaaa\",\n)") :=
  ⟨by decide, rfl, by decide,
    claim_C2 ctxA (chars "git_override(\n    commit = \"ff\",\n)")
      (chars "git_override(\n    commit = \"aaaa\",\n)") (by decide) rfl (by decide)⟩

theorem claim_C2_cex :
    update ctxA (chars "#git_override(\n  )\n#)") =
      .ok (chars "git_override(\n  )\n)") ∧
    update ctxA (chars "git_override(\n  )\n)") =
      .ok (chars "git_override(\n)\n)") ∧
    chars "git_override(\n)\n)" ≠ chars "git_override(\n  )\n)" :=
  ⟨rfl, rfl, by decide⟩

/-- Claim C3 (amended): the `visit` switch has no `integrity` case — for
every update context and every right-hand-side value, an assignment
`integrity = <value>` is left completely unchanged by the rewrite; no
algorithm-tagged checksum is computed or substituted. -/
theorem claim_C3 (ctx : Ctx) (v : Val) :
    subst ctx (chars "integrity") v = v :=
  subst_other_eval ctx (chars "integrity") v (by decide) (by decide) (by decide)
    (by decide)

theorem claim_C3_cex :
    update ctxA (chars "git_override(\n    integrity = \"old\",\n)") =
      .ok (chars "git_override(\n    integrity = \"old\",\n)") ∧
    subst ctxA (chars "integrity") (Val.str (chars "old")) =
      Val.str (chars "old") :=
  ⟨rfl, rfl⟩

/-- Claim C4 (amended): for every located stanza whose body fails to parse
in the structured grammar, the rewriter returns the stanza region with the
captured prefix removed from the start of every line — byte-identical to
the located region only when the captured prefix is empty — and reports no
error. -/
theorem claim_C4 (ctx : Ctx) (b p : Str)
    (h : parseBody (stripLines p b) = none) :
    stanzaUpdate ctx b p = stripLines p b := by
  unfold stanzaUpdate
  simp only [h]

theorem claim_C4_witness :
    parseBody (stripLines [] (chars "git_override(\nx x\n)")) = none ∧
    stanzaUpdate ctxA (chars "git_override(\nx x\n)") [] =
      stripLines [] (chars "git_override(\nx x\n)") :=
  ⟨rfl, claim_C4 ctxA (chars "git_override(\nx x\n)") [] rfl⟩

theorem claim_C4_cex :
    update ctxA (chars "#git_override(\n#x x\n#)") =
      .ok (chars "git_override(\nx x\n)") ∧
    chars "git_override(\nx x\n)" ≠ chars "#git_override(\n#x x\n#)" :=
  ⟨rfl, by decide⟩

/-- Claim C5 (amended): for every fully commented-out stanza whose
prefix-stripped body parses in the structured grammar, the rewritten output
has every line still carrying the captured prefix string. -/
theorem claim_C5 (ctx : Ctx) (b p : Str) (hok : ctxOk ctx = true)
    (hp : (parseBody (stripLines p b)).isSome = true) (hpnl : '\n' ∉ p) :
    ∀ l ∈ linesOf (stanzaUpdate ctx b p), strStarts p l = true := by
  obtain ⟨c, hc⟩ := Option.isSome_iff_exists.mp hp
  rw [stanzaUpdate_lines ctx b p c hc
    (rewriteCall_wf ctx hok c (parseBody_wf _ c hc)) hpnl]
  intro l hl
  obtain ⟨x, hx, rfl⟩ := List.mem_map.mp hl
  exact strStarts_append p x

theorem claim_C5_witness :
    ctxOk ctxA = true ∧
    (parseBody (stripLines (chars "#")
      (chars "#git_override(\n#    commit = \"ff\",\n#)"))).isSome = true ∧
    ('\n' ∉ chars "#") ∧
    ∀ l ∈ linesOf (stanzaUpdate ctxA
        (chars "#git_override(\n#    commit = \"ff\",\n#)") (chars "#")),
      strStarts (chars "#") l = true :=
  ⟨by decide, by decide, by decide,
    claim_C5 ctxA (chars "#git_override(\n#    commit = \"ff\",\n#)") (chars "#")
      (by decide) (by decide) (by decide)⟩

theorem claim_C5_cex :
    update ctxA (chars "//git_override(\n//y y\n//)") =
      .ok (chars "git_override(\ny y\n)") ∧
    strStarts (chars "//") (chars "git_override(\ny y\n)") = false :=
  ⟨rfl, by decide⟩

/-- Claim C6 (amended): when a begin marker located at any iteration of the
left-to-right scan (which resumes after each stanza's end marker) has no
subsequent end line for its captured prefix, `Update` returns the
unterminated-stanza error for that file and no output is written — the file
content is unchanged, even if earlier stanzas in the same file were located
and rewritten.  A begin-marker line lying inside an earlier located stanza's
region is consumed with that region and never considered. -/
theorem claim_C6 (ctx : Ctx) (s : Str) (kd : Kind)
    (h : scanUnterminated (linesOf s).length (linesOf s) = some kd) :
    update ctx s = .error (.unterminated kd) ∧ fileAfter ctx s = s := by
  have hu : update ctx s = .error (.unterminated kd) := by
    unfold update
    rw [processLines_scanUnterminated ctx (linesOf s).length (linesOf s) le_rfl
      false (linesOf s).length le_rfl kd h]
    rfl
  refine ⟨hu, ?_⟩
  unfold fileAfter
  rw [hu]

theorem claim_C6_witness :
    scanUnterminated (linesOf (chars "git_override(\n)\nhttp_archive(")).length
      (linesOf (chars "git_override(\n)\nhttp_archive(")) = some Kind.http ∧
    (update ctxA (chars "git_override(\n)\nhttp_archive(") =
        .error (.unterminated Kind.http) ∧
      fileAfter ctxA (chars "git_override(\n)\nhttp_archive(") =
        chars "git_override(\n)\nhttp_archive(") :=
  ⟨rfl, claim_C6 ctxA (chars "git_override(\n)\nhttp_archive(") Kind.http rfl⟩

theorem claim_C6_cex :
    update ctxA (chars "git_override(\n# git_override(\n)") =
      .ok (chars "git_override(\n    # git_override(\n)") ∧
    isBeginLine (chars "# git_override(") = some (chars "# ", Kind.git) ∧
    (chars "# git_override(") ∈ linesOf (chars "git_override(\n# git_override(\n)") ∧
    findEnd (chars "# ")
      (linesOf (chars "git_override(\n# git_override(\n)")) = none :=
  ⟨rfl, by decide, by decide, by decide⟩

/-- Claim C7 (amended): comment tokens attached to a parsed argument are
rewritten by `replaceDates`, which replaces exactly the leftmost
non-overlapping windows matching `20\d\d-\d\d-\d\d` with the context's
date: a comment with no such window is unchanged, and a window matching the
pattern at the scan position is replaced. -/
theorem claim_C7 (ctx : Ctx) (a : Arg) (s : Str) (c : Char) (u : Str)
    (hno : anyDate s = false) (hm : match10 (c :: u) = true) :
    (rewriteArg ctx a).before = a.before.map (replaceDates ctx.date) ∧
    (rewriteArg ctx a).sfx = a.sfx.map (replaceDates ctx.date) ∧
    replaceDates ctx.date s = s ∧
    replaceDates ctx.date (c :: u) =
      ctx.date ++ replaceDates ctx.date (u.drop 9) := by
  refine ⟨rfl, rfl, replaceDates_no_match _ s hno, ?_⟩
  rw [replaceDates_cons, if_pos hm]

theorem claim_C7_witness :
    anyDate (chars "# updated 1999-01-01") = false ∧
    match10 ('2' :: chars "020-01-02") = true ∧
    replaceDates ctxA.date (chars "# updated 1999-01-01") =
      chars "# updated 1999-01-01" ∧
    replaceDates ctxA.date ('2' :: chars "020-01-02") =
      ctxA.date ++ replaceDates ctxA.date ((chars "020-01-02").drop 9) :=
  ⟨by decide, by decide,
    (claim_C7 ctxA ⟨[], chars "k", Val.atom (chars "v"), none⟩
      (chars "# updated 1999-01-01") '2' (chars "020-01-02")
      (by decide) (by decide)).2.2.1,
    (claim_C7 ctxA ⟨[], chars "k", Val.atom (chars "v"), none⟩
      (chars "# updated 1999-01-01") '2' (chars "020-01-02")
      (by decide) (by decide)).2.2.2⟩

theorem claim_C7_cex :
    replaceDates (chars "2021-04-24") (chars "# updated: 1999-01-01") =
      chars "# updated: 1999-01-01" ∧
    specDateYMD (chars "1999-01-01") = true ∧
    chars "1999-01-01" ≠ chars "2021-04-24" :=
  ⟨rfl, by decide, by decide⟩

/-- Claim C8: a `commit` or `sha256` assignment whose string value is not
entirely hex digits, a `urls` assignment whose list does not have exactly
one string element or whose string does not match the URL pattern, and any
targeted field whose right-hand side is not the expected expression shape,
are all left unchanged by the rewrite. -/
theorem claim_C8 (ctx : Ctx) (s a : Str) (e1 e2 : SVal) (es : List SVal)
    (hhex : allHex s = false) (hurl : urlMatch s = none) :
    subst ctx (chars "commit") (Val.str s) = Val.str s ∧
    subst ctx (chars "sha256") (Val.str s) = Val.str s ∧
    subst ctx (chars "urls") (Val.list [SVal.str s]) = Val.list [SVal.str s] ∧
    subst ctx (chars "urls") (Val.list (e1 :: e2 :: es)) =
      Val.list (e1 :: e2 :: es) ∧
    subst ctx (chars "urls") (Val.str s) = Val.str s ∧
    subst ctx (chars "commit") (Val.atom a) = Val.atom a := by
  refine ⟨?_, ?_, ?_, ?_, ?_, ?_⟩
  · rw [subst_commit_eval]
    show (if allHex s = true then Val.str ctx.commit else Val.str s) = _
    rw [if_neg (by simp [hhex])]
  · rw [subst_sha_eval]
    show (if allHex s = true then Val.str ctx.sha else Val.str s) = _
    rw [if_neg (by simp [hhex])]
  · rw [subst_urls_eval]
    show (match urlMatch s with
      | some m1 => Val.list [SVal.str (m1 ++ ctx.commit ++ chars ".zip")]
      | none => Val.list [SVal.str s]) = _
    rw [hurl]
  · cases e1 with
    | str s1 => rfl
    | atom a1 => rfl
  · rfl
  · rfl

theorem claim_C8_witness :
    allHex (chars "not-a-hash") = false ∧
    urlMatch (chars "not-a-hash") = none ∧
    (subst ctxA (chars "commit") (Val.str (chars "not-a-hash")) =
        Val.str (chars "not-a-hash") ∧
      subst ctxA (chars "sha256") (Val.str (chars "not-a-hash")) =
        Val.str (chars "not-a-hash") ∧
      subst ctxA (chars "urls") (Val.list [SVal.str (chars "not-a-hash")]) =
        Val.list [SVal.str (chars "not-a-hash")] ∧
      subst ctxA (chars "urls")
          (Val.list (SVal.str (chars "u") :: SVal.str (chars "v") :: [])) =
        Val.list (SVal.str (chars "u") :: SVal.str (chars "v") :: []) ∧
      subst ctxA (chars "urls") (Val.str (chars "not-a-hash")) =
        Val.str (chars "not-a-hash") ∧
      subst ctxA (chars "commit") (Val.atom (chars "x")) =
        Val.atom (chars "x")) :=
  ⟨by decide, by decide,
    claim_C8 ctxA (chars "not-a-hash") (chars "x") (SVal.str (chars "u"))
      (SVal.str (chars "v")) [] (by decide) (by decide)⟩

/-- Claim C9: `Update` fails with the no-stanza error exactly when the scan
finds no begin marker of either kind; it succeeds exactly when a begin
marker exists and every begin marker located by the scan has a matching end
line (independent of the stanza kinds, so one kind may be absent); and the
file loop of `main` runs `update` on every file regardless of earlier
failures, with the success flag true exactly when every file succeeded. -/
theorem claim_C9 (ctx : Ctx) (s : Str) (fs : List Str) :
    (update ctx s = .error .noStanza ↔ findBegin (linesOf s) = none) ∧
    ((∃ o, update ctx s = .ok o) ↔
      (findBegin (linesOf s) ≠ none ∧
        allEndsFound (linesOf s).length (linesOf s) = true)) ∧
    (runFiles ctx fs true).1 = fs.map (update ctx) ∧
    ((runFiles ctx fs true).2 = true ↔ ∀ f ∈ fs, ∃ o, update ctx f = .ok o) := by
  refine ⟨?_, ?_, runFiles_fst ctx fs true, ?_⟩
  · rw [update_noStanza_iff]
    exact processLines_noStanza_iff ctx (linesOf s) _ le_rfl
  · rw [update_ok_iff]
    rw [processLines_ok_iff ctx (linesOf s).length (linesOf s) le_rfl false _ le_rfl]
    constructor
    · rintro ⟨h1, h2⟩
      exact ⟨h1 rfl, h2⟩
    · rintro ⟨h1, h2⟩
      exact ⟨fun _ => h1, h2⟩
  · rw [runFiles_snd ctx fs true]
    constructor
    · rintro ⟨_, h⟩
      exact h
    · intro h
      exact ⟨rfl, h⟩

/-- Claim C10 (amended): a `strip_prefix` assignment whose string value
contains no newline is always rewritten — the new value is the original
string with its maximal trailing run of hex digits removed and the commit
hash appended; a value containing a newline does not match
`stripPrefixPattern` and is left unchanged. -/
theorem claim_C10 (ctx : Ctx) (s : Str) :
    (noNL s = true → subst ctx (chars "strip_prefix") (Val.str s) =
      Val.str (rtrimHex s ++ ctx.commit)) ∧
    (noNL s = false → subst ctx (chars "strip_prefix") (Val.str s) =
      Val.str s) := by
  constructor
  · intro h
    rw [subst_sp_eval]
    show (match spAux s with
      | some m1 => Val.str (m1 ++ ctx.commit)
      | none => Val.str s) = _
    rw [spAux_of_noNL s h]
  · intro h
    rw [subst_sp_eval]
    show (match spAux s with
      | some m1 => Val.str (m1 ++ ctx.commit)
      | none => Val.str s) = _
    rw [spAux_of_newline s h]

theorem claim_C10_witness :
    noNL (chars "repo-") = true ∧
    subst ctxA (chars "strip_prefix") (Val.str (chars "repo-")) =
      Val.str (rtrimHex (chars "repo-") ++ ctxA.commit) :=
  ⟨by decide, (claim_C10 ctxA (chars "repo-")).1 (by decide)⟩

theorem claim_C10_cex :
    subst ctxA (chars "strip_prefix") (Val.str (chars "a\nb")) =
      Val.str (chars "a\nb") ∧
    chars "a\nb" ≠ rtrimHex (chars "a\nb") ++ ctxA.commit :=
  ⟨rfl, by decide⟩

end UWS
